import Mathlib

/-!
# Token-bucket rate limiter: a shallow embedding of `lib.go`

The Go package `drl` is embedded with the arithmetic of the machine.

* `float64` is `F64`: a finite value (a rational), an infinity or NaN. Every
  operation computes the exact result and rounds it to the nearest binary64
  value, ties to even (`F64.round`), operation by operation as the compiler for
  amd64 emits them (no fused multiply-add). The sign of zero is not
  represented: no operation of `Allow` can tell the two zeros apart for a
  configuration that `New` accepts.
* `int`, `int64` and `time.Duration` are `Int` values that stay within 64 bits:
  `Window * 2` wraps (`wrapInt64`), `now.Sub` saturates (`timeSub`), and a
  conversion from `float64` truncates toward zero when the value fits and is
  otherwise whatever the architecture gives (`Arch`; Go leaves it
  implementation-dependent).
* `time.Time` is an integer count of nanoseconds.
* A Go `error` is `Option String` (`none` is `nil`); `fmt.Errorf` with `%w`
  prepends its message to the wrapped one.
* The `Store` interface is a record of three operations that thread an explicit
  store state `σ`. `Get` returns a `*State`: the value it points to together
  with the effect on the store of a write through the pointer (`StateRef`).
  The `context.Context` argument carries no data of the algorithm and is left out.
* `time.Now()` inside `Allow` is the parameter `now`.
-/

namespace Drl

/-! ## Binary64 arithmetic -/

/-- Round a rational to the nearest integer, ties to the even one. -/
def roundHalfEven (y : ℚ) : Int :=
  if y - Int.floor y < 1 / 2 then Int.floor y
  else if 1 / 2 < y - Int.floor y then Int.floor y + 1
  else if Int.floor y % 2 = 0 then Int.floor y
  else Int.floor y + 1

/-- Exponent of the unit in the last place of the binary64 values around `q`: 53
significant bits, and never below the subnormal spacing `2 ^ (-1074)`. -/
def ulpExp (q : ℚ) : Int :=
  max (Int.log 2 |q| - 52) (-1074)

/-- Round a rational to the nearest multiple of its unit in the last place. -/
def roundQ (q : ℚ) : ℚ :=
  (roundHalfEven (q / (2 : ℚ) ^ ulpExp q) : ℚ) * (2 : ℚ) ^ ulpExp q

/-- A `float64` value. -/
inductive F64 where
  | fin (q : ℚ)
  | inf (negative : Bool)
  | nan
deriving DecidableEq, Repr

/-- Round an exact result to binary64: to nearest, ties to even, and to an
infinity from `2 ^ 1024` on. -/
def F64.round (q : ℚ) : F64 :=
  if (2 : ℚ) ^ (1024 : Int) ≤ |roundQ q| then F64.inf (decide (q < 0)) else F64.fin (roundQ q)

/-- Conversion `float64(n)` of an integer. -/
def F64.ofInt (n : Int) : F64 :=
  F64.round (n : ℚ)

/-- Negation. -/
def F64.neg : F64 → F64
  | F64.fin a => F64.fin (-a)
  | F64.inf s => F64.inf (!s)
  | F64.nan => F64.nan

/-- Addition `a + b`. -/
def F64.add : F64 → F64 → F64
  | F64.fin a, F64.fin b => F64.round (a + b)
  | F64.fin _, F64.inf s => F64.inf s
  | F64.inf s, F64.fin _ => F64.inf s
  | F64.inf s, F64.inf t => if s = t then F64.inf s else F64.nan
  | _, _ => F64.nan

/-- Subtraction `a - b`. -/
def F64.sub (a b : F64) : F64 :=
  F64.add a (F64.neg b)

/-- Multiplication `a * b`. -/
def F64.mul : F64 → F64 → F64
  | F64.fin a, F64.fin b => F64.round (a * b)
  | F64.fin a, F64.inf s => if a = 0 then F64.nan else F64.inf (xor (decide (a < 0)) s)
  | F64.inf s, F64.fin b => if b = 0 then F64.nan else F64.inf (xor s (decide (b < 0)))
  | F64.inf s, F64.inf t => F64.inf (xor s t)
  | _, _ => F64.nan

/-- Division `a / b`. -/
def F64.div : F64 → F64 → F64
  | F64.fin a, F64.fin b =>
    if b = 0 then (if a = 0 then F64.nan else F64.inf (decide (a < 0)))
    else F64.round (a / b)
  | F64.fin _, F64.inf _ => F64.fin 0
  | F64.inf s, F64.fin b => F64.inf (xor s (decide (b < 0)))
  | _, _ => F64.nan

/-- Comparison `a < b`; false when either side is NaN. -/
def F64.lt : F64 → F64 → Bool
  | F64.fin a, F64.fin b => decide (a < b)
  | F64.fin _, F64.inf s => !s
  | F64.inf s, F64.fin _ => s
  | F64.inf s, F64.inf t => s && !t
  | _, _ => false

/-- Comparison `a ≤ b`; false when either side is NaN. -/
def F64.le : F64 → F64 → Bool
  | F64.fin a, F64.fin b => decide (a ≤ b)
  | F64.fin _, F64.inf s => !s
  | F64.inf s, F64.fin _ => s
  | F64.inf s, F64.inf t => s || !t
  | _, _ => false

/-- Discard the fraction of a rational (truncation toward zero). -/
def truncToInt (q : ℚ) : Int :=
  if 0 ≤ q then Int.floor q else Int.ceil q

/-- The target architecture, as far as the program depends on it: the result of
converting to `int64` a `float64` whose value does not fit. -/
structure Arch where
  convOutOfRange : F64 → Int

/-- On amd64 the conversion instruction returns the least `int64` for every
value that does not fit, NaN included. -/
def amd64 : Arch where
  convOutOfRange := fun _ => -9223372036854775808

/-- Conversions `int(x)` and `time.Duration(x)` of a `float64` to a 64-bit
integer. -/
def F64.toInt64 (arch : Arch) (x : F64) : Int :=
  match x with
  | F64.fin q =>
    if -9223372036854775808 ≤ truncToInt q ∧ truncToInt q ≤ 9223372036854775807 then
      truncToInt q
    else arch.convOutOfRange x
  | _ => arch.convOutOfRange x

/-- Reduce an integer to the `int64` it is after overflow (two's complement). -/
def wrapInt64 (n : Int) : Int :=
  (n + 9223372036854775808) % 18446744073709551616 - 9223372036854775808

/-- The method `Time.Sub`: the difference as a `time.Duration`, or the largest
(smallest) duration when the difference does not fit. -/
def timeSub (t u : Int) : Int :=
  max (-9223372036854775808) (min 9223372036854775807 (t - u))

/-! ## Data model (lib.go, lines 19-57) -/

/-- Config holds the configuration for the rate limiter. -/
structure Config where
  Rate : Int
  Window : Int  -- time.Duration, nanoseconds
  BurstSize : Int
deriving DecidableEq, Repr

/-- The fields of a `Config` are 64-bit integers. -/
def Config.inRange (c : Config) : Prop :=
  (-9223372036854775808 ≤ c.Rate ∧ c.Rate ≤ 9223372036854775807) ∧
    (-9223372036854775808 ≤ c.Window ∧ c.Window ≤ 9223372036854775807) ∧
    (-9223372036854775808 ≤ c.BurstSize ∧ c.BurstSize ≤ 9223372036854775807)

instance (c : Config) : Decidable c.inRange := by
  unfold Config.inRange
  infer_instance

/-- State represents the current state of rate limiting for a key. -/
structure State where
  Tokens : F64
  LastRefill : Int  -- time.Time, nanoseconds
deriving DecidableEq, Repr

/-- A `*State` handed out by a store: the State it points to, and what a write
through the pointer does to the store (nothing, for a store that returns a
copy). -/
structure StateRef (σ : Type) where
  val : State
  write : State → σ → σ

/-- Store defines the interface for the backing storage. `Get` returns the pair
`(*State, error)` of the Go signature; `Set` and `Delete` return the Go `error`. -/
structure Store (σ : Type) where
  Get : σ → String → σ × (Option (StateRef σ) × Option String)
  Set : σ → String → State → Int → σ × Option String
  Delete : σ → String → σ × Option String

/-- The struct `limiter`: a configuration and a store. -/
structure limiter (σ : Type) where
  config : Config
  store : Store σ

/-- The four values returned by `Allow`: allowed, remaining tokens, time until
reset, error. -/
structure Result where
  allowed : Bool
  remaining : Int
  resetAfter : Int  -- time.Duration, nanoseconds
  err : Option String
deriving DecidableEq, Repr

/-! ## Operations (lib.go, lines 59-130) -/

/-- New creates a new rate limiter. -/
def New {σ : Type} (config : Config) (store : Store σ) : Except String (limiter σ) :=
  if config.Rate ≤ 0 then
    Except.error "rate must be positive"
  else if config.Window ≤ 0 then
    Except.error "window must be positive"
  else
    let config :=
      if config.BurstSize < config.Rate then { config with BurstSize := config.Rate }
      else config
    Except.ok { config := config, store := store }

/-- Allow implements the token bucket algorithm. -/
def limiter.Allow {σ : Type} (arch : Arch) (l : limiter σ) (s : σ) (now : Int)
    (key : String) : σ × Result :=
  match l.store.Get s key with
  | (s1, _, some e) => (s1, ⟨false, 0, 0, some ("failed to get state: " ++ e)⟩)
  | (s1, got, none) =>
    -- If this is a new key, initialize it with full tokens
    let state : State :=
      match got with
      | none => { Tokens := F64.ofInt l.config.BurstSize, LastRefill := now }
      | some ref => ref.val
    -- Calculate tokens to add based on time passed
    let timePassed : Int := timeSub now state.LastRefill
    let tokensToAdd : F64 :=
      F64.mul (F64.div (F64.ofInt l.config.Rate) (F64.ofInt l.config.Window))
        (F64.ofInt timePassed)
    -- Add new tokens, not exceeding burst size
    let newTokens : F64 := F64.add state.Tokens tokensToAdd
    let newTokens : F64 :=
      if F64.lt (F64.ofInt l.config.BurstSize) newTokens then F64.ofInt l.config.BurstSize
      else newTokens
    -- Check if we can fulfill the request
    let allowed : Bool := F64.le (F64.fin 1) newTokens
    let newTokens : F64 := if allowed then F64.sub newTokens (F64.fin 1) else newTokens
    -- Update state: two writes through the pointer
    let s1 : σ :=
      match got with
      | none => s1
      | some ref =>
        ref.write { Tokens := newTokens, LastRefill := now }
          (ref.write { Tokens := newTokens, LastRefill := state.LastRefill } s1)
    let state : State := { Tokens := newTokens, LastRefill := now }
    -- Calculate reset time (time until bucket is full)
    let tokensNeeded : F64 := F64.sub (F64.ofInt l.config.BurstSize) newTokens
    let refillRate : F64 := F64.div (F64.ofInt l.config.Rate) (F64.ofInt l.config.Window)
    let resetDuration : Int := F64.toInt64 arch (F64.div tokensNeeded refillRate)
    -- Store updated state with TTL of 2x window
    match l.store.Set s1 key state (wrapInt64 (l.config.Window * 2)) with
    | (s2, some e) => (s2, ⟨false, 0, 0, some ("failed to store state: " ++ e)⟩)
    | (s2, none) => (s2, ⟨allowed, F64.toInt64 arch newTokens, resetDuration, none⟩)

/-- Reset implements the RateLimiter interface. -/
def limiter.Reset {σ : Type} (l : limiter σ) (s : σ) (key : String) : σ × Option String :=
  l.store.Delete s key

/-! ## Serialized call sequences -/

/-- A call on the public interface of the limiter: `Allow` (with the reading
that `time.Now()` gives inside the call) or `Reset`. -/
inductive Op where
  | allow (now : Int) (key : String)
  | reset (key : String)
deriving DecidableEq, Repr

/-- The clock readings taken by a sequence of calls, in order (`Reset` reads no
clock). -/
def Op.times : List Op → List Int
  | [] => []
  | Op.allow now _ :: ops => now :: Op.times ops
  | Op.reset _ :: ops => Op.times ops

/-- Run a sequence of serialized `Allow` and `Reset` calls, threading the store. -/
def limiter.run {σ : Type} (arch : Arch) (l : limiter σ) : List Op → σ → σ
  | [], s => s
  | Op.allow now key :: ops, s => limiter.run arch l ops (l.Allow arch s now key).1
  | Op.reset key :: ops, s => limiter.run arch l ops (l.Reset s key).1

/-- Serialized `Allow` calls on one key at the given clock readings; the results
of the calls, in order. -/
def limiter.allowSeq {σ : Type} (arch : Arch) (l : limiter σ) (key : String) :
    List Int → σ → List Result
  | [], _ => []
  | now :: ts, s =>
    (l.Allow arch s now key).2 :: limiter.allowSeq arch l key ts (l.Allow arch s now key).1

/-- The store state left by serialized `Allow` calls on one key. -/
def limiter.allowSeqStore {σ : Type} (arch : Arch) (l : limiter σ) (key : String) :
    List Int → σ → σ
  | [], s => s
  | now :: ts, s => limiter.allowSeqStore arch l key ts (l.Allow arch s now key).1

/-- Number of admitted calls among a list of results. -/
def admitted (rs : List Result) : Nat :=
  (rs.filter (fun r => r.allowed)).length

/-! ## Stores -/

/-- An in-memory store that never fails and returns what was last set: the
`Store` contract (`Get` retrieves the current state for a key, `Set` updates it,
`Delete` removes the key) over a finite map, without expiry. Like the store of
`store/redis`, `Get` hands out a copy: a write through the pointer it returns
does not reach the store. -/
def mapStore : Store (String → Option State) where
  Get := fun m key => (m, (m key).map (fun st => ⟨st, fun _ s => s⟩), none)
  Set := fun m key st _ => (Function.update m key (some st), none)
  Delete := fun m key => (Function.update m key none, none)

/-- A call received by a store. -/
inductive Call where
  | get (key : String)
  | set (key : String) (state : State) (ttl : Int)
  | delete (key : String)
deriving DecidableEq, Repr

/-- Wrap a store so that it records, in order, every call it receives; the
results and the inner store state are those of the wrapped store. -/
def Store.recording {σ : Type} (S : Store σ) : Store (σ × List Call) where
  Get := fun s key =>
    (((S.Get s.1 key).1, s.2 ++ [Call.get key]),
      ((S.Get s.1 key).2.1.map (fun ref => ⟨ref.val, fun st t => (ref.write st t.1, t.2)⟩),
        (S.Get s.1 key).2.2))
  Set := fun s key st ttl =>
    (((S.Set s.1 key st ttl).1, s.2 ++ [Call.set key st ttl]), (S.Set s.1 key st ttl).2)
  Delete := fun s key =>
    (((S.Delete s.1 key).1, s.2 ++ [Call.delete key]), (S.Delete s.1 key).2)

/-- Modelled from the spec: what a store with expiry reports for an entry when
its clock reads `clock`. An entry is a State with the instant at which its TTL
runs out; from that instant on the key has expired and `Get` returns absent. -/
def liveAt (clock : Int) (entry : Option (State × Int)) : Option State :=
  match entry with
  | some (st, deadline) => if clock < deadline then some st else none
  | none => none

/-- Modelled from the spec: the `Store` contract with native expiry (the backend
of `store/redis` is an external service). The store state is the reading of the
clock of the store together with the entries; `Set` overwrites unconditionally and
lets the entry run out `ttl` after the current reading, `Get` returns a copy of
what is live, or absent for a key that was never set or has expired, `Delete`
removes the key. -/
def expiringStore : Store (Int × (String → Option (State × Int))) where
  Get := fun s key => (s, (liveAt s.1 (s.2 key)).map (fun st => ⟨st, fun _ t => t⟩), none)
  Set := fun s key st ttl => ((s.1, Function.update s.2 key (some (st, s.1 + ttl))), none)
  Delete := fun s key => ((s.1, Function.update s.2 key none), none)

/-! ## The step of `Allow`, piece by piece -/

/-- Lines 96 and 116: `float64(Rate) / float64(Window)`. -/
def refillRate (c : Config) : F64 :=
  F64.div (F64.ofInt c.Rate) (F64.ofInt c.Window)

/-- Lines 87-92: the State the call starts from. -/
def priorState (c : Config) (prior : Option State) (now : Int) : State :=
  match prior with
  | some st => st
  | none => { Tokens := F64.ofInt c.BurstSize, LastRefill := now }

/-- Lines 95-102: the tokens after the refill, capped at the burst size. -/
def refilled (c : Config) (prior : Option State) (now : Int) : F64 :=
  if F64.lt (F64.ofInt c.BurstSize)
      (F64.add (priorState c prior now).Tokens
        (F64.mul (refillRate c) (F64.ofInt (timeSub now (priorState c prior now).LastRefill))))
  then F64.ofInt c.BurstSize
  else
    F64.add (priorState c prior now).Tokens
      (F64.mul (refillRate c) (F64.ofInt (timeSub now (priorState c prior now).LastRefill)))

/-- Line 105: the decision. -/
def stepAllowed (c : Config) (prior : Option State) (now : Int) : Bool :=
  F64.le (F64.fin 1) (refilled c prior now)

/-- Lines 106-108: the tokens left after the decision. -/
def stepTokens (c : Config) (prior : Option State) (now : Int) : F64 :=
  if stepAllowed c prior now then F64.sub (refilled c prior now) (F64.fin 1)
  else refilled c prior now

/-- Lines 111-112: the State handed to `Set`. -/
def stepState (c : Config) (prior : Option State) (now : Int) : State :=
  { Tokens := stepTokens c prior now, LastRefill := now }

/-- Lines 115-117, before the conversion: `tokensNeeded / refillRate`. -/
def resetQuotient (c : Config) (prior : Option State) (now : Int) : F64 :=
  F64.div (F64.sub (F64.ofInt c.BurstSize) (stepTokens c prior now)) (refillRate c)

/-- Line 124: the values returned when both store calls succeed. -/
def stepResult (arch : Arch) (c : Config) (prior : Option State) (now : Int) : Result :=
  { allowed := stepAllowed c prior now
    remaining := F64.toInt64 arch (stepTokens c prior now)
    resetAfter := F64.toInt64 arch (resetQuotient c prior now)
    err := none }

/-- Lines 111-112 as seen by the store: the two writes through the pointer that
`Get` returned (none when it returned nil). -/
def writeThrough {σ : Type} (got : Option (StateRef σ)) (tokens : F64) (now : Int) (s : σ) :
    σ :=
  match got with
  | none => s
  | some ref =>
    ref.write { Tokens := tokens, LastRefill := now }
      (ref.write { Tokens := tokens, LastRefill := ref.val.LastRefill } s)

/-! ## The step over finite values

When no intermediate result is an infinity or NaN, the step of `Allow` is a
computation on rationals with a rounding after each operation. -/

/-- The configurations that `New` returns when the fields are 64-bit integers. -/
def Config.valid (c : Config) : Prop :=
  1 ≤ c.Rate ∧ 1 ≤ c.Window ∧ c.Rate ≤ c.BurstSize ∧ c.inRange

instance (c : Config) : Decidable c.valid := by
  unfold Config.valid
  infer_instance

/-- Value of `float64(BurstSize)`. -/
def qBurst (c : Config) : ℚ :=
  roundQ (c.BurstSize : ℚ)

/-- Value of `float64(Rate) / float64(Window)`. -/
def qRate (c : Config) : ℚ :=
  roundQ (roundQ (c.Rate : ℚ) / roundQ (c.Window : ℚ))

/-- Value of `tokensToAdd` for a State last refilled at `last`. -/
def qAdd (c : Config) (last now : Int) : ℚ :=
  roundQ (qRate c * roundQ ((timeSub now last : Int) : ℚ))

/-- Value of `newTokens` after the cap, for a State `{T, last}`. -/
def qRefilled (c : Config) (T : ℚ) (last now : Int) : ℚ :=
  min (qBurst c) (roundQ (T + qAdd c last now))

/-- Value of `newTokens` after the decision. -/
def qTokens (c : Config) (T : ℚ) (last now : Int) : ℚ :=
  if 1 ≤ qRefilled c T last now then roundQ (qRefilled c T last now - 1)
  else qRefilled c T last now

/-- Value of `tokensNeeded / refillRate`. -/
def qReset (c : Config) (T : ℚ) (last now : Int) : ℚ :=
  roundQ (roundQ (qBurst c - qTokens c T last now) / qRate c)

/-! ## The reference token-bucket step (from the specification)

The step as the specification words it, over exact rationals, for a bucket that
holds `T` tokens since `last`. -/

/-- Specification, steps 2-4: `min(B, tokens + (R/W) * (now - lastRefill))`. -/
def refRefilled (B R W : Int) (T : ℚ) (last now : Int) : ℚ :=
  min (B : ℚ) (T + ((R : ℚ) / (W : ℚ)) * ((now : ℚ) - (last : ℚ)))

/-- Specification, step 5: `allowed = newTokens ≥ 1`. -/
def refAllowed (B R W : Int) (T : ℚ) (last now : Int) : Bool :=
  decide (1 ≤ refRefilled B R W T last now)

/-- Specification, step 5: one unit is consumed exactly when allowed. -/
def refTokens (B R W : Int) (T : ℚ) (last now : Int) : ℚ :=
  if refAllowed B R W T last now then refRefilled B R W T last now - 1
  else refRefilled B R W T last now

/-! ## Basic facts about the embedding -/

theorem New_ok {σ : Type} {cfg : Config} {S : Store σ} {l : limiter σ}
    (h : New cfg S = Except.ok l) :
    0 < cfg.Rate ∧ 0 < cfg.Window ∧ l.store = S ∧ l.config.Rate = cfg.Rate ∧
      l.config.Window = cfg.Window ∧ l.config.BurstSize = max cfg.BurstSize cfg.Rate := by
  unfold New at h
  split_ifs at h with h1 h2 h3
  · injection h with h; subst h
    refine ⟨by omega, by omega, rfl, rfl, rfl, ?_⟩
    simp only []
    rw [max_eq_right (le_of_lt h3)]
  · injection h with h; subst h
    refine ⟨by omega, by omega, rfl, rfl, rfl, ?_⟩
    rw [max_eq_left (not_lt.mp h3)]

/-- The body of `Allow` after a successful `Get`, in terms of the step. -/
theorem Allow_of_get {σ : Type} (arch : Arch) (l : limiter σ) (s s1 : σ) (now : Int)
    (key : String) (got : Option (StateRef σ)) (hget : l.store.Get s key = (s1, got, none)) :
    l.Allow arch s now key =
      match l.store.Set
          (writeThrough got (stepTokens l.config (got.map (fun r => r.val)) now) now s1) key
          (stepState l.config (got.map (fun r => r.val)) now)
          (wrapInt64 (l.config.Window * 2)) with
      | (s2, some e) => (s2, ⟨false, 0, 0, some ("failed to store state: " ++ e)⟩)
      | (s2, none) => (s2, stepResult arch l.config (got.map (fun r => r.val)) now) := by
  unfold limiter.Allow
  rw [hget]
  cases got with
  | none => rfl
  | some ref => rfl

/-! ## Rounding to binary64: auxiliary facts -/

theorem roundHalfEven_intCast (n : Int) : roundHalfEven (n : ℚ) = n := by
  unfold roundHalfEven
  simp

theorem floor_le_roundHalfEven (y : ℚ) : Int.floor y ≤ roundHalfEven y := by
  unfold roundHalfEven
  split_ifs <;> omega

theorem roundHalfEven_le_floor_add_one (y : ℚ) : roundHalfEven y ≤ Int.floor y + 1 := by
  unfold roundHalfEven
  split_ifs <;> omega

theorem roundHalfEven_mono {x y : ℚ} (h : x ≤ y) : roundHalfEven x ≤ roundHalfEven y := by
  have hf : Int.floor x ≤ Int.floor y := Int.floor_mono h
  rcases lt_or_eq_of_le hf with hlt | heq
  · have h1 := roundHalfEven_le_floor_add_one x
    have h2 := floor_le_roundHalfEven y
    omega
  · unfold roundHalfEven
    rw [← heq]
    have hr : x - (Int.floor x : ℚ) ≤ y - (Int.floor x : ℚ) := by linarith
    split_ifs <;> first | omega | (exfalso; linarith)

theorem roundHalfEven_nonneg {y : ℚ} (h : 0 ≤ y) : 0 ≤ roundHalfEven y :=
  le_trans (Int.floor_nonneg.mpr h) (floor_le_roundHalfEven y)

/-- Rounding to the nearest integer moves a number by at most one half. -/
theorem roundHalfEven_near (y : ℚ) :
    (roundHalfEven y : ℚ) - 1 / 2 ≤ y ∧ y ≤ (roundHalfEven y : ℚ) + 1 / 2 := by
  have h1 := Int.floor_le y
  have h2 := Int.lt_floor_add_one y
  unfold roundHalfEven
  split_ifs <;> push_cast <;> constructor <;> linarith

/-- A number strictly within one half of an integer rounds to it. -/
theorem roundHalfEven_eq_of_near (y : ℚ) (m : Int) (h1 : (m : ℚ) - 1 / 2 < y)
    (h2 : y < (m : ℚ) + 1 / 2) : roundHalfEven y = m := by
  have hn := roundHalfEven_near y
  have h3 : (roundHalfEven y : ℚ) < (m : ℚ) + 1 := by linarith
  have h4 : (m : ℚ) - 1 < (roundHalfEven y : ℚ) := by linarith
  have h5 : roundHalfEven y < m + 1 := by exact_mod_cast h3
  have h6 : m - 1 < roundHalfEven y := by exact_mod_cast h4
  omega

theorem two_zpow_pos (e : Int) : (0 : ℚ) < (2 : ℚ) ^ e := zpow_pos (by norm_num) e

theorem log_two_bracket {q : ℚ} (hq : 0 < q) :
    (2 : ℚ) ^ Int.log 2 q ≤ q ∧ q < (2 : ℚ) ^ (Int.log 2 q + 1) := by
  have h1 := Int.zpow_log_le_self (b := 2) (r := q) (by norm_num) hq
  have h2 := Int.lt_zpow_succ_log_self (b := 2) (by norm_num) q
  simp only [Nat.cast_ofNat] at h1 h2
  exact ⟨h1, h2⟩

theorem log_two_eq {q : ℚ} (k : Int) (h1 : (2 : ℚ) ^ k ≤ q) (h2 : q < (2 : ℚ) ^ (k + 1)) :
    Int.log 2 q = k := by
  have hq : 0 < q := lt_of_lt_of_le (two_zpow_pos k) h1
  have h3 := (Int.zpow_le_iff_le_log (b := 2) (x := k) (r := q) (by norm_num) hq).mp
    (by simpa using h1)
  have h4 := (Int.lt_zpow_iff_log_lt (b := 2) (x := k + 1) (r := q) (by norm_num) hq).mp
    (by simpa using h2)
  omega

theorem ulpExp_of_pos {q : ℚ} (hq : 0 < q) : ulpExp q = max (Int.log 2 q - 52) (-1074) := by
  unfold ulpExp
  rw [abs_of_pos hq]

theorem roundQ_zero : roundQ 0 = 0 := by
  simp [roundQ, roundHalfEven]

theorem roundQ_nonneg {q : ℚ} (hq : 0 ≤ q) : 0 ≤ roundQ q := by
  unfold roundQ
  apply mul_nonneg
  · have := roundHalfEven_nonneg (div_nonneg hq (le_of_lt (two_zpow_pos (ulpExp q))))
    exact_mod_cast this
  · exact le_of_lt (two_zpow_pos _)

/-- Rational numbers whose scaled value is an integer are left alone. -/
theorem roundQ_of_scaled_int (q : ℚ) (n : Int) (h : q / (2 : ℚ) ^ ulpExp q = (n : ℚ)) :
    roundQ q = q := by
  unfold roundQ
  rw [h, roundHalfEven_intCast, ← h]
  exact div_mul_cancel₀ q (ne_of_gt (two_zpow_pos _))

theorem two_zpow_eq_natCast (d : Int) (hd : 0 ≤ d) :
    (2 : ℚ) ^ d = (((2 : Nat) ^ d.toNat : Nat) : ℚ) := by
  obtain ⟨n, rfl⟩ := Int.eq_ofNat_of_zero_le hd
  simp

/-- Every number `m * 2 ^ e` with `m ≤ 2 ^ 53` and `e ≥ -1074` is a fixed point of
the rounding: these are the non-negative binary64 values. -/
theorem roundQ_of_representable (m : Nat) (e : Int) (hm : m ≤ 2 ^ 53) (he : -1074 ≤ e) :
    roundQ ((m : ℚ) * (2 : ℚ) ^ e) = (m : ℚ) * (2 : ℚ) ^ e := by
  rcases Nat.eq_zero_or_pos m with h0 | hpos
  · subst h0
    simp [roundQ_zero]
  have hmq : (0 : ℚ) < (m : ℚ) := by exact_mod_cast hpos
  have hq : (0 : ℚ) < (m : ℚ) * (2 : ℚ) ^ e := mul_pos hmq (two_zpow_pos e)
  rcases Nat.lt_or_ge m (2 ^ 53) with hlt | hge
  · -- the unit in the last place is at most `2 ^ e`
    have hlt' : (m : ℚ) < (2 : ℚ) ^ (53 : Int) := by
      have h : ((m : Nat) : ℚ) < ((2 ^ 53 : Nat) : ℚ) := by exact_mod_cast hlt
      have h2 : (2 : ℚ) ^ (53 : Int) = ((2 ^ 53 : Nat) : ℚ) := by norm_num
      rw [h2]
      exact h
    have hub : (m : ℚ) * (2 : ℚ) ^ e < (2 : ℚ) ^ (53 + e) := by
      rw [zpow_add₀ (by norm_num : (2 : ℚ) ≠ 0)]
      exact mul_lt_mul_of_pos_right hlt' (two_zpow_pos e)
    have hlog : Int.log 2 ((m : ℚ) * (2 : ℚ) ^ e) < 53 + e := by
      have := (Int.lt_zpow_iff_log_lt (b := 2) (x := 53 + e)
        (r := (m : ℚ) * (2 : ℚ) ^ e) (by norm_num) hq).mp (by simpa using hub)
      exact this
    have hle : ulpExp ((m : ℚ) * (2 : ℚ) ^ e) ≤ e := by
      rw [ulpExp_of_pos hq]
      exact max_le (by omega) he
    apply roundQ_of_scaled_int _ ((m : Int) * ((2 : Nat) ^ (e - ulpExp ((m : ℚ) * (2 : ℚ) ^ e)).toNat : Nat))
    rw [mul_div_assoc, ← zpow_sub₀ (by norm_num : (2 : ℚ) ≠ 0),
      two_zpow_eq_natCast _ (by omega)]
    push_cast
    ring
  · have hm2 : m = 2 ^ 53 := le_antisymm hm hge
    subst hm2
    have hval : (((2 ^ 53 : Nat) : ℚ)) * (2 : ℚ) ^ e = (2 : ℚ) ^ (53 + e) := by
      rw [zpow_add₀ (by norm_num : (2 : ℚ) ≠ 0)]
      norm_num
    have hlog : Int.log 2 ((((2 ^ 53 : Nat) : ℚ)) * (2 : ℚ) ^ e) = 53 + e := by
      rw [hval]
      have := Int.log_zpow (R := ℚ) (b := 2) (by norm_num) (53 + e)
      simpa using this
    have hu : ulpExp ((((2 ^ 53 : Nat) : ℚ)) * (2 : ℚ) ^ e) = e + 1 := by
      rw [ulpExp_of_pos hq, hlog]
      rw [max_eq_left (by omega)]
      omega
    apply roundQ_of_scaled_int _ ((2 : Int) ^ 52)
    rw [hu, hval, ← zpow_sub₀ (by norm_num : (2 : ℚ) ≠ 0)]
    have : 53 + e - (e + 1) = 52 := by omega
    rw [this]
    norm_num

theorem two_zpow_mono {a b : Int} (h : a ≤ b) : (2 : ℚ) ^ a ≤ (2 : ℚ) ^ b :=
  zpow_le_zpow_right₀ (by norm_num) h

/-- The scaled value of a positive number in the normal range lies in
`[2 ^ 52, 2 ^ 53)`. -/
theorem scaled_bracket {q : ℚ} (hq : 0 < q) (hk : -1022 ≤ Int.log 2 q) :
    ulpExp q = Int.log 2 q - 52 ∧ (2 : ℚ) ^ (52 : Int) ≤ q / (2 : ℚ) ^ ulpExp q ∧
      q / (2 : ℚ) ^ ulpExp q < (2 : ℚ) ^ (53 : Int) := by
  have hu : ulpExp q = Int.log 2 q - 52 := by
    rw [ulpExp_of_pos hq]
    exact max_eq_left (by omega)
  obtain ⟨h1, h2⟩ := log_two_bracket hq
  have hpos := two_zpow_pos (ulpExp q)
  refine ⟨hu, ?_, ?_⟩
  · rw [le_div_iff₀ hpos, ← zpow_add₀ (by norm_num : (2 : ℚ) ≠ 0), hu]
    have : 52 + (Int.log 2 q - 52) = Int.log 2 q := by omega
    rw [this]
    exact h1
  · rw [div_lt_iff₀ hpos, ← zpow_add₀ (by norm_num : (2 : ℚ) ≠ 0), hu]
    have : 53 + (Int.log 2 q - 52) = Int.log 2 q + 1 := by omega
    rw [this]
    exact h2

/-- In the normal range the rounding stays within the binade of its argument. -/
theorem roundQ_bracket {q : ℚ} (hq : 0 < q) (hk : -1022 ≤ Int.log 2 q) :
    (2 : ℚ) ^ Int.log 2 q ≤ roundQ q ∧ roundQ q ≤ (2 : ℚ) ^ (Int.log 2 q + 1) := by
  obtain ⟨hu, h1, h2⟩ := scaled_bracket hq hk
  have hpos := two_zpow_pos (ulpExp q)
  have e1 : (2 : ℚ) ^ (52 : Int) = (((2 : Int) ^ 52 : Int) : ℚ) := by norm_num
  have e2 : (2 : ℚ) ^ (53 : Int) = (((2 : Int) ^ 53 : Int) : ℚ) := by norm_num
  have r1 : (2 : Int) ^ 52 ≤ roundHalfEven (q / (2 : ℚ) ^ ulpExp q) := by
    have := roundHalfEven_mono (e1 ▸ h1)
    rwa [roundHalfEven_intCast] at this
  have r2 : roundHalfEven (q / (2 : ℚ) ^ ulpExp q) ≤ (2 : Int) ^ 53 := by
    have := roundHalfEven_mono (le_of_lt (e2 ▸ h2))
    rwa [roundHalfEven_intCast] at this
  have r1q : (2 : ℚ) ^ (52 : Int) ≤ (roundHalfEven (q / (2 : ℚ) ^ ulpExp q) : ℚ) := by
    rw [e1]; exact_mod_cast r1
  have r2q : (roundHalfEven (q / (2 : ℚ) ^ ulpExp q) : ℚ) ≤ (2 : ℚ) ^ (53 : Int) := by
    rw [e2]; exact_mod_cast r2
  constructor
  · have h3 : (2 : ℚ) ^ Int.log 2 q = (2 : ℚ) ^ (52 : Int) * (2 : ℚ) ^ ulpExp q := by
      rw [← zpow_add₀ (by norm_num : (2 : ℚ) ≠ 0), hu]
      congr 1
      omega
    rw [h3]
    unfold roundQ
    exact mul_le_mul_of_nonneg_right r1q (le_of_lt hpos)
  · have h3 : (2 : ℚ) ^ (Int.log 2 q + 1) = (2 : ℚ) ^ (53 : Int) * (2 : ℚ) ^ ulpExp q := by
      rw [← zpow_add₀ (by norm_num : (2 : ℚ) ≠ 0), hu]
      congr 1
      omega
    rw [h3]
    unfold roundQ
    exact mul_le_mul_of_nonneg_right r2q (le_of_lt hpos)

/-- Below the normal range the rounding stays below the least normal value. -/
theorem roundQ_subnormal_le {q : ℚ} (hq : 0 < q) (hk : Int.log 2 q < -1022) :
    roundQ q ≤ (2 : ℚ) ^ (-1022 : Int) := by
  have hu : ulpExp q = -1074 := by
    rw [ulpExp_of_pos hq]
    exact max_eq_right (by omega)
  obtain ⟨_, h2⟩ := log_two_bracket hq
  have hpos := two_zpow_pos (-1074 : Int)
  have hy : q / (2 : ℚ) ^ (-1074 : Int) ≤ (2 : ℚ) ^ (52 : Int) := by
    rw [div_le_iff₀ hpos, ← zpow_add₀ (by norm_num : (2 : ℚ) ≠ 0)]
    exact le_trans (le_of_lt h2) (two_zpow_mono (by omega))
  have e1 : (2 : ℚ) ^ (52 : Int) = (((2 : Int) ^ 52 : Int) : ℚ) := by norm_num
  have r : roundHalfEven (q / (2 : ℚ) ^ (-1074 : Int)) ≤ (2 : Int) ^ 52 := by
    have := roundHalfEven_mono (e1 ▸ hy)
    rwa [roundHalfEven_intCast] at this
  have rq : (roundHalfEven (q / (2 : ℚ) ^ (-1074 : Int)) : ℚ) ≤ (2 : ℚ) ^ (52 : Int) := by
    rw [e1]; exact_mod_cast r
  have h3 : (2 : ℚ) ^ (-1022 : Int) = (2 : ℚ) ^ (52 : Int) * (2 : ℚ) ^ (-1074 : Int) := by
    rw [← zpow_add₀ (by norm_num : (2 : ℚ) ≠ 0)]
    norm_num
  rw [h3]
  unfold roundQ
  rw [hu]
  exact mul_le_mul_of_nonneg_right rq (le_of_lt hpos)

/-- Rounding to nearest is monotone on the non-negative rationals. -/
theorem roundQ_mono {p q : ℚ} (hp : 0 ≤ p) (h : p ≤ q) : roundQ p ≤ roundQ q := by
  rcases eq_or_lt_of_le hp with h0 | hp0
  · rw [← h0, roundQ_zero]
    exact roundQ_nonneg (le_trans hp h)
  have hq0 : 0 < q := lt_of_lt_of_le hp0 h
  have hlog : Int.log 2 p ≤ Int.log 2 q := Int.log_mono_right hp0 h
  by_cases he : ulpExp p = ulpExp q
  · unfold roundQ
    rw [he]
    apply mul_le_mul_of_nonneg_right _ (le_of_lt (two_zpow_pos _))
    have := roundHalfEven_mono (div_le_div_of_nonneg_right h (le_of_lt (two_zpow_pos (ulpExp q))))
    exact_mod_cast this
  · -- the exponents differ, so `q` is normal and in a higher binade than `p`
    have hup := ulpExp_of_pos hp0
    have huq := ulpExp_of_pos hq0
    have hkq : -1022 ≤ Int.log 2 q := by
      by_contra hcon
      apply he
      rw [hup, huq, max_eq_right (by omega), max_eq_right (by omega)]
    have hlt : Int.log 2 p < Int.log 2 q := by
      rcases lt_or_eq_of_le hlog with h1 | h1
      · exact h1
      · exfalso; apply he; rw [hup, huq, h1]
    have hqb := (roundQ_bracket hq0 hkq).1
    by_cases hkp : -1022 ≤ Int.log 2 p
    · have hpb := (roundQ_bracket hp0 hkp).2
      exact le_trans hpb (le_trans (two_zpow_mono (by omega)) hqb)
    · have hpb := roundQ_subnormal_le hp0 (by omega)
      exact le_trans hpb (le_trans (two_zpow_mono (by omega)) hqb)

theorem roundQ_natCast (n : Nat) (hn : n ≤ 2 ^ 53) : roundQ (n : ℚ) = (n : ℚ) := by
  have := roundQ_of_representable n 0 hn (by norm_num)
  simpa using this

/-- A power of two from `2 ^ (-1074)` up is a fixed point of the rounding. -/
theorem roundQ_two_zpow (k : Int) (hk : -1074 ≤ k) : roundQ ((2 : ℚ) ^ k) = (2 : ℚ) ^ k := by
  have := roundQ_of_representable 1 k (by norm_num) hk
  simpa using this

/-- A binary64 value below the argument stays below its rounding. -/
theorem le_roundQ {a q : ℚ} (ha : 0 ≤ a) (hfix : roundQ a = a) (h : a ≤ q) : a ≤ roundQ q := by
  have := roundQ_mono ha h
  rwa [hfix] at this

/-- A binary64 value above the argument stays above its rounding. -/
theorem roundQ_le {a q : ℚ} (hq : 0 ≤ q) (hfix : roundQ a = a) (h : q ≤ a) : roundQ q ≤ a := by
  have := roundQ_mono hq h
  rwa [hfix] at this

theorem two_pow_1023_fixed : roundQ ((2 : ℚ) ^ (1023 : Int)) = (2 : ℚ) ^ (1023 : Int) :=
  roundQ_two_zpow 1023 (by norm_num)

/-- Non-negative results up to `2 ^ 1023` round to a finite value. -/
theorem F64.round_of_nonneg {q : ℚ} (h0 : 0 ≤ q) (h1 : q ≤ (2 : ℚ) ^ (1023 : Int)) :
    F64.round q = F64.fin (roundQ q) := by
  have h2 : roundQ q ≤ (2 : ℚ) ^ (1023 : Int) := roundQ_le h0 two_pow_1023_fixed h1
  have h3 : (2 : ℚ) ^ (1023 : Int) < (2 : ℚ) ^ (1024 : Int) :=
    zpow_lt_zpow_right₀ (by norm_num) (by norm_num)
  unfold F64.round
  rw [abs_of_nonneg (roundQ_nonneg h0), if_neg (not_le.mpr (lt_of_le_of_lt h2 h3))]

theorem F64.round_natCast (n : Nat) (hn : n ≤ 2 ^ 53) : F64.round (n : ℚ) = F64.fin (n : ℚ) := by
  have h1 : (n : ℚ) ≤ (2 : ℚ) ^ (1023 : Int) := by
    have h2 : (n : ℚ) ≤ ((2 ^ 53 : Nat) : ℚ) := by exact_mod_cast hn
    have h3 : ((2 ^ 53 : Nat) : ℚ) = (2 : ℚ) ^ (53 : Int) := by norm_num
    rw [h3] at h2
    exact le_trans h2 (two_zpow_mono (by norm_num))
  rw [F64.round_of_nonneg (Nat.cast_nonneg n) h1, roundQ_natCast n hn]

/-- Integers from `0` to `2 ^ 53` convert to `float64` exactly. -/
theorem F64.ofInt_of_small (n : Int) (h0 : 0 ≤ n) (h1 : n ≤ 9007199254740992) :
    F64.ofInt n = F64.fin (n : ℚ) := by
  obtain ⟨k, rfl⟩ := Int.eq_ofNat_of_zero_le h0
  have hk : k ≤ 2 ^ 53 := by
    have : (k : Int) ≤ ((2 ^ 53 : Nat) : Int) := by simpa using h1
    exact_mod_cast this
  unfold F64.ofInt
  have := F64.round_natCast k hk
  simpa using this

/-- Evaluation of the rounding in the normal range: a number whose scaled value
is strictly within one half of the integer `m` rounds to `m * 2 ^ e`. -/
theorem roundQ_eq_of_near (q : ℚ) (e m : Int) (he : -1074 ≤ e)
    (hlo : (2 : ℚ) ^ (e + 52) ≤ q) (hhi : q < (2 : ℚ) ^ (e + 52 + 1))
    (h1 : (m : ℚ) - 1 / 2 < q / (2 : ℚ) ^ e) (h2 : q / (2 : ℚ) ^ e < (m : ℚ) + 1 / 2) :
    roundQ q = (m : ℚ) * (2 : ℚ) ^ e := by
  have hq : 0 < q := lt_of_lt_of_le (two_zpow_pos _) hlo
  have hlog := log_two_eq (e + 52) hlo hhi
  have hu : ulpExp q = e := by
    rw [ulpExp_of_pos hq, hlog]
    have : e + 52 - 52 = e := by omega
    rw [this]
    exact max_eq_left he
  unfold roundQ
  rw [hu, roundHalfEven_eq_of_near _ m h1 h2]

/-- Evaluation of the rounding at a tie: the scaled value is `m + 1/2`. -/
theorem roundQ_eq_of_tie (q : ℚ) (e m : Int) (he : -1074 ≤ e)
    (hlo : (2 : ℚ) ^ (e + 52) ≤ q) (hhi : q < (2 : ℚ) ^ (e + 52 + 1))
    (h : q / (2 : ℚ) ^ e = (m : ℚ) + 1 / 2) :
    roundQ q = ((if m % 2 = 0 then m else m + 1 : Int) : ℚ) * (2 : ℚ) ^ e := by
  have hq : 0 < q := lt_of_lt_of_le (two_zpow_pos _) hlo
  have hlog := log_two_eq (e + 52) hlo hhi
  have hu : ulpExp q = e := by
    rw [ulpExp_of_pos hq, hlog]
    have : e + 52 - 52 = e := by omega
    rw [this]
    exact max_eq_left he
  have hfl : Int.floor (q / (2 : ℚ) ^ e) = m := by
    rw [h, Int.floor_eq_iff]
    constructor <;> linarith
  have hr : roundHalfEven (q / (2 : ℚ) ^ e) = if m % 2 = 0 then m else m + 1 := by
    unfold roundHalfEven
    rw [hfl, h]
    have e1 : (m : ℚ) + 1 / 2 - (m : ℚ) = 1 / 2 := by ring
    rw [e1]
    simp
  unfold roundQ
  rw [hu, hr]

/-- The scaled value of a positive number is below `2 ^ 53`. -/
theorem scaled_lt {q : ℚ} (hq : 0 < q) : q / (2 : ℚ) ^ ulpExp q < (2 : ℚ) ^ (53 : Int) := by
  obtain ⟨_, h2⟩ := log_two_bracket hq
  have hu : Int.log 2 q - 52 ≤ ulpExp q := by
    rw [ulpExp_of_pos hq]
    exact le_max_left _ _
  rw [div_lt_iff₀ (two_zpow_pos _), ← zpow_add₀ (by norm_num : (2 : ℚ) ≠ 0)]
  exact lt_of_lt_of_le h2 (two_zpow_mono (by omega))

/-- The rounding of a non-negative number is a binary64 value: rounding it again
changes nothing. -/
theorem roundQ_idem {q : ℚ} (hq : 0 ≤ q) : roundQ (roundQ q) = roundQ q := by
  rcases eq_or_lt_of_le hq with h0 | hpos
  · rw [← h0, roundQ_zero, roundQ_zero]
  have hy := scaled_lt hpos
  have hy0 : 0 ≤ q / (2 : ℚ) ^ ulpExp q := div_nonneg hq (le_of_lt (two_zpow_pos _))
  have e2 : (2 : ℚ) ^ (53 : Int) = (((2 : Int) ^ 53 : Int) : ℚ) := by norm_num
  have r2 : roundHalfEven (q / (2 : ℚ) ^ ulpExp q) ≤ (2 : Int) ^ 53 := by
    have := roundHalfEven_mono (le_of_lt (e2 ▸ hy))
    rwa [roundHalfEven_intCast] at this
  have r0 := roundHalfEven_nonneg hy0
  obtain ⟨m, hm⟩ := Int.eq_ofNat_of_zero_le r0
  have hm53 : m ≤ 2 ^ 53 := by
    have : (m : Int) ≤ (2 : Int) ^ 53 := by rw [← hm]; exact r2
    exact_mod_cast this
  have he : -1074 ≤ ulpExp q := le_max_right _ _
  have hval : roundQ q = (m : ℚ) * (2 : ℚ) ^ ulpExp q := by
    unfold roundQ
    rw [hm]
    norm_cast
  rw [hval]
  exact roundQ_of_representable m (ulpExp q) hm53 he

theorem two_pow_63_fixed : roundQ (9223372036854775808 : ℚ) = 9223372036854775808 := by
  have := roundQ_two_zpow 63 (by norm_num)
  norm_num at this
  exact this

theorem roundQ_one : roundQ 1 = 1 := by
  have := roundQ_natCast 1 (by norm_num)
  simpa using this

/-- The conversion of a 64-bit integer that is at least `lo ≥ 0` is finite. -/
theorem F64.ofInt_of_nonneg (n : Int) (h0 : 0 ≤ n) (h1 : n ≤ 9223372036854775807) :
    F64.ofInt n = F64.fin (roundQ (n : ℚ)) ∧ 0 ≤ roundQ (n : ℚ) ∧
      roundQ (n : ℚ) ≤ 9223372036854775808 ∧ roundQ (roundQ (n : ℚ)) = roundQ (n : ℚ) := by
  have hq0 : (0 : ℚ) ≤ (n : ℚ) := by exact_mod_cast h0
  have hq1 : (n : ℚ) ≤ 9223372036854775808 := by
    have : (n : ℚ) ≤ ((9223372036854775807 : Int) : ℚ) := by exact_mod_cast h1
    have h2 : ((9223372036854775807 : Int) : ℚ) ≤ 9223372036854775808 := by norm_num
    linarith
  have h63 : (9223372036854775808 : ℚ) ≤ (2 : ℚ) ^ (1023 : Int) := by
    have : (9223372036854775808 : ℚ) = (2 : ℚ) ^ (63 : Int) := by norm_num
    rw [this]
    exact two_zpow_mono (by norm_num)
  refine ⟨?_, roundQ_nonneg hq0, roundQ_le hq0 two_pow_63_fixed hq1, roundQ_idem hq0⟩
  unfold F64.ofInt
  exact F64.round_of_nonneg hq0 (le_trans hq1 h63)

theorem F64.ofInt_of_pos (n : Int) (h0 : 1 ≤ n) (_h1 : n ≤ 9223372036854775807) :
    1 ≤ roundQ (n : ℚ) := by
  have hq : (1 : ℚ) ≤ (n : ℚ) := by exact_mod_cast h0
  exact le_roundQ (by norm_num) roundQ_one hq

/-! ## The step over finite values: auxiliary facts -/

theorem New_valid {σ : Type} {cfg : Config} {S : Store σ} {l : limiter σ}
    (h : New cfg S = Except.ok l) (hr : cfg.inRange) : l.config.valid := by
  obtain ⟨h1, h2, _, h4, h5, h6⟩ := New_ok h
  obtain ⟨⟨r1, r2⟩, ⟨w1, w2⟩, ⟨b1, b2⟩⟩ := hr
  unfold Config.valid Config.inRange
  rw [h4, h5, h6]
  have hm1 := le_max_right cfg.BurstSize cfg.Rate
  have hm2 : max cfg.BurstSize cfg.Rate ≤ 9223372036854775807 := max_le b2 r2
  refine ⟨by omega, by omega, hm1, ⟨r1, r2⟩, ⟨w1, w2⟩, by omega, hm2⟩

theorem timeSub_self (t : Int) : timeSub t t = 0 := by
  unfold timeSub
  simp

theorem timeSub_nonneg {t u : Int} (h : u ≤ t) :
    0 ≤ timeSub t u ∧ timeSub t u ≤ 9223372036854775807 := by
  unfold timeSub
  constructor
  · apply le_max_of_le_right
    exact le_min (by norm_num) (by omega)
  · exact max_le (by norm_num) (min_le_left _ _)

theorem timeSub_mono {t t' u : Int} (h : t ≤ t') : timeSub t u ≤ timeSub t' u := by
  unfold timeSub
  exact max_le_max le_rfl (min_le_min le_rfl (by omega))

theorem qBurst_facts (c : Config) (hc : c.valid) :
    F64.ofInt c.BurstSize = F64.fin (qBurst c) ∧ 1 ≤ qBurst c ∧
      qBurst c ≤ 9223372036854775808 ∧ roundQ (qBurst c) = qBurst c := by
  obtain ⟨h1, _, h3, _, _, _, hb⟩ := hc
  obtain ⟨e1, _, e3, e4⟩ := F64.ofInt_of_nonneg c.BurstSize (by omega) hb
  exact ⟨e1, F64.ofInt_of_pos c.BurstSize (by omega) hb, e3, e4⟩

theorem two_pow_neg63_fixed :
    roundQ ((1 : ℚ) / 9223372036854775808) = (1 : ℚ) / 9223372036854775808 := by
  have := roundQ_two_zpow (-63) (by norm_num)
  norm_num at this
  norm_num
  exact this

theorem qRate_facts (c : Config) (hc : c.valid) :
    refillRate c = F64.fin (qRate c) ∧ (1 : ℚ) / 9223372036854775808 ≤ qRate c ∧
      qRate c ≤ 9223372036854775808 ∧ roundQ (qRate c) = qRate c := by
  obtain ⟨h1, h2, _, ⟨_, hr⟩, ⟨_, hw⟩, _⟩ := hc
  obtain ⟨r1, _, r3, _⟩ := F64.ofInt_of_nonneg c.Rate (by omega) hr
  obtain ⟨w1, _, w3, _⟩ := F64.ofInt_of_nonneg c.Window (by omega) hw
  have rp := F64.ofInt_of_pos c.Rate h1 hr
  have wp := F64.ofInt_of_pos c.Window h2 hw
  have wpos : (0 : ℚ) < roundQ (c.Window : ℚ) := by linarith
  have hq0 : (0 : ℚ) ≤ roundQ (c.Rate : ℚ) / roundQ (c.Window : ℚ) :=
    div_nonneg (by linarith) (le_of_lt wpos)
  have hlo : (1 : ℚ) / 9223372036854775808 ≤ roundQ (c.Rate : ℚ) / roundQ (c.Window : ℚ) := by
    rw [div_le_div_iff₀ (by norm_num) wpos]
    nlinarith
  have hhi : roundQ (c.Rate : ℚ) / roundQ (c.Window : ℚ) ≤ 9223372036854775808 := by
    rw [div_le_iff₀ wpos]
    nlinarith
  have h63 : (9223372036854775808 : ℚ) ≤ (2 : ℚ) ^ (1023 : Int) := by
    have : (9223372036854775808 : ℚ) = (2 : ℚ) ^ (63 : Int) := by norm_num
    rw [this]
    exact two_zpow_mono (by norm_num)
  refine ⟨?_, le_roundQ (by norm_num) two_pow_neg63_fixed hlo,
    roundQ_le hq0 two_pow_63_fixed hhi, roundQ_idem hq0⟩
  unfold refillRate qRate
  rw [r1, w1]
  simp only [F64.div, if_neg (ne_of_gt wpos)]
  exact F64.round_of_nonneg hq0 (le_trans hhi h63)

theorem qRate_pos (c : Config) (hc : c.valid) : 0 < qRate c := by
  have := (qRate_facts c hc).2.1
  have h : (0 : ℚ) < (1 : ℚ) / 9223372036854775808 := by norm_num
  linarith

theorem two_pow_126_fixed :
    roundQ (85070591730234615865843651857942052864 : ℚ) =
      85070591730234615865843651857942052864 := by
  have := roundQ_two_zpow 126 (by norm_num)
  norm_num at this
  exact this

theorem qAdd_facts (c : Config) (hc : c.valid) (last now : Int) (h : last ≤ now) :
    F64.mul (refillRate c) (F64.ofInt (timeSub now last)) = F64.fin (qAdd c last now) ∧
      0 ≤ qAdd c last now ∧
      qAdd c last now ≤ 85070591730234615865843651857942052864 := by
  obtain ⟨t0, t1⟩ := timeSub_nonneg h
  obtain ⟨d1, d2, d3, _⟩ := F64.ofInt_of_nonneg (timeSub now last) t0 t1
  obtain ⟨q1, q2, q3, _⟩ := qRate_facts c hc
  have qp := qRate_pos c hc
  have hp0 : 0 ≤ qRate c * roundQ ((timeSub now last : Int) : ℚ) :=
    mul_nonneg (le_of_lt qp) d2
  have hp1 : qRate c * roundQ ((timeSub now last : Int) : ℚ) ≤
      85070591730234615865843651857942052864 := by
    nlinarith
  have h126 : (85070591730234615865843651857942052864 : ℚ) ≤ (2 : ℚ) ^ (1023 : Int) := by
    have : (85070591730234615865843651857942052864 : ℚ) = (2 : ℚ) ^ (126 : Int) := by norm_num
    rw [this]
    exact two_zpow_mono (by norm_num)
  refine ⟨?_, roundQ_nonneg hp0, roundQ_le hp0 two_pow_126_fixed hp1⟩
  rw [q1, d1]
  simp only [F64.mul]
  unfold qAdd
  exact F64.round_of_nonneg hp0 (le_trans hp1 h126)

theorem qAdd_same_time (c : Config) (now : Int) : qAdd c now now = 0 := by
  unfold qAdd
  rw [timeSub_self]
  simp [roundQ_zero]

theorem le_two_pow_1023_of_le_127 {x : ℚ}
    (h : x ≤ 170141183460469231731687303715884105728) : x ≤ (2 : ℚ) ^ (1023 : Int) := by
  have e : (170141183460469231731687303715884105728 : ℚ) = (2 : ℚ) ^ (127 : Int) := by norm_num
  rw [e] at h
  exact le_trans h (two_zpow_mono (by norm_num))

/-- A non-negative exact result rounds to a finite non-negative value or
overflows to the positive infinity. -/
theorem F64.round_cases {q : ℚ} (h0 : 0 ≤ q) :
    (F64.round q = F64.fin (roundQ q) ∧ roundQ q < (2 : ℚ) ^ (1024 : Int)) ∨
      (F64.round q = F64.inf false ∧ (2 : ℚ) ^ (1024 : Int) ≤ roundQ q) := by
  unfold F64.round
  rw [abs_of_nonneg (roundQ_nonneg h0)]
  by_cases h : (2 : ℚ) ^ (1024 : Int) ≤ roundQ q
  · right
    rw [if_pos h]
    simp only [not_lt.mpr h0, decide_False]
    exact ⟨trivial, h⟩
  · left
    rw [if_neg h]
    exact ⟨rfl, not_le.mp h⟩

theorem two_pow_63_lt_1024 : (9223372036854775808 : ℚ) < (2 : ℚ) ^ (1024 : Int) := by
  have : (9223372036854775808 : ℚ) = (2 : ℚ) ^ (63 : Int) := by norm_num
  rw [this]
  exact zpow_lt_zpow_right₀ (by norm_num) (by norm_num)

/-- The step on a State with finite non-negative tokens, refilled no later than
`now`: the refill is capped before an overflow can show. -/
theorem step_fin (c : Config) (hc : c.valid) (T : ℚ) (last now : Int) (hT0 : 0 ≤ T)
    (h : last ≤ now) :
    refilled c (some ⟨F64.fin T, last⟩) now = F64.fin (qRefilled c T last now) ∧
      stepAllowed c (some ⟨F64.fin T, last⟩) now = decide (1 ≤ qRefilled c T last now) ∧
      stepTokens c (some ⟨F64.fin T, last⟩) now = F64.fin (qTokens c T last now) ∧
      0 ≤ qRefilled c T last now ∧ qRefilled c T last now ≤ qBurst c ∧
      0 ≤ qTokens c T last now ∧ qTokens c T last now ≤ qBurst c := by
  obtain ⟨b1, b2, b3, b4⟩ := qBurst_facts c hc
  obtain ⟨a1, a2, a3⟩ := qAdd_facts c hc last now h
  have hs0 : 0 ≤ T + qAdd c last now := by linarith
  have hx0 : 0 ≤ roundQ (T + qAdd c last now) := roundQ_nonneg hs0
  have hy0 : 0 ≤ qRefilled c T last now := le_min (by linarith) hx0
  have hyb : qRefilled c T last now ≤ qBurst c := min_le_left _ _
  have href : refilled c (some ⟨F64.fin T, last⟩) now = F64.fin (qRefilled c T last now) := by
    unfold refilled
    simp only [priorState, a1, b1, F64.add]
    unfold qRefilled
    rcases F64.round_cases hs0 with ⟨hr, _⟩ | ⟨hr, hbig⟩
    · rw [hr]
      simp only [F64.lt]
      by_cases hlt : qBurst c < roundQ (T + qAdd c last now)
      · simp only [hlt, decide_True, if_true]
        rw [min_eq_left (le_of_lt hlt)]
      · simp only [hlt, decide_False, if_false, Bool.false_eq_true]
        rw [min_eq_right (not_lt.mp hlt)]
    · rw [hr]
      simp only [F64.lt, Bool.not_false, if_true]
      rw [min_eq_left]
      have := two_pow_63_lt_1024
      linarith
  have hal : stepAllowed c (some ⟨F64.fin T, last⟩) now =
      decide (1 ≤ qRefilled c T last now) := by
    unfold stepAllowed
    rw [href]
    rfl
  have htok : stepTokens c (some ⟨F64.fin T, last⟩) now = F64.fin (qTokens c T last now) := by
    unfold stepTokens qTokens
    rw [hal, href]
    by_cases h1 : 1 ≤ qRefilled c T last now
    · have hd0 : 0 ≤ qRefilled c T last now + -1 := by linarith
      have hd1 : qRefilled c T last now + -1 ≤ (2 : ℚ) ^ (1023 : Int) :=
        le_two_pow_1023_of_le_127 (by linarith)
      simp only [h1, decide_True, if_true, F64.sub, F64.neg, F64.add,
        F64.round_of_nonneg hd0 hd1]
      rw [sub_eq_add_neg]
    · simp only [h1, decide_False, if_false, Bool.false_eq_true]
  refine ⟨href, hal, htok, hy0, hyb, ?_, ?_⟩
  · unfold qTokens
    split_ifs with h1
    · exact roundQ_nonneg (by linarith)
    · exact hy0
  · unfold qTokens
    split_ifs with h1
    · exact roundQ_le (by linarith) b4 (by linarith)
    · exact hyb

/-- The step on an absent key starts from the full bucket `float64(BurstSize)`. -/
theorem step_absent (c : Config) (hc : c.valid) (now : Int) :
    refilled c none now = F64.fin (qBurst c) ∧ stepAllowed c none now = true ∧
      stepTokens c none now = F64.fin (roundQ (qBurst c - 1)) := by
  obtain ⟨b1, b2, b3, b4⟩ := qBurst_facts c hc
  have e1 : refilled c none now = refilled c (some ⟨F64.fin (qBurst c), now⟩) now := by
    unfold refilled priorState
    simp only [b1]
  have e2 : stepAllowed c none now = stepAllowed c (some ⟨F64.fin (qBurst c), now⟩) now := by
    unfold stepAllowed
    rw [e1]
  have e3 : stepTokens c none now = stepTokens c (some ⟨F64.fin (qBurst c), now⟩) now := by
    unfold stepTokens
    rw [e1, e2]
  obtain ⟨s1, s2, s3, _⟩ := step_fin c hc (qBurst c) now now (by linarith) le_rfl
  have hy : qRefilled c (qBurst c) now now = qBurst c := by
    unfold qRefilled
    rw [qAdd_same_time, add_zero, b4, min_self]
  rw [e1, e2, e3, s1, s2, s3]
  unfold qTokens
  rw [hy]
  simp only [b2, decide_True, if_true, and_self]

/-! ## Truncation and conversion: auxiliary facts -/

theorem truncToInt_intCast (z : Int) : truncToInt (z : ℚ) = z := by
  unfold truncToInt
  split_ifs
  · exact Int.floor_intCast z
  · exact Int.ceil_intCast z

/-- The conversion is the truncating division of the numerator by the
denominator: the fraction is dropped, toward zero for either sign. -/
theorem truncToInt_eq_tdiv (q : ℚ) : truncToInt q = Int.tdiv q.num (q.den : Int) := by
  unfold truncToInt
  by_cases hq : 0 ≤ q
  · rw [if_pos hq, Rat.floor_def,
      Int.tdiv_eq_ediv (Rat.num_nonneg.mpr hq) (Int.ofNat_nonneg q.den)]
  · rw [if_neg hq]
    have hneg : 0 ≤ -q := by linarith [not_le.mp hq]
    have h1 : Int.ceil q = -Int.floor (-q) := by
      rw [Int.floor_neg, neg_neg]
    have h2 : Int.floor (-q) = Int.tdiv (-q).num ((-q).den : Int) := by
      rw [Rat.floor_def,
        Int.tdiv_eq_ediv (Rat.num_nonneg.mpr hneg) (Int.ofNat_nonneg (-q).den)]
    rw [h1, h2, Rat.neg_num, Rat.neg_den, Int.neg_tdiv, neg_neg]

theorem truncToInt_natCast (n : Nat) : truncToInt (n : ℚ) = (n : Int) := by
  have h := truncToInt_intCast (n : Int)
  simpa using h

theorem truncToInt_nonneg {q : ℚ} (hq : 0 ≤ q) : 0 ≤ truncToInt q := by
  unfold truncToInt
  rw [if_pos hq]
  exact Int.floor_nonneg.mpr hq

theorem truncToInt_mono {p q : ℚ} (h : p ≤ q) : truncToInt p ≤ truncToInt q := by
  unfold truncToInt
  by_cases hp : 0 ≤ p
  · rw [if_pos hp, if_pos (le_trans hp h)]
    exact Int.floor_mono h
  · rw [if_neg hp]
    by_cases hq : 0 ≤ q
    · rw [if_pos hq]
      have h1 : Int.ceil p ≤ 0 := by
        rw [Int.ceil_le]
        simpa using le_of_lt (not_le.mp hp)
      exact le_trans h1 (Int.floor_nonneg.mpr hq)
    · rw [if_neg hq]
      exact Int.ceil_mono h

theorem truncToInt_eq_zero_iff {q : ℚ} (hq : 0 ≤ q) : truncToInt q = 0 ↔ q < 1 := by
  unfold truncToInt
  rw [if_pos hq, Int.floor_eq_iff]
  constructor
  · intro h
    simpa using h.2
  · intro h
    exact ⟨by simpa using hq, by simpa using h⟩

/-- A finite value from `0` up to, but not including, `2 ^ 63` converts by
truncation on every architecture. -/
theorem F64.toInt64_of_nonneg (arch : Arch) {q : ℚ} (h0 : 0 ≤ q)
    (h1 : q < 9223372036854775808) : F64.toInt64 arch (F64.fin q) = truncToInt q := by
  have ht0 := truncToInt_nonneg h0
  have ht1 : truncToInt q ≤ 9223372036854775807 := by
    have hfl : truncToInt q = Int.floor q := by
      unfold truncToInt
      rw [if_pos h0]
    rw [hfl]
    have h2 : Int.floor q < 9223372036854775808 := by
      rw [Int.floor_lt]
      exact_mod_cast h1
    omega
  unfold F64.toInt64
  simp only
  rw [if_pos ⟨by omega, ht1⟩]

/-! ## `Allow` over the stores of this file -/

/-- Running `Allow` on the in-memory store: the result of the step, and the
State of the step written under the key. -/
theorem Allow_mapStore (arch : Arch) (l : limiter (String → Option State))
    (hs : l.store = mapStore) (m : String → Option State) (now : Int) (key : String) :
    l.Allow arch m now key =
      (Function.update m key (some (stepState l.config (m key) now)),
        stepResult arch l.config (m key) now) := by
  have hg : l.store.Get m key = (m, (m key).map (fun st => ⟨st, fun _ s => s⟩), none) := by
    rw [hs]; rfl
  rw [Allow_of_get arch l m m now key _ hg, hs]
  have hp : ((m key).map (fun st => (⟨st, fun _ s => s⟩ : StateRef (String → Option State)))).map
      (fun r => r.val) = m key := by
    cases m key <;> rfl
  have hw : ∀ (tok : F64),
      writeThrough ((m key).map (fun st => (⟨st, fun _ s => s⟩ :
        StateRef (String → Option State)))) tok now m = m := by
    intro tok
    cases m key <;> rfl
  rw [hp, hw]
  rfl

/-- Running `Allow` on the recording in-memory store. -/
theorem Allow_recording_mapStore (arch : Arch)
    (l : limiter ((String → Option State) × List Call))
    (hs : l.store = mapStore.recording) (s : (String → Option State) × List Call)
    (now : Int) (key : String) :
    l.Allow arch s now key =
      ((Function.update s.1 key (some (stepState l.config (s.1 key) now)),
        s.2 ++ [Call.get key,
          Call.set key (stepState l.config (s.1 key) now) (wrapInt64 (l.config.Window * 2))]),
        stepResult arch l.config (s.1 key) now) := by
  have hg : l.store.Get s key =
      ((s.1, s.2 ++ [Call.get key]),
        ((s.1 key).map (fun st => (⟨st, fun _ t => t⟩ : StateRef (String → Option State)))).map
          (fun ref => (⟨ref.val, fun st t => (ref.write st t.1, t.2)⟩ :
            StateRef ((String → Option State) × List Call))), none) := by
    rw [hs]; rfl
  rw [Allow_of_get arch l s _ now key _ hg, hs]
  have hp : (((s.1 key).map (fun st => (⟨st, fun _ t => t⟩ :
      StateRef (String → Option State)))).map
        (fun ref => (⟨ref.val, fun st t => (ref.write st t.1, t.2)⟩ :
          StateRef ((String → Option State) × List Call)))).map (fun r => r.val) = s.1 key := by
    cases s.1 key <;> rfl
  have hw : ∀ (tok : F64) (t : (String → Option State) × List Call),
      writeThrough (((s.1 key).map (fun st => (⟨st, fun _ t => t⟩ :
        StateRef (String → Option State)))).map
          (fun ref => (⟨ref.val, fun st t => (ref.write st t.1, t.2)⟩ :
            StateRef ((String → Option State) × List Call)))) tok now t = t := by
    intro tok t
    cases s.1 key <;> rfl
  rw [hp, hw]
  simp [Store.recording, mapStore]

/-- Running `Allow` on the store with expiry: the step on what is live under
the key, written back with the TTL the call computes. -/
theorem Allow_expiringStore (arch : Arch)
    (l : limiter (Int × (String → Option (State × Int))))
    (hs : l.store = expiringStore) (s : Int × (String → Option (State × Int)))
    (now : Int) (key : String) :
    l.Allow arch s now key =
      ((s.1, Function.update s.2 key
          (some (stepState l.config (liveAt s.1 (s.2 key)) now,
            s.1 + wrapInt64 (l.config.Window * 2)))),
        stepResult arch l.config (liveAt s.1 (s.2 key)) now) := by
  have hg : l.store.Get s key =
      (s, (liveAt s.1 (s.2 key)).map (fun st => ⟨st, fun _ t => t⟩), none) := by
    rw [hs]; rfl
  rw [Allow_of_get arch l s s now key _ hg, hs]
  have hp : ((liveAt s.1 (s.2 key)).map (fun st => (⟨st, fun _ t => t⟩ :
      StateRef (Int × (String → Option (State × Int)))))).map (fun r => r.val) =
        liveAt s.1 (s.2 key) := by
    cases liveAt s.1 (s.2 key) <;> rfl
  have hw : ∀ (tok : F64),
      writeThrough ((liveAt s.1 (s.2 key)).map (fun st => (⟨st, fun _ t => t⟩ :
        StateRef (Int × (String → Option (State × Int)))))) tok now s = s := by
    intro tok
    cases liveAt s.1 (s.2 key) <;> rfl
  rw [hp, hw]
  rfl

/-! ## C6: construction -/

/-- C6. Construction contract: `New` fails exactly when `rate ≤ 0` or
`window ≤ 0` (whatever the burst size, and otherwise it succeeds); the limiter it
returns keeps the rate, the window and the store, and its burst size is
`max burstSize rate`: a burst size below the rate is raised to the rate, one at
or above the rate is kept. -/
theorem New_contract {σ : Type} (cfg : Config) (S : Store σ) :
    ((∃ e, New cfg S = Except.error e) ↔ (cfg.Rate ≤ 0 ∨ cfg.Window ≤ 0)) ∧
    ((∃ l, New cfg S = Except.ok l) ↔ (0 < cfg.Rate ∧ 0 < cfg.Window)) ∧
    (∀ l, New cfg S = Except.ok l →
      l.config.Rate = cfg.Rate ∧ l.config.Window = cfg.Window ∧ l.store = S ∧
      l.config.BurstSize = max cfg.BurstSize cfg.Rate ∧
      (cfg.BurstSize < cfg.Rate → l.config.BurstSize = cfg.Rate) ∧
      (cfg.Rate ≤ cfg.BurstSize → l.config.BurstSize = cfg.BurstSize)) := by
  refine ⟨?_, ?_, ?_⟩
  · unfold New
    by_cases h1 : cfg.Rate ≤ 0
    · simp [h1]
    · by_cases h2 : cfg.Window ≤ 0
      · simp [h1, h2]
      · simp [h1, h2]
  · unfold New
    by_cases h1 : cfg.Rate ≤ 0
    · simp [h1]
    · by_cases h2 : cfg.Window ≤ 0
      · simp [h1, h2]
      · simp [h1, h2]
        omega
  · intro l hl
    obtain ⟨_, _, h3, h4, h5, h6⟩ := New_ok hl
    refine ⟨h4, h5, h3, h6, ?_, ?_⟩
    · intro h; rw [h6]; exact max_eq_right (le_of_lt h)
    · intro h; rw [h6]; exact max_eq_left h

/-! ## C5: store failures -/

/-- C5. No partial success on store failure. Over any store, wrapped so that its
calls are recorded: `Allow` first makes one `Get`; if it fails, `Allow` returns
an error with `allowed = false`, `remaining = 0`, `resetAfter = 0` and makes no
further call (the store is left as the `Get` left it); if it succeeds, `Allow`
makes exactly one further call, a `Set`, and if that fails it returns an error
with the same zero decision; the error is nil exactly when both calls succeeded. -/
theorem Allow_store_failure {σ : Type} (arch : Arch) (c : Config) (S : Store σ) (s : σ)
    (log : List Call) (now : Int) (key : String) :
    (∀ e, (S.Get s key).2.2 = some e →
      (limiter.mk c S.recording).Allow arch (s, log) now key =
        (((S.Get s key).1, log ++ [Call.get key]),
          ⟨false, 0, 0, some ("failed to get state: " ++ e)⟩)) ∧
    ((S.Get s key).2.2 = none →
      ((limiter.mk c S.recording).Allow arch (s, log) now key).1 =
        ((S.Set
            (writeThrough (S.Get s key).2.1
              (stepTokens c ((S.Get s key).2.1.map (fun r => r.val)) now) now (S.Get s key).1)
            key (stepState c ((S.Get s key).2.1.map (fun r => r.val)) now)
            (wrapInt64 (c.Window * 2))).1,
          log ++ [Call.get key,
            Call.set key (stepState c ((S.Get s key).2.1.map (fun r => r.val)) now)
              (wrapInt64 (c.Window * 2))]) ∧
      ∀ e, (S.Set
            (writeThrough (S.Get s key).2.1
              (stepTokens c ((S.Get s key).2.1.map (fun r => r.val)) now) now (S.Get s key).1)
            key (stepState c ((S.Get s key).2.1.map (fun r => r.val)) now)
            (wrapInt64 (c.Window * 2))).2 = some e →
        ((limiter.mk c S.recording).Allow arch (s, log) now key).2 =
          ⟨false, 0, 0, some ("failed to store state: " ++ e)⟩) ∧
    ((((limiter.mk c S.recording).Allow arch (s, log) now key).2.err = none) ↔
      ((S.Get s key).2.2 = none ∧
        (S.Set
          (writeThrough (S.Get s key).2.1
            (stepTokens c ((S.Get s key).2.1.map (fun r => r.val)) now) now (S.Get s key).1)
          key (stepState c ((S.Get s key).2.1.map (fun r => r.val)) now)
          (wrapInt64 (c.Window * 2))).2 = none)) := by
  rcases hg : S.Get s key with ⟨s1, got, ge⟩
  cases ge with
  | some e =>
    have h1 : (limiter.mk c S.recording).Allow arch (s, log) now key =
        ((s1, log ++ [Call.get key]), ⟨false, 0, 0, some ("failed to get state: " ++ e)⟩) := by
      simp only [limiter.Allow, Store.recording, hg]
    refine ⟨?_, ?_, ?_⟩
    · intro e2 he2
      simp only [Option.some.injEq] at he2
      subst he2
      exact h1
    · intro h; simp at h
    · rw [h1]; simp
  | none =>
    have hg2 : (limiter.mk c S.recording).store.Get (s, log) key =
        ((s1, log ++ [Call.get key]),
          got.map (fun ref => (⟨ref.val, fun st t => (ref.write st t.1, t.2)⟩ :
            StateRef (σ × List Call))), none) := by
      simp only [Store.recording, hg]
    have h1 := Allow_of_get arch (limiter.mk c S.recording) (s, log) _ now key _ hg2
    have hp : (got.map (fun ref => (⟨ref.val, fun st t => (ref.write st t.1, t.2)⟩ :
        StateRef (σ × List Call)))).map (fun r => r.val) = got.map (fun r => r.val) := by
      cases got <;> rfl
    have hw : ∀ (tok : F64) (t : σ × List Call),
        writeThrough (got.map (fun ref => (⟨ref.val, fun st t => (ref.write st t.1, t.2)⟩ :
          StateRef (σ × List Call)))) tok now t = (writeThrough got tok now t.1, t.2) := by
      intro tok t
      cases got <;> rfl
    rw [hp, hw] at h1
    rcases hs : S.Set (writeThrough got (stepTokens c (got.map (fun r => r.val)) now) now s1) key
        (stepState c (got.map (fun r => r.val)) now) (wrapInt64 (c.Window * 2)) with ⟨s2, se⟩
    have hs2 : (limiter.mk c S.recording).store.Set
        (writeThrough got
          (stepTokens (limiter.mk c S.recording).config (got.map (fun r => r.val)) now) now
          (s1, log ++ [Call.get key]).1, (s1, log ++ [Call.get key]).2) key
        (stepState (limiter.mk c S.recording).config (got.map (fun r => r.val)) now)
        (wrapInt64 ((limiter.mk c S.recording).config.Window * 2)) =
        ((s2, log ++ [Call.get key,
            Call.set key (stepState c (got.map (fun r => r.val)) now)
              (wrapInt64 (c.Window * 2))]),
          se) := by
      simp only [Store.recording, hs, List.append_assoc, List.singleton_append]
    rw [hs2] at h1
    rw [h1]
    refine ⟨?_, ?_, ?_⟩
    · intro e2 he2; simp at he2
    · intro _
      cases se with
      | some e => simp
      | none => simp
    · cases se with
      | some e => simp
      | none => simp [stepResult]

/-! ## Calls at one clock reading on whole tokens -/

theorem qBurst_of_small (c : Config) (hc : c.valid) (hB : c.BurstSize ≤ 9007199254740992) :
    qBurst c = (c.BurstSize : ℚ) := by
  obtain ⟨h1, _, h3, _⟩ := hc
  have h := F64.ofInt_of_small c.BurstSize (by omega) hB
  have h2 := (qBurst_facts c ⟨h1, ‹_›, h3, ‹_›⟩).1
  rw [h] at h2
  injection h2 with h2
  exact h2.symm

/-- With no elapsed time and `n` whole tokens in a bucket of at most `2 ^ 53`,
the step is exact: it admits when `n ≥ 1` and leaves `n - 1`. -/
theorem step_same_time_nat (c : Config) (hc : c.valid) (hB : c.BurstSize ≤ 9007199254740992)
    (n : Nat) (hn : (n : Int) ≤ c.BurstSize) (now : Int) :
    stepAllowed c (some ⟨F64.fin (n : ℚ), now⟩) now = decide (1 ≤ n) ∧
      stepTokens c (some ⟨F64.fin (n : ℚ), now⟩) now = F64.fin ((n - 1 : Nat) : ℚ) := by
  have hb := qBurst_of_small c hc hB
  have hn53 : n ≤ 2 ^ 53 := by
    have : (n : Int) ≤ ((2 ^ 53 : Nat) : Int) := by
      have e : ((2 ^ 53 : Nat) : Int) = 9007199254740992 := by norm_num
      omega
    exact_mod_cast this
  obtain ⟨_, s2, s3, _⟩ := step_fin c hc (n : ℚ) now now (Nat.cast_nonneg n) le_rfl
  have hy : qRefilled c (n : ℚ) now now = (n : ℚ) := by
    unfold qRefilled
    rw [qAdd_same_time, add_zero, roundQ_natCast n hn53, hb]
    apply min_eq_right
    exact_mod_cast hn
  rw [s2, s3]
  unfold qTokens
  rw [hy]
  rcases Nat.eq_zero_or_pos n with h0 | hpos
  · subst h0
    simp
  · have h1 : (1 : ℚ) ≤ (n : ℚ) := by exact_mod_cast hpos
    have h1n : 1 ≤ n := hpos
    have e : (n : ℚ) - 1 = ((n - 1 : Nat) : ℚ) := by
      rw [Nat.cast_sub h1n]
      simp
    have hfix : roundQ ((n - 1 : Nat) : ℚ) = ((n - 1 : Nat) : ℚ) :=
      roundQ_natCast (n - 1) (by omega)
    simp only [h1, h1n, decide_True, if_true]
    rw [e, hfix]
    exact ⟨trivial, rfl⟩

theorem F64.toInt64_natCast (arch : Arch) (n : Nat) (hn : n ≤ 2 ^ 53) :
    F64.toInt64 arch (F64.fin (n : ℚ)) = (n : Int) := by
  have h1 : (n : ℚ) < 9223372036854775808 := by
    have : (n : ℚ) ≤ ((2 ^ 53 : Nat) : ℚ) := by exact_mod_cast hn
    have e : ((2 ^ 53 : Nat) : ℚ) < 9223372036854775808 := by norm_num
    linarith
  rw [F64.toInt64_of_nonneg arch (Nat.cast_nonneg n) h1, truncToInt_natCast]

/-- Draining a bucket that holds `n` whole tokens with calls at one clock
reading: `n` admissions with `n - 1, ..., 0` remaining, then a denial. -/
theorem allowSeq_drain (arch : Arch) (l : limiter (String → Option State))
    (hs : l.store = mapStore) (hc : l.config.valid)
    (hB : l.config.BurstSize ≤ 9007199254740992) (now : Int) (key : String) (n : Nat) :
    ∀ (m : String → Option State), m key = some ⟨F64.fin (n : ℚ), now⟩ →
      (n : Int) ≤ l.config.BurstSize →
      l.allowSeq arch key (List.replicate (n + 1) now) m =
        (List.range n).reverse.map (fun (i : Nat) =>
          (⟨true, (i : Int),
            F64.toInt64 arch
              (resetQuotient l.config (some ⟨F64.fin ((i + 1 : Nat) : ℚ), now⟩) now),
            none⟩ : Result)) ++
        [⟨false, 0,
          F64.toInt64 arch (resetQuotient l.config (some ⟨F64.fin ((0 : Nat) : ℚ), now⟩) now),
          none⟩] := by
  induction n with
  | zero =>
    intro m hm hn
    obtain ⟨s1, s2⟩ := step_same_time_nat l.config hc hB 0 hn now
    simp only [List.replicate, limiter.allowSeq, List.range_zero, List.reverse_nil, List.map_nil,
      List.nil_append]
    rw [Allow_mapStore arch l hs, hm]
    simp only [stepResult, s1, s2]
    have := F64.toInt64_natCast arch 0 (by norm_num)
    simp only [Nat.zero_sub] at this ⊢
    rw [this]
    simp
  | succ n ih =>
    intro m hm hn
    obtain ⟨s1, s2⟩ := step_same_time_nat l.config hc hB (n + 1) hn now
    have hn53 : n ≤ 2 ^ 53 := by
      have e : ((2 ^ 53 : Nat) : Int) = 9007199254740992 := by norm_num
      have : (n : Int) ≤ ((2 ^ 53 : Nat) : Int) := by push_cast at hn ⊢; omega
      exact_mod_cast this
    have hstep : l.Allow arch m now key =
        (Function.update m key (some ⟨F64.fin (n : ℚ), now⟩),
          ⟨true, (n : Int),
            F64.toInt64 arch
              (resetQuotient l.config (some ⟨F64.fin ((n + 1 : Nat) : ℚ), now⟩) now),
            none⟩) := by
      rw [Allow_mapStore arch l hs, hm]
      simp only [stepResult, stepState, s1, s2, Nat.add_sub_cancel]
      rw [F64.toInt64_natCast arch n hn53]
      simp
    rw [List.replicate_succ, limiter.allowSeq, hstep]
    rw [ih (Function.update m key (some ⟨F64.fin (n : ℚ), now⟩)) (Function.update_same _ _ _)
      (by push_cast at hn ⊢; omega)]
    rw [List.range_succ, List.reverse_append]
    simp

/-- The first call on an absent key with a burst size of at most `2 ^ 53`:
admitted, remaining `B - 1`, and `B - 1` tokens written. -/
theorem Allow_absent (arch : Arch) (l : limiter (String → Option State))
    (hs : l.store = mapStore) (hc : l.config.valid)
    (hB : l.config.BurstSize ≤ 9007199254740992) (m : String → Option State) (now : Int)
    (key : String) (hm : m key = none) :
    l.Allow arch m now key =
      (Function.update m key (some ⟨F64.fin ((l.config.BurstSize : ℚ) - 1), now⟩),
        ⟨true, l.config.BurstSize - 1,
          F64.toInt64 arch (resetQuotient l.config none now), none⟩) := by
  obtain ⟨_, a2, a3⟩ := step_absent l.config hc now
  have hb := qBurst_of_small l.config hc hB
  obtain ⟨h1, _, h3, _⟩ := hc
  obtain ⟨k, hk⟩ : ∃ k : Nat, l.config.BurstSize = (k : Int) + 1 :=
    ⟨(l.config.BurstSize - 1).toNat, by omega⟩
  have hk53 : k ≤ 2 ^ 53 := by
    have e : ((2 ^ 53 : Nat) : Int) = 9007199254740992 := by norm_num
    have : (k : Int) ≤ ((2 ^ 53 : Nat) : Int) := by omega
    exact_mod_cast this
  have hq : (l.config.BurstSize : ℚ) - 1 = (k : ℚ) := by
    rw [hk]; push_cast; ring
  rw [Allow_mapStore arch l hs, hm]
  simp only [stepResult, stepState, a2, a3, hb, hq, roundQ_natCast k hk53,
    F64.toInt64_natCast arch k hk53]
  have : l.config.BurstSize - 1 = (k : Int) := by omega
  rw [this]

/-! ## C2: burst exhaustion -/

/-- Above `2 ^ 53` the conversion `float64(BurstSize)` rounds: with burst size
`2 ^ 53 + 1` the bucket starts at `2 ^ 53` and the first call on an absent key
leaves `2 ^ 53 - 1`, which is returned as `remaining`. -/
theorem absent_step_above_two_pow_53 (arch : Arch) (now : Int) :
    stepResult arch (Config.mk 1 1000000000 9007199254740993) none now =
      ⟨true, 9007199254740991,
        F64.toInt64 arch (resetQuotient (Config.mk 1 1000000000 9007199254740993) none now),
        none⟩ := by
  have hc : (Config.mk 1 1000000000 9007199254740993).valid := by decide
  have hb : qBurst (Config.mk 1 1000000000 9007199254740993) = 9007199254740992 := by
    unfold qBurst
    have h := roundQ_eq_of_tie (9007199254740993 : ℚ) 1 4503599627370496 (by norm_num)
      (by norm_num) (by norm_num) (by norm_num)
    simp only [Int.cast_ofNat]
    rw [h]
    norm_num
  obtain ⟨_, ha, ht⟩ := step_absent (Config.mk 1 1000000000 9007199254740993) hc now
  rw [hb] at ht
  have e : (9007199254740992 : ℚ) - 1 = ((9007199254740991 : Nat) : ℚ) := by norm_num
  rw [e, roundQ_natCast _ (by norm_num)] at ht
  simp only [stepResult, ha]
  rw [ht, F64.toInt64_natCast arch _ (by norm_num)]
  rfl

/-- C2, as stated, fails: `float64(BurstSize)` is not exact above `2 ^ 53`. With
rate 1, window 1 s and burst size `2 ^ 53 + 1` the bucket starts at
`float64(2 ^ 53 + 1) = 2 ^ 53`, and the first call on a fresh key returns
`remaining = 2 ^ 53 - 1`, which is `B - 2` and not `B - 1`. -/
theorem burst_exhaustion_counterexample :
    ∃ l, New (Config.mk 1 1000000000 9007199254740993) mapStore = Except.ok l ∧
      (l.Allow amd64 (fun _ => none) 0 "k").2.allowed = true ∧
      (l.Allow amd64 (fun _ => none) 0 "k").2.remaining = 9007199254740991 ∧
      (9007199254740991 : Int) ≠ l.config.BurstSize - 1 := by
  refine ⟨limiter.mk (Config.mk 1 1000000000 9007199254740993) mapStore, rfl, ?_, ?_, by decide⟩
  · rw [Allow_mapStore amd64 _ rfl]
    exact congrArg Result.allowed (absent_step_above_two_pow_53 amd64 0)
  · rw [Allow_mapStore amd64 _ rfl]
    exact congrArg Result.remaining (absent_step_above_two_pow_53 amd64 0)

/-- C2, amended. Burst exhaustion. For a limiter built by `New` from 64-bit
fields over the in-memory store, with effective burst `B = max burstSize rate`
of at most `2 ^ 53` (so that `float64(B)` is exact), a key that is absent and
`B + 1` serialized `Allow` calls all made at the same clock reading: the first
`B` calls are admitted with remaining `B - 1, B - 2, ..., 0` in that order, and
call `B + 1` is denied with remaining `0`; no call returns an error. -/
theorem burst_exhaustion (arch : Arch) (cfg : Config) (l : limiter (String → Option State))
    (hnew : New cfg mapStore = Except.ok l) (hr : cfg.inRange)
    (hB : max cfg.BurstSize cfg.Rate ≤ 9007199254740992)
    (m : String → Option State) (key : String) (now : Int) (hm : m key = none) :
    (l.allowSeq arch key
        (List.replicate ((max cfg.BurstSize cfg.Rate).toNat + 1) now) m).map
        (fun r => (r.allowed, r.remaining, r.err)) =
      (List.range (max cfg.BurstSize cfg.Rate).toNat).reverse.map
          (fun (i : Nat) => (true, (i : Int), none)) ++
        [(false, 0, none)] := by
  have hc := New_valid hnew hr
  obtain ⟨hR, _, hs, _, _, hBeq⟩ := New_ok hnew
  have hB1 : 1 ≤ l.config.BurstSize := by
    rw [hBeq]
    have := le_max_right cfg.BurstSize cfg.Rate
    omega
  have hB53 : l.config.BurstSize ≤ 9007199254740992 := by rw [hBeq]; exact hB
  obtain ⟨k, hk⟩ : ∃ k : Nat, l.config.BurstSize = (k : Int) + 1 :=
    ⟨(l.config.BurstSize - 1).toNat, by omega⟩
  have hkB : (l.config.BurstSize : ℚ) - 1 = (k : ℚ) := by
    rw [hk]; push_cast; ring
  have htoNat : (max cfg.BurstSize cfg.Rate).toNat = k + 1 := by
    rw [← hBeq, hk]; omega
  have hfirst := Allow_absent arch l hs hc hB53 m now key hm
  rw [hkB] at hfirst
  rw [htoNat, List.replicate_succ, limiter.allowSeq, hfirst,
    allowSeq_drain arch l hs hc hB53 now key k _ (Function.update_same _ _ _) (by omega),
    List.range_succ, List.reverse_append]
  have hk2 : l.config.BurstSize - 1 = (k : Int) := by omega
  simp [hk2, Function.comp_def]

/-- C2 (amended) at the first scenario of the specification: rate 10, window
1 s, burst size 10 gives remaining 9, 8, ..., 0 and then a denial. -/
theorem burst_exhaustion_witness :
    ((limiter.mk (Config.mk 10 1000000000 10) mapStore).allowSeq amd64 "k"
        (List.replicate 11 0) (fun _ => none)).map
        (fun r => (r.allowed, r.remaining, r.err)) =
      [(true, 9, none), (true, 8, none), (true, 7, none), (true, 6, none), (true, 5, none),
       (true, 4, none), (true, 3, none), (true, 2, none), (true, 1, none), (true, 0, none),
       (false, 0, none)] :=
  burst_exhaustion amd64 (Config.mk 10 1000000000 10)
    (limiter.mk (Config.mk 10 1000000000 10) mapStore) rfl (by decide) (by decide)
    (fun _ => none) "k" 0 rfl

/-! ## C7: the retry hint of the first denial -/

/-- The refill rate of scenario 1, `float64(10) / float64(1e9)`: the binary64
value nearest to `1e-8`. -/
theorem scenario1_rate :
    qRate (Config.mk 10 1000000000 10) = (6044629098073146 : ℚ) / 2 ^ 79 := by
  unfold qRate
  have h10 : roundQ ((10 : Int) : ℚ) = 10 := by
    have := roundQ_natCast 10 (by norm_num)
    simpa using this
  have hw : roundQ ((1000000000 : Int) : ℚ) = 1000000000 := by
    have := roundQ_natCast 1000000000 (by norm_num)
    simpa using this
  simp only [h10, hw]
  have h := roundQ_eq_of_near ((10 : ℚ) / 1000000000) (-79) 6044629098073146 (by norm_num)
    (by norm_num) (by norm_num) (by norm_num) (by norm_num)
  rw [h]
  norm_num

/-- The quotient of the eleventh call of scenario 1: `10 / rate` rounds to
`1e9` exactly. -/
theorem scenario1_quotient :
    resetQuotient (Config.mk 10 1000000000 10) (some ⟨F64.fin 0, 0⟩) 0 =
      F64.fin 1000000000 := by
  have hc : (Config.mk 10 1000000000 10).valid := by decide
  obtain ⟨_, s2⟩ := step_same_time_nat (Config.mk 10 1000000000 10) hc (by decide) 0
    (by decide) 0
  have hb := (qBurst_facts _ hc).1
  rw [qBurst_of_small _ hc (by decide)] at hb
  have hr := (qRate_facts _ hc).1
  rw [scenario1_rate] at hr
  simp only [Nat.cast_zero, Nat.zero_sub] at s2
  unfold resetQuotient
  rw [s2, hb, hr]
  have h1 : (0 : ℚ) ≤ 10 + -0 := by norm_num
  have h10 : roundQ ((10 : ℚ) + -0) = 10 := by
    have := roundQ_natCast 10 (by norm_num)
    simpa using this
  simp only [F64.sub, F64.neg, F64.add, Int.cast_ofNat,
    F64.round_of_nonneg h1 (le_two_pow_1023_of_le_127 (by norm_num)), h10, F64.div]
  rw [if_neg (by norm_num)]
  have hq0 : (0 : ℚ) ≤ (10 : ℚ) / ((6044629098073146 : ℚ) / 2 ^ 79) := by norm_num
  rw [F64.round_of_nonneg hq0 (le_two_pow_1023_of_le_127 (by norm_num))]
  have h := roundQ_eq_of_near ((10 : ℚ) / ((6044629098073146 : ℚ) / 2 ^ 79)) (-23)
    8388608000000000 (by norm_num) (by norm_num) (by norm_num) (by norm_num) (by norm_num)
  rw [h]
  norm_num

/-- Scenario 1 of the specification, evaluated: eleven calls at one clock
reading on a fresh key, with rate 10, window 1 s, burst size 10. The first ten
are admitted and the eleventh returns `(false, 0, 1 s)`. -/
theorem allowSeq_scenario1 (arch : Arch) :
    (((limiter.mk (Config.mk 10 1000000000 10) mapStore).allowSeq arch "k"
        (List.replicate 11 0) (fun _ => none)).take 10).all (fun r => r.allowed) = true ∧
      ((limiter.mk (Config.mk 10 1000000000 10) mapStore).allowSeq arch "k"
        (List.replicate 11 0) (fun _ => none))[10]? =
        some ⟨false, 0, 1000000000, none⟩ := by
  have hc : (Config.mk 10 1000000000 10).valid := by decide
  have hq := scenario1_quotient
  have hconv : F64.toInt64 arch (F64.fin 1000000000) = 1000000000 := by
    have := F64.toInt64_natCast arch 1000000000 (by norm_num)
    simpa using this
  rw [show List.replicate 11 (0 : Int) = 0 :: List.replicate (9 + 1) 0 from rfl,
    limiter.allowSeq,
    Allow_absent arch (limiter.mk (Config.mk 10 1000000000 10) mapStore) rfl hc (by decide)
      _ 0 "k" rfl,
    allowSeq_drain arch (limiter.mk (Config.mk 10 1000000000 10) mapStore) rfl hc (by decide)
      0 "k" 9 _ (by simp; norm_num) (by decide)]
  simp only [Nat.cast_zero, hq, hconv]
  constructor
  · simp [List.range_succ]
  · simp [List.range_succ]

/-- C7, as stated, fails: with rate 10, window 1 s, burst size 10, the eleventh
call at one clock reading on a fresh key is denied with remaining 0, but its
`resetAfter` is 1 s, which is not within a nanosecond of 100 ms. -/
theorem retry_hint_counterexample :
    ∃ l r, New (Config.mk 10 1000000000 10) mapStore = Except.ok l ∧
      (l.allowSeq amd64 "k" (List.replicate 11 0) (fun _ => none))[10]? = some r ∧
      r.allowed = false ∧ r.remaining = 0 ∧
      ¬ (100000000 - 1 ≤ r.resetAfter ∧ r.resetAfter ≤ 100000000 + 1) :=
  ⟨limiter.mk (Config.mk 10 1000000000 10) mapStore, ⟨false, 0, 1000000000, none⟩, rfl,
    (allowSeq_scenario1 amd64).2, rfl, rfl, by decide⟩

/-- C7, amended. With rate 10, window 1 s, burst size 10, ten `Allow` calls on a
fresh key at one clock reading are admitted, and the eleventh call at the same
reading returns `allowed = false`, `remaining = 0` and `resetAfter = 1 s`: the
time until the bucket is full again (10 tokens at 10 tokens per second). -/
theorem retry_hint_first_denial (arch : Arch) :
    ∃ l, New (Config.mk 10 1000000000 10) mapStore = Except.ok l ∧
      ((l.allowSeq arch "k" (List.replicate 11 0) (fun _ => none)).take 10).all
          (fun r => r.allowed) = true ∧
      (l.allowSeq arch "k" (List.replicate 11 0) (fun _ => none))[10]? =
        some ⟨false, 0, 1000000000, none⟩ :=
  ⟨limiter.mk (Config.mk 10 1000000000 10) mapStore, rfl, (allowSeq_scenario1 arch).1,
    (allowSeq_scenario1 arch).2⟩

/-! ## C1: `Allow` is the token-bucket step in `float64` -/

/-- The step depends on the stored State only through the State the call
starts from. -/
theorem step_congr (arch : Arch) (c : Config) (prior : Option State) (now : Int) :
    stepState c prior now = stepState c (some (priorState c prior now)) now ∧
      stepResult arch c prior now = stepResult arch c (some (priorState c prior now)) now := by
  cases prior <;> exact ⟨rfl, rfl⟩

/-- From finite non-negative tokens the quotient `tokensNeeded / refillRate` is
finite: two roundings of exact results. -/
theorem resetQuotient_fin (c : Config) (hc : c.valid) (T : ℚ) (last now : Int) (hT0 : 0 ≤ T)
    (h : last ≤ now) :
    resetQuotient c (some ⟨F64.fin T, last⟩) now = F64.fin (qReset c T last now) := by
  obtain ⟨b1, _, b3, _⟩ := qBurst_facts c hc
  obtain ⟨r1, r2, _, _⟩ := qRate_facts c hc
  have rpos := qRate_pos c hc
  obtain ⟨_, _, s3, _, _, s6, s7⟩ := step_fin c hc T last now hT0 h
  have hn0 : 0 ≤ qBurst c + -qTokens c T last now := by linarith
  have hn1 : qBurst c + -qTokens c T last now ≤ 9223372036854775808 := by linarith
  have hx0 := roundQ_nonneg hn0
  have hx1 := roundQ_le hn0 two_pow_63_fixed hn1
  have hq0 : 0 ≤ roundQ (qBurst c + -qTokens c T last now) / qRate c :=
    div_nonneg hx0 (le_of_lt rpos)
  have hq1 : roundQ (qBurst c + -qTokens c T last now) / qRate c ≤
      85070591730234615865843651857942052864 := by
    rw [div_le_iff₀ rpos]
    have : (9223372036854775808 : ℚ) ≤
        85070591730234615865843651857942052864 * (1 / 9223372036854775808) := by norm_num
    nlinarith
  unfold resetQuotient qReset
  rw [s3, b1, r1]
  simp only [F64.sub, F64.neg, F64.add]
  rw [F64.round_of_nonneg hn0 (le_two_pow_1023_of_le_127 (by linarith))]
  simp only [F64.div, if_neg (ne_of_gt rpos)]
  rw [F64.round_of_nonneg hq0 (le_two_pow_1023_of_le_127 (by linarith)), sub_eq_add_neg]

/-- Running `Allow` on a recording store whose `Get` succeeds: the two calls
are logged and the outcome is decided by the `Set`. -/
theorem Allow_recording_of_get {σ : Type} (arch : Arch) (c : Config) (S : Store σ) (s : σ)
    (log : List Call) (now : Int) (key : String) (hget : (S.Get s key).2.2 = none) :
    (limiter.mk c S.recording).Allow arch (s, log) now key =
      match S.Set
          (writeThrough (S.Get s key).2.1
            (stepTokens c ((S.Get s key).2.1.map (fun r => r.val)) now) now (S.Get s key).1)
          key (stepState c ((S.Get s key).2.1.map (fun r => r.val)) now)
          (wrapInt64 (c.Window * 2)) with
      | (s2, some e) =>
        ((s2, log ++ [Call.get key,
            Call.set key (stepState c ((S.Get s key).2.1.map (fun r => r.val)) now)
              (wrapInt64 (c.Window * 2))]),
          ⟨false, 0, 0, some ("failed to store state: " ++ e)⟩)
      | (s2, none) =>
        ((s2, log ++ [Call.get key,
            Call.set key (stepState c ((S.Get s key).2.1.map (fun r => r.val)) now)
              (wrapInt64 (c.Window * 2))]),
          stepResult arch c ((S.Get s key).2.1.map (fun r => r.val)) now) := by
  rcases hg : S.Get s key with ⟨s1, got, ge⟩
  rw [hg] at hget
  simp only at hget
  subst hget
  have hg2 : (limiter.mk c S.recording).store.Get (s, log) key =
      ((s1, log ++ [Call.get key]),
        got.map (fun ref => (⟨ref.val, fun st t => (ref.write st t.1, t.2)⟩ :
          StateRef (σ × List Call))), none) := by
    simp only [Store.recording, hg]
  have h1 := Allow_of_get arch (limiter.mk c S.recording) (s, log) _ now key _ hg2
  have hp : (got.map (fun ref => (⟨ref.val, fun st t => (ref.write st t.1, t.2)⟩ :
      StateRef (σ × List Call)))).map (fun r => r.val) = got.map (fun r => r.val) := by
    cases got <;> rfl
  have hw : ∀ (tok : F64) (t : σ × List Call),
      writeThrough (got.map (fun ref => (⟨ref.val, fun st t => (ref.write st t.1, t.2)⟩ :
        StateRef (σ × List Call)))) tok now t = (writeThrough got tok now t.1, t.2) := by
    intro tok t
    cases got <;> rfl
  rw [hp, hw] at h1
  rcases hs : S.Set (writeThrough got (stepTokens c (got.map (fun r => r.val)) now) now s1) key
      (stepState c (got.map (fun r => r.val)) now) (wrapInt64 (c.Window * 2)) with ⟨s2, se⟩
  have hs2 : (limiter.mk c S.recording).store.Set
      (writeThrough got
        (stepTokens (limiter.mk c S.recording).config (got.map (fun r => r.val)) now) now
        (s1, log ++ [Call.get key]).1, (s1, log ++ [Call.get key]).2) key
      (stepState (limiter.mk c S.recording).config (got.map (fun r => r.val)) now)
      (wrapInt64 ((limiter.mk c S.recording).config.Window * 2)) =
      ((s2, log ++ [Call.get key,
          Call.set key (stepState c (got.map (fun r => r.val)) now)
            (wrapInt64 (c.Window * 2))]),
        se) := by
    simp only [Store.recording, hs, List.append_assoc, List.singleton_append]
  rw [hs2] at h1
  rw [h1]
  cases se <;> rfl

theorem wrapInt64_of_fits (n : Int) (h0 : -9223372036854775808 ≤ n)
    (h1 : n ≤ 9223372036854775807) : wrapInt64 n = n := by
  unfold wrapInt64
  omega

/-- The steps of the run on `{rate: 1, window: 365 days, burst: 1}`: the first
call on an absent key empties the bucket, and `W - 1` ns later the refill
computed in `float64` is `1.0`: the elapsed `W - 1` ns convert to `W`, and
`float64(1/W) * W` rounds to `1`. -/
theorem year_window_steps :
    stepAllowed (Config.mk 1 31536000000000000 1) none 0 = true ∧
      stepTokens (Config.mk 1 31536000000000000 1) none 0 = F64.fin 0 ∧
      stepAllowed (Config.mk 1 31536000000000000 1) (some ⟨F64.fin 0, 0⟩)
        31535999999999999 = true ∧
      stepTokens (Config.mk 1 31536000000000000 1) (some ⟨F64.fin 0, 0⟩)
        31535999999999999 = F64.fin 0 := by
  have hc : (Config.mk 1 31536000000000000 1).valid := by decide
  have hb : qBurst (Config.mk 1 31536000000000000 1) = 1 := by
    rw [qBurst_of_small _ hc (by decide)]
    norm_num
  have hW : roundQ (31536000000000000 : ℚ) = 31536000000000000 := by
    have h := roundQ_eq_of_near (31536000000000000 : ℚ) 2 7884000000000000 (by norm_num)
      (by norm_num) (by norm_num) (by norm_num) (by norm_num)
    rw [h]
    norm_num
  have hW1 : roundQ (31535999999999999 : ℚ) = 31536000000000000 := by
    have h := roundQ_eq_of_near (31535999999999999 : ℚ) 2 7884000000000000 (by norm_num)
      (by norm_num) (by norm_num) (by norm_num) (by norm_num)
    rw [h]
    norm_num
  have hrate : qRate (Config.mk 1 31536000000000000 1) =
      5145207915690429 * (2 : ℚ) ^ (-107 : Int) := by
    unfold qRate
    have r1 : roundQ ((1 : Int) : ℚ) = 1 := by
      have := roundQ_natCast 1 (by norm_num)
      simpa using this
    have r2 : roundQ ((31536000000000000 : Int) : ℚ) = 31536000000000000 := by
      simpa using hW
    simp only [r1, r2]
    have h := roundQ_eq_of_near ((1 : ℚ) / 31536000000000000) (-107) 5145207915690429
      (by norm_num) (by norm_num) (by norm_num) (by norm_num) (by norm_num)
    rw [h]
    norm_num
  have hadd : qAdd (Config.mk 1 31536000000000000 1) 0 31535999999999999 = 1 := by
    unfold qAdd
    have ht : timeSub 31535999999999999 0 = 31535999999999999 := by decide
    have r2 : roundQ ((31535999999999999 : Int) : ℚ) = 31536000000000000 := by
      simpa using hW1
    rw [hrate, ht, r2]
    have h := roundQ_eq_of_near
      (5145207915690429 * (2 : ℚ) ^ (-107 : Int) * 31536000000000000) (-52) 4503599627370496
      (by norm_num) (by norm_num) (by norm_num) (by norm_num) (by norm_num)
    rw [h]
    norm_num
  have href : qRefilled (Config.mk 1 31536000000000000 1) 0 0 31535999999999999 = 1 := by
    unfold qRefilled
    rw [hadd, hb, zero_add, roundQ_one, min_self]
  have htok : qTokens (Config.mk 1 31536000000000000 1) 0 0 31535999999999999 = 0 := by
    unfold qTokens
    rw [href]
    norm_num [roundQ_zero]
  obtain ⟨_, a2, a3⟩ := step_absent (Config.mk 1 31536000000000000 1) hc 0
  rw [hb] at a3
  norm_num [roundQ_zero] at a3
  obtain ⟨_, s2, s3, _⟩ := step_fin (Config.mk 1 31536000000000000 1) hc 0 0
    31535999999999999 le_rfl (by decide)
  rw [href] at s2
  rw [htok] at s3
  norm_num at s2
  exact ⟨a2, a3, s2, s3⟩

/-- C1, as stated, fails: `Allow` computes in `float64`, not over exact
rationals. With rate 1, window 365 days, burst size 1 and a stored State
`{tokens: 0, lastRefill: 0}`, a call at `W - 1` ns is admitted (the refill is
rounded to `1.0`) and persists `tokens = 0`, while the reference step over
exact rationals refills `(W - 1) / W < 1` tokens, denies and keeps them. -/
theorem reference_step_counterexample :
    ∃ l, New (Config.mk 1 31536000000000000 1) mapStore = Except.ok l ∧
      (l.Allow amd64 (Function.update (fun _ => none) "k" (some ⟨F64.fin 0, 0⟩))
        31535999999999999 "k").2.allowed = true ∧
      (l.Allow amd64 (Function.update (fun _ => none) "k" (some ⟨F64.fin 0, 0⟩))
        31535999999999999 "k").1 "k" = some ⟨F64.fin 0, 31535999999999999⟩ ∧
      refAllowed l.config.BurstSize l.config.Rate l.config.Window 0 0
        31535999999999999 = false ∧
      refTokens l.config.BurstSize l.config.Rate l.config.Window 0 0
        31535999999999999 = 31535999999999999 / 31536000000000000 := by
  have hden : refAllowed 1 1 31536000000000000 0 0 31535999999999999 = false := by
    simp only [refAllowed, refRefilled, decide_eq_false_iff_not]
    norm_num
  refine ⟨limiter.mk (Config.mk 1 31536000000000000 1) mapStore, rfl, ?_, ?_, hden, ?_⟩
  · rw [Allow_mapStore amd64 _ rfl, Function.update_same]
    simp only [stepResult]
    exact year_window_steps.2.2.1
  · rw [Allow_mapStore amd64 _ rfl]
    simp only [Function.update_same, stepState, year_window_steps.2.2.2]
  · simp only [refTokens, hden]
    simp only [refRefilled]
    norm_num

/-- C1, amended. `Allow` is the token-bucket step in `float64`. For a limiter
built by `New` from 64-bit fields with a window of less than `2 ^ 62` ns, over
any store whose `Get` succeeds and whose `Set` of the resulting State succeeds:
the store receives exactly one `Get` and then one `Set` of
`{tokens: newTokens, lastRefill: now}` under the key with TTL `2 * window`,
whether or not the call is admitted, and `Allow` returns the decision of the
step with a nil error. When the State the call starts from (the stored one, or
`(float64(B), now)` for an absent key) has finite tokens `T ≥ 0` and
`lastRefill ≤ now`, every operation of the step rounds an exact result to
`float64`: `newTokens = min(fl(B), fl(T + fl(fl(fl(R) / fl(W)) * fl(now -
lastRefill))))`, `allowed = (newTokens ≥ 1)`, one unit is subtracted (and the
result rounded) exactly when allowed, `remaining` is the conversion of
`newTokens` to an integer and `resetAfter` the conversion of
`fl(fl(fl(B) - newTokens) / fl(fl(R) / fl(W)))`. -/
theorem Allow_eq_rounded_step {σ : Type} (arch : Arch) (cfg : Config) (S : Store σ)
    (l : limiter (σ × List Call)) (hnew : New cfg S.recording = Except.ok l) (hr : cfg.inRange)
    (hW : 2 * cfg.Window ≤ 9223372036854775807)
    (s : σ) (log : List Call) (now : Int) (key : String)
    (hget : (S.Get s key).2.2 = none)
    (hset : (S.Set
        (writeThrough (S.Get s key).2.1
          (stepTokens l.config ((S.Get s key).2.1.map (fun r => r.val)) now) now (S.Get s key).1)
        key (stepState l.config ((S.Get s key).2.1.map (fun r => r.val)) now)
        (2 * cfg.Window)).2 = none) :
    l.Allow arch (s, log) now key =
        (((S.Set
            (writeThrough (S.Get s key).2.1
              (stepTokens l.config ((S.Get s key).2.1.map (fun r => r.val)) now) now
              (S.Get s key).1)
            key (stepState l.config ((S.Get s key).2.1.map (fun r => r.val)) now)
            (2 * cfg.Window)).1,
          log ++ [Call.get key,
            Call.set key (stepState l.config ((S.Get s key).2.1.map (fun r => r.val)) now)
              (2 * cfg.Window)]),
          stepResult arch l.config ((S.Get s key).2.1.map (fun r => r.val)) now) ∧
      ∀ (T : ℚ) (last : Int),
        priorState l.config ((S.Get s key).2.1.map (fun r => r.val)) now = ⟨F64.fin T, last⟩ →
        0 ≤ T → last ≤ now →
        stepState l.config ((S.Get s key).2.1.map (fun r => r.val)) now =
            ⟨F64.fin (qTokens l.config T last now), now⟩ ∧
          stepResult arch l.config ((S.Get s key).2.1.map (fun r => r.val)) now =
            ⟨decide (1 ≤ qRefilled l.config T last now),
              F64.toInt64 arch (F64.fin (qTokens l.config T last now)),
              F64.toInt64 arch (F64.fin (qReset l.config T last now)), none⟩ := by
  have hc := New_valid hnew hr
  obtain ⟨_, hWpos, h3, _, h5, _⟩ := New_ok hnew
  obtain ⟨c, st⟩ := l
  simp only at h3 h5 hc hset ⊢
  subst h3
  have httl : wrapInt64 (c.Window * 2) = 2 * cfg.Window := by
    rw [h5, mul_comm]
    exact wrapInt64_of_fits _ (by omega) hW
  constructor
  · rw [Allow_recording_of_get arch c S s log now key hget, httl]
    rcases hs : S.Set
        (writeThrough (S.Get s key).2.1
          (stepTokens c ((S.Get s key).2.1.map (fun r => r.val)) now) now (S.Get s key).1)
        key (stepState c ((S.Get s key).2.1.map (fun r => r.val)) now)
        (2 * cfg.Window) with ⟨s2, se⟩
    rw [hs] at hset
    simp only at hset
    subst hset
    rfl
  · intro T last hp hT0 hlast
    obtain ⟨e1, e2⟩ := step_congr arch c ((S.Get s key).2.1.map (fun r => r.val)) now
    obtain ⟨_, s2, s3, _⟩ := step_fin c hc T last now hT0 hlast
    have hq := resetQuotient_fin c hc T last now hT0 hlast
    rw [e1, e2, hp]
    simp only [stepState, stepResult, s2, s3, hq]
    exact ⟨trivial, trivial⟩

/-- C1 (amended) at a concrete input: rate 10 per second, burst 10, an
in-memory store that holds `{tokens: 3, lastRefill: 0}` under the key, and the
clock at 0.25 s. -/
theorem Allow_eq_rounded_step_witness :
    (limiter.mk (Config.mk 10 1000000000 10) mapStore.recording).Allow amd64
        (Function.update (fun _ => none) "k" (some ⟨F64.fin 3, 0⟩), []) 250000000 "k" =
      ((Function.update (Function.update (fun _ => none) "k" (some ⟨F64.fin 3, 0⟩)) "k"
          (some ⟨F64.fin (qTokens (Config.mk 10 1000000000 10) 3 0 250000000), 250000000⟩),
        [Call.get "k",
          Call.set "k" ⟨F64.fin (qTokens (Config.mk 10 1000000000 10) 3 0 250000000), 250000000⟩
            (2 * 1000000000)]),
        ⟨decide (1 ≤ qRefilled (Config.mk 10 1000000000 10) 3 0 250000000),
          F64.toInt64 amd64 (F64.fin (qTokens (Config.mk 10 1000000000 10) 3 0 250000000)),
          F64.toInt64 amd64 (F64.fin (qReset (Config.mk 10 1000000000 10) 3 0 250000000)),
          none⟩) := by
  have h := Allow_eq_rounded_step amd64 (Config.mk 10 1000000000 10) mapStore
    (limiter.mk (Config.mk 10 1000000000 10) mapStore.recording) rfl (by decide) (by decide)
    (Function.update (fun _ => none) "k" (some ⟨F64.fin 3, 0⟩)) [] 250000000 "k" rfl rfl
  obtain ⟨h1, h2⟩ := h
  obtain ⟨h3, h4⟩ := h2 3 0 (by simp [mapStore, priorState]) (by norm_num) (by decide)
  rw [h1, h3, h4]
  simp [mapStore, writeThrough]

/-- The TTL outside the range of C1 (amended): with rate 1, burst size 1 and a
window of `5e18` ns, `Allow` on a fresh key succeeds and makes one `Get` and one
`Set`, but the TTL it hands to `Set` is `Window * 2` wrapped to 64 bits,
`-8446744073709551616` ns, and not `2 * Window = 1e19` ns. -/
theorem ttl_wraps_for_large_window :
    ∃ l, New (Config.mk 1 5000000000000000000 1) mapStore.recording = Except.ok l ∧
      (l.Allow amd64 (fun _ => none, []) 0 "k").2.err = none ∧
      (l.Allow amd64 (fun _ => none, []) 0 "k").1.2 =
        [Call.get "k", Call.set "k" ⟨F64.fin 0, 0⟩ (-8446744073709551616)] ∧
      (-8446744073709551616 : Int) ≠ 2 * l.config.Window := by
  refine ⟨limiter.mk (Config.mk 1 5000000000000000000 1) mapStore.recording, rfl, ?_, ?_,
    by decide⟩
  · rw [Allow_recording_mapStore amd64 _ rfl]
    rfl
  · rw [Allow_recording_mapStore amd64 _ rfl]
    have hc : (Config.mk 1 5000000000000000000 1).valid := by decide
    have ht := (step_absent (Config.mk 1 5000000000000000000 1) hc 0).2.2
    rw [qBurst_of_small _ hc (by decide)] at ht
    have e : (((Config.mk 1 5000000000000000000 1).BurstSize : Int) : ℚ) - 1 = 0 := by
      norm_num
    rw [e, roundQ_zero] at ht
    have hw : wrapInt64 (5000000000000000000 * 2) = -8446744073709551616 := by decide
    simp only [stepState, ht, hw, List.nil_append]

/-! ## C4: `Reset` restores first-call behaviour -/

/-- C4, as stated, fails above `2 ^ 53`: with burst size `B = 2 ^ 53 + 1`, a
`Reset` of a key that held a State, followed by `Allow`, returns
`remaining = 2 ^ 53 - 1 = B - 2`, not `B - 1`. -/
theorem Reset_then_Allow_counterexample :
    ∃ l, New (Config.mk 1 1000000000 9007199254740993) mapStore = Except.ok l ∧
      (l.Reset (Function.update (fun _ => none) "k" (some ⟨F64.fin 5, 0⟩)) "k").2 = none ∧
      (l.Allow amd64
        (l.Reset (Function.update (fun _ => none) "k" (some ⟨F64.fin 5, 0⟩)) "k").1 7
          "k").2.remaining = 9007199254740991 ∧
      (9007199254740991 : Int) ≠ l.config.BurstSize - 1 := by
  refine ⟨limiter.mk (Config.mk 1 1000000000 9007199254740993) mapStore, rfl, rfl, ?_,
    by decide⟩
  rw [Allow_mapStore amd64 _ rfl]
  have hk : (limiter.Reset (limiter.mk (Config.mk 1 1000000000 9007199254740993) mapStore)
      (Function.update (fun _ => none) "k" (some ⟨F64.fin 5, 0⟩)) "k").1 "k" = none := by
    simp [limiter.Reset, mapStore]
  rw [hk]
  exact congrArg Result.remaining (absent_step_above_two_pow_53 amd64 7)

/-- C4, amended. `Reset` followed by `Allow`. For a limiter built by `New` from
64-bit fields with effective burst `B` of at most `2 ^ 53`, any store and any
store state (whatever it holds for the key): if `Reset` succeeds, the following
`Get` reports the key absent and the `Set` succeeds, then `Allow` returns the
result of the step on an absent key (a never-seen key), which is
`allowed = true`, `remaining = B - 1`, and it hands `{tokens: B - 1,
lastRefill: now}` to `Set`. -/
theorem Reset_then_Allow {σ : Type} (arch : Arch) (cfg : Config) (S : Store σ)
    (l : limiter σ) (hnew : New cfg S = Except.ok l) (hr : cfg.inRange)
    (hB : max cfg.BurstSize cfg.Rate ≤ 9007199254740992) (s : σ) (key : String) (now : Int)
    (_hdel : (l.Reset s key).2 = none)
    (hget : (S.Get (S.Delete s key).1 key).2 = (none, none))
    (hset : (S.Set (S.Get (S.Delete s key).1 key).1 key
        ⟨F64.fin (((max cfg.BurstSize cfg.Rate : Int) : ℚ) - 1), now⟩
        (wrapInt64 (cfg.Window * 2))).2 = none) :
    (l.Allow arch (l.Reset s key).1 now key).1 =
        (S.Set (S.Get (S.Delete s key).1 key).1 key
          ⟨F64.fin (((max cfg.BurstSize cfg.Rate : Int) : ℚ) - 1), now⟩
          (wrapInt64 (cfg.Window * 2))).1 ∧
      (l.Allow arch (l.Reset s key).1 now key).2 = stepResult arch l.config none now ∧
      (l.Allow arch (l.Reset s key).1 now key).2.allowed = true ∧
      (l.Allow arch (l.Reset s key).1 now key).2.remaining = max cfg.BurstSize cfg.Rate - 1 ∧
      (l.Allow arch (l.Reset s key).1 now key).2.err = none := by
  have hc := New_valid hnew hr
  obtain ⟨hR, _, h3, h4, h5, h6⟩ := New_ok hnew
  have hB53 : l.config.BurstSize ≤ 9007199254740992 := by rw [h6]; exact hB
  obtain ⟨_, a2, a3⟩ := step_absent l.config hc now
  have hb := qBurst_of_small l.config hc hB53
  obtain ⟨k, hk⟩ : ∃ k : Nat, l.config.BurstSize = (k : Int) + 1 := by
    obtain ⟨h1, _, hle, _⟩ := hc
    exact ⟨(l.config.BurstSize - 1).toNat, by omega⟩
  have hk53 : k ≤ 2 ^ 53 := by
    have e : ((2 ^ 53 : Nat) : Int) = 9007199254740992 := by norm_num
    have : (k : Int) ≤ ((2 ^ 53 : Nat) : Int) := by omega
    exact_mod_cast this
  have hq : (l.config.BurstSize : ℚ) - 1 = (k : ℚ) := by
    rw [hk]; push_cast; ring
  have htok : stepTokens l.config none now =
      F64.fin (((max cfg.BurstSize cfg.Rate : Int) : ℚ) - 1) := by
    rw [a3, hb, hq, roundQ_natCast k hk53, ← h6, hq]
  have hg : l.store.Get (l.Reset s key).1 key =
      ((S.Get (S.Delete s key).1 key).1, none, none) := by
    rw [limiter.Reset, h3, ← hget]
  have hallow := Allow_of_get arch l _ _ now key none hg
  simp only [Option.map_none', writeThrough, stepState, htok, h3, h5] at hallow
  rcases hs : S.Set (S.Get (S.Delete s key).1 key).1 key
      ⟨F64.fin (((max cfg.BurstSize cfg.Rate : Int) : ℚ) - 1), now⟩
      (wrapInt64 (cfg.Window * 2)) with ⟨s2, se⟩
  rw [hs] at hset hallow
  simp only at hset
  subst hset
  simp only at hallow
  rw [hallow]
  refine ⟨rfl, rfl, a2, ?_, rfl⟩
  simp only [stepResult, htok]
  rw [← h6, hq, F64.toInt64_natCast arch k hk53]
  omega

/-- C4 (amended) at a concrete input: the in-memory store holds an exhausted
bucket for the key before the `Reset`. -/
theorem Reset_then_Allow_witness :
    ((limiter.mk (Config.mk 10 1000000000 10) mapStore).Allow amd64
        ((limiter.mk (Config.mk 10 1000000000 10) mapStore).Reset
          (Function.update (fun _ => none) "k" (some ⟨F64.fin 0, 5⟩)) "k").1 7 "k").2.remaining
      = max 10 10 - 1 :=
  (Reset_then_Allow amd64 (Config.mk 10 1000000000 10) mapStore
    (limiter.mk (Config.mk 10 1000000000 10) mapStore) rfl (by decide) (by decide)
    (Function.update (fun _ => none) "k" (some ⟨F64.fin 0, 5⟩)) "k" 7 rfl
    (by simp [mapStore]) rfl).2.2.2.1

/-! ## C3: the token-range invariant -/

/-- The tokens written by the step are finite and within `[0, float64(B)]` when
the prior State (if any) has finite non-negative tokens and was refilled no
later than `now`. -/
theorem stepTokens_range (c : Config) (hc : c.valid) (prior : Option State) (now : Int)
    (hp : ∀ st, prior = some st → (∃ T, st.Tokens = F64.fin T ∧ 0 ≤ T) ∧ st.LastRefill ≤ now) :
    ∃ T, stepTokens c prior now = F64.fin T ∧ 0 ≤ T ∧ T ≤ qBurst c := by
  obtain ⟨b1, b2, b3, b4⟩ := qBurst_facts c hc
  cases prior with
  | none =>
    obtain ⟨_, _, a3⟩ := step_absent c hc now
    exact ⟨_, a3, roundQ_nonneg (by linarith), roundQ_le (by linarith) b4 (by linarith)⟩
  | some st =>
    obtain ⟨⟨T, hT, hT0⟩, hlast⟩ := hp st rfl
    obtain ⟨_, _, s3, _, _, s6, s7⟩ := step_fin c hc T st.LastRefill now hT0 hlast
    have e : st = ⟨F64.fin T, st.LastRefill⟩ := by
      cases st
      simp only [State.mk.injEq, and_true]
      exact hT
    rw [e]
    exact ⟨_, s3, s6, s7⟩

/-- The invariant behind C3, for a run from any store state that satisfies it. -/
theorem run_tokens_range (arch : Arch) (l : limiter ((String → Option State) × List Call))
    (hs : l.store = mapStore.recording) (hc : l.config.valid) (ops : List Op) :
    ∀ (s : (String → Option State) × List Call),
      (Op.times ops).Pairwise (fun a b => a ≤ b) →
      (∀ k st, s.1 k = some st →
        (∃ T, st.Tokens = F64.fin T ∧ 0 ≤ T) ∧ ∀ t ∈ Op.times ops, st.LastRefill ≤ t) →
      (∀ k st ttl, Call.set k st ttl ∈ s.2 →
        ∃ T, st.Tokens = F64.fin T ∧ 0 ≤ T ∧ T ≤ qBurst l.config) →
      ∀ k st ttl, Call.set k st ttl ∈ (l.run arch ops s).2 →
        ∃ T, st.Tokens = F64.fin T ∧ 0 ≤ T ∧ T ≤ qBurst l.config := by
  induction ops with
  | nil =>
    intro s _ _ hlog
    simpa [limiter.run] using hlog
  | cons op ops ih =>
    intro s hsorted hmap hlog
    cases op with
    | allow now key =>
      simp only [Op.times, List.pairwise_cons] at hsorted
      simp only [Op.times, List.mem_cons, forall_eq_or_imp] at hmap
      have hrange := stepTokens_range l.config hc (s.1 key) now
        (fun st hst => ⟨(hmap key st hst).1, (hmap key st hst).2.1⟩)
      simp only [limiter.run]
      rw [Allow_recording_mapStore arch l hs]
      apply ih _ hsorted.2
      · intro k st hk
        by_cases hkey : k = key
        · subst hkey
          simp only [Function.update_same, Option.some.injEq] at hk
          subst hk
          obtain ⟨T, h1, h2, _⟩ := hrange
          exact ⟨⟨T, h1, h2⟩, fun t ht => hsorted.1 t ht⟩
        · simp only [Function.update_noteq hkey] at hk
          exact ⟨(hmap k st hk).1, (hmap k st hk).2.2⟩
      · intro k st ttl hmem
        simp only [List.mem_append, List.mem_cons, List.mem_singleton, Call.set.injEq,
          List.not_mem_nil, or_false, false_or] at hmem
        rcases hmem with hmem | hmem
        · exact hlog k st ttl hmem
        · rcases hmem with hmem | ⟨_, h2, _⟩
          · cases hmem
          · subst h2
            exact hrange
    | reset key =>
      simp only [Op.times] at hsorted hmap
      simp only [limiter.run, limiter.Reset]
      rw [hs]
      apply ih _ hsorted
      · intro k st hk
        by_cases hkey : k = key
        · subst hkey
          simp [Store.recording, mapStore] at hk
        · simp only [Store.recording, mapStore, Function.update_noteq hkey] at hk
          exact hmap k st hk
      · intro k st ttl hmem
        simp only [Store.recording, mapStore, List.mem_append, List.mem_singleton] at hmem
        rcases hmem with hmem | hmem
        · exact hlog k st ttl hmem
        · cases hmem

/-- C3, as stated, fails above `2 ^ 53`: with rate 1, window 1 s and burst size
`B = 2 ^ 53 + 3`, `float64(B)` is `2 ^ 53 + 4`, the decrement of the first call
is absorbed by the rounding, and the call persists `tokens = 2 ^ 53 + 4 > B`. -/
theorem tokens_range_counterexample :
    ∃ l, New (Config.mk 1 1000000000 9007199254740995) mapStore.recording = Except.ok l ∧
      Call.set "k" ⟨F64.fin 9007199254740996, 0⟩ (wrapInt64 (1000000000 * 2)) ∈
        (l.run amd64 [Op.allow 0 "k"] (fun _ => none, [])).2 ∧
      ((l.config.BurstSize : Int) : ℚ) < 9007199254740996 := by
  refine ⟨limiter.mk (Config.mk 1 1000000000 9007199254740995) mapStore.recording, rfl, ?_,
    by norm_num⟩
  have hc : (Config.mk 1 1000000000 9007199254740995).valid := by decide
  have hb : qBurst (Config.mk 1 1000000000 9007199254740995) = 9007199254740996 := by
    unfold qBurst
    have h := roundQ_eq_of_tie (9007199254740995 : ℚ) 1 4503599627370497 (by norm_num)
      (by norm_num) (by norm_num) (by norm_num)
    simp only [Int.cast_ofNat]
    rw [h]
    norm_num
  have ht := (step_absent (Config.mk 1 1000000000 9007199254740995) hc 0).2.2
  rw [hb] at ht
  have h2 := roundQ_eq_of_tie ((9007199254740996 : ℚ) - 1) 1 4503599627370497 (by norm_num)
    (by norm_num) (by norm_num) (by norm_num)
  have h3 : roundQ ((9007199254740996 : ℚ) - 1) = 9007199254740996 := by
    rw [h2]
    norm_num
  rw [h3] at ht
  simp only [limiter.run]
  rw [Allow_recording_mapStore amd64 _ rfl]
  simp only [stepState, ht]
  simp

/-- C3, amended. Token-range invariant. For a limiter built by `New` from 64-bit
fields over the in-memory store (which starts empty and returns what was last
set), with effective burst `B`, and every finite sequence of serialized `Allow`
and `Reset` calls, on any keys, whose clock readings are non-decreasing: every
State that the store is asked to persist has finite tokens with
`0 ≤ tokens ≤ float64(B)`, and so `0 ≤ tokens ≤ B` when `B` is at most
`2 ^ 53`. -/
theorem tokens_range_invariant (arch : Arch) (cfg : Config)
    (l : limiter ((String → Option State) × List Call))
    (hnew : New cfg mapStore.recording = Except.ok l) (hr : cfg.inRange) (ops : List Op)
    (hmono : (Op.times ops).Pairwise (fun a b => a ≤ b)) :
    ∀ key st ttl, Call.set key st ttl ∈ (l.run arch ops (fun _ => none, [])).2 →
      ∃ T, st.Tokens = F64.fin T ∧ 0 ≤ T ∧
        T ≤ roundQ ((max cfg.BurstSize cfg.Rate : Int) : ℚ) ∧
        (max cfg.BurstSize cfg.Rate ≤ 9007199254740992 →
          T ≤ ((max cfg.BurstSize cfg.Rate : Int) : ℚ)) := by
  have hc := New_valid hnew hr
  obtain ⟨_, _, hs, _, _, h6⟩ := New_ok hnew
  intro key st ttl hmem
  obtain ⟨T, h1, h2, h3⟩ := run_tokens_range arch l hs hc ops (fun _ => none, []) hmono
    (fun k st hk => by simp at hk) (fun k st ttl hmem => by simp at hmem) key st ttl hmem
  have e : qBurst l.config = roundQ ((max cfg.BurstSize cfg.Rate : Int) : ℚ) := by
    unfold qBurst
    rw [h6]
  refine ⟨T, h1, h2, by rw [← e]; exact h3, fun hB => ?_⟩
  have hb := qBurst_of_small l.config hc (by rw [h6]; exact hB)
  rw [hb, h6] at h3
  exact h3

/-- C3 (amended) at a concrete run: two calls on one key, a reset, a call on
another key; the State persisted by the first call is within range. -/
theorem tokens_range_invariant_witness :
    List.Pairwise (fun a b => a ≤ b)
        (Op.times [Op.allow 0 "a", Op.allow 5 "a", Op.reset "a", Op.allow 7 "b"]) ∧
      ∃ st ttl, Call.set "a" st ttl ∈
        ((limiter.mk (Config.mk 10 1000000000 10) mapStore.recording).run amd64
          [Op.allow 0 "a", Op.allow 5 "a", Op.reset "a", Op.allow 7 "b"] (fun _ => none, [])).2 ∧
        ∃ T, st.Tokens = F64.fin T ∧ 0 ≤ T ∧ T ≤ roundQ ((max 10 10 : Int) : ℚ) ∧
          (max (10 : Int) 10 ≤ 9007199254740992 → T ≤ ((max 10 10 : Int) : ℚ)) := by
  have hmem : Call.set "a"
      (stepState (Config.mk 10 1000000000 10) none 0) (wrapInt64 (1000000000 * 2)) ∈
      ((limiter.mk (Config.mk 10 1000000000 10) mapStore.recording).run amd64
        [Op.allow 0 "a", Op.allow 5 "a", Op.reset "a", Op.allow 7 "b"] (fun _ => none, [])).2 := by
    simp only [limiter.run, limiter.Reset,
      Allow_recording_mapStore amd64
        (limiter.mk (Config.mk 10 1000000000 10) mapStore.recording) rfl]
    simp [Store.recording, mapStore]
  exact ⟨by decide, _, _, hmem,
    tokens_range_invariant amd64 (Config.mk 10 1000000000 10)
      (limiter.mk (Config.mk 10 1000000000 10) mapStore.recording) rfl (by decide)
      [Op.allow 0 "a", Op.allow 5 "a", Op.reset "a", Op.allow 7 "b"] (by decide)
      "a" _ _ hmem⟩

/-! ## C8: sign and zero of `resetAfter` -/

/-- Whatever the prior State and the clock, the refilled amount is a finite
value of at most `float64(B)`, or the negative infinity, or NaN. -/
theorem refilled_cases (c : Config) (hc : c.valid) (prior : Option State) (now : Int) :
    (∃ r, refilled c prior now = F64.fin r ∧ r ≤ qBurst c) ∨
      refilled c prior now = F64.inf true ∨ refilled c prior now = F64.nan := by
  obtain ⟨b1, _, _, _⟩ := qBurst_facts c hc
  unfold refilled
  rw [b1]
  generalize F64.add (priorState c prior now).Tokens
    (F64.mul (refillRate c) (F64.ofInt (timeSub now (priorState c prior now).LastRefill))) = x
  cases x with
  | fin v =>
    left
    simp only [F64.lt]
    by_cases h : qBurst c < v
    · exact ⟨qBurst c, by simp only [h, decide_True, if_true], le_rfl⟩
    · exact ⟨v, by simp only [h, decide_False, if_false, Bool.false_eq_true], not_lt.mp h⟩
  | inf s =>
    cases s with
    | false => left; exact ⟨qBurst c, by simp [F64.lt], le_rfl⟩
    | true => right; left; simp [F64.lt]
  | nan => right; right; simp [F64.lt]

/-- When the tokens left by the step are finite, they are at most `float64(B)`. -/
theorem stepTokens_le (c : Config) (hc : c.valid) (prior : Option State) (now : Int) (y : ℚ)
    (h : stepTokens c prior now = F64.fin y) : y ≤ qBurst c := by
  obtain ⟨_, _, b3, b4⟩ := qBurst_facts c hc
  unfold stepTokens stepAllowed at h
  rcases refilled_cases c hc prior now with ⟨r, hr, hrb⟩ | hr | hr
  · rw [hr] at h
    simp only [F64.le] at h
    by_cases h1 : 1 ≤ r
    · have hd0 : 0 ≤ r + -1 := by linarith
      have hd1 : r + -1 ≤ (2 : ℚ) ^ (1023 : Int) := le_two_pow_1023_of_le_127 (by linarith)
      simp only [h1, decide_True, if_true, F64.sub, F64.neg, F64.add,
        F64.round_of_nonneg hd0 hd1] at h
      injection h with h
      rw [← h]
      exact roundQ_le hd0 b4 (by linarith)
    · simp only [h1, decide_False, if_false, Bool.false_eq_true] at h
      injection h with h
      rw [← h]
      exact hrb
  · rw [hr] at h
    simp [F64.le] at h
  · rw [hr] at h
    simp [F64.le] at h

/-- A finite quotient `tokensNeeded / refillRate` is never negative. -/
theorem resetQuotient_nonneg (c : Config) (hc : c.valid) (prior : Option State) (now : Int)
    (q : ℚ) (hq : resetQuotient c prior now = F64.fin q) : 0 ≤ q := by
  obtain ⟨b1, _, _, _⟩ := qBurst_facts c hc
  obtain ⟨r1, _, _, _⟩ := qRate_facts c hc
  have rpos := qRate_pos c hc
  unfold resetQuotient at hq
  rw [b1, r1] at hq
  cases ht : stepTokens c prior now with
  | nan =>
    rw [ht] at hq
    simp [F64.sub, F64.neg, F64.add, F64.div] at hq
  | inf s =>
    rw [ht] at hq
    simp [F64.sub, F64.neg, F64.add, F64.div] at hq
  | fin y =>
    rw [ht] at hq
    have hy := stepTokens_le c hc prior now y ht
    have hn0 : 0 ≤ qBurst c + -y := by linarith
    simp only [F64.sub, F64.neg, F64.add] at hq
    rcases F64.round_cases hn0 with ⟨hr, _⟩ | ⟨hr, _⟩
    · rw [hr] at hq
      simp only [F64.div, if_neg (ne_of_gt rpos)] at hq
      have hq0 : 0 ≤ roundQ (qBurst c + -y) / qRate c :=
        div_nonneg (roundQ_nonneg hn0) (le_of_lt rpos)
      rcases F64.round_cases hq0 with ⟨hr2, _⟩ | ⟨hr2, _⟩
      · rw [hr2] at hq
        injection hq with hq
        rw [← hq]
        exact roundQ_nonneg hq0
      · rw [hr2] at hq
        cases hq
    · rw [hr] at hq
      simp [F64.div] at hq

/-- A full bucket needs no refill: the quotient is zero. -/
theorem resetQuotient_of_full (c : Config) (hc : c.valid) (prior : Option State) (now : Int)
    (h : stepTokens c prior now = F64.ofInt c.BurstSize) :
    resetQuotient c prior now = F64.fin 0 := by
  obtain ⟨b1, _, _, _⟩ := qBurst_facts c hc
  obtain ⟨r1, _, _, _⟩ := qRate_facts c hc
  have rpos := qRate_pos c hc
  unfold resetQuotient
  rw [h, b1, r1]
  have h0 : qBurst c + -qBurst c = 0 := by ring
  have hz : F64.round 0 = F64.fin 0 := by
    have := F64.round_natCast 0 (by norm_num)
    simpa using this
  simp only [F64.sub, F64.neg, F64.add, h0, hz, F64.div, if_neg (ne_of_gt rpos), zero_div]

/-- C8, as stated, fails: with rate 2 per nanosecond (window 1 ns) and burst
size 2, the first call on an absent key succeeds and returns `resetAfter = 0`
(the quotient `1 / 2` ns is truncated), yet it persists `tokens = 1`, which is
not the burst size 2. -/
theorem resetAfter_zero_counterexample :
    ∃ l, New (Config.mk 2 1 2) mapStore = Except.ok l ∧
      (l.Allow amd64 (fun _ => none) 0 "k").2.err = none ∧
      (l.Allow amd64 (fun _ => none) 0 "k").2.resetAfter = 0 ∧
      (l.Allow amd64 (fun _ => none) 0 "k").1 "k" = some ⟨F64.fin 1, 0⟩ ∧
      F64.fin 1 ≠ F64.ofInt l.config.BurstSize := by
  have hc : (Config.mk 2 1 2).valid := by decide
  have hb := (qBurst_facts _ hc).1
  rw [qBurst_of_small _ hc (by decide)] at hb
  have ht := (step_absent (Config.mk 2 1 2) hc 0).2.2
  rw [qBurst_of_small _ hc (by decide)] at ht
  have e1 : (((Config.mk 2 1 2).BurstSize : Int) : ℚ) - 1 = ((1 : Nat) : ℚ) := by norm_num
  rw [e1, roundQ_natCast 1 (by norm_num)] at ht
  have hrate : qRate (Config.mk 2 1 2) = 2 := by
    unfold qRate
    have h2 : roundQ ((2 : Int) : ℚ) = 2 := by
      have := roundQ_natCast 2 (by norm_num)
      simpa using this
    have h1 : roundQ ((1 : Int) : ℚ) = 1 := by
      have := roundQ_natCast 1 (by norm_num)
      simpa using this
    simp only [h2, h1, div_one]
    have := roundQ_natCast 2 (by norm_num)
    simpa using this
  have hr := (qRate_facts _ hc).1
  rw [hrate] at hr
  have hquot : resetQuotient (Config.mk 2 1 2) none 0 = F64.fin (1 / 2) := by
    unfold resetQuotient
    rw [ht, hb, hr]
    have h1 : roundQ ((2 : ℚ) + -1) = 1 := by
      have := roundQ_natCast 1 (by norm_num)
      norm_num
      simpa using this
    have hhalf : roundQ ((1 : ℚ) / 2) = 1 / 2 := by
      have := roundQ_two_zpow (-1) (by norm_num)
      norm_num at this
      norm_num
      exact this
    simp only [F64.sub, F64.neg, F64.add, Int.cast_ofNat, Nat.cast_one,
      F64.round_of_nonneg (by norm_num : (0 : ℚ) ≤ 2 + -1)
        (le_two_pow_1023_of_le_127 (by norm_num)), h1, F64.div]
    rw [if_neg (by norm_num),
      F64.round_of_nonneg (by norm_num) (le_two_pow_1023_of_le_127 (by norm_num)), hhalf]
  refine ⟨limiter.mk (Config.mk 2 1 2) mapStore, rfl, ?_, ?_, ?_, ?_⟩
  · rw [Allow_mapStore amd64 _ rfl]
    rfl
  · rw [Allow_mapStore amd64 _ rfl]
    simp only [stepResult, hquot]
    rw [F64.toInt64_of_nonneg amd64 (by norm_num) (by norm_num)]
    exact (truncToInt_eq_zero_iff (by norm_num)).mpr (by norm_num)
  · rw [Allow_mapStore amd64 _ rfl]
    simp only [Function.update_same, stepState, ht, Nat.cast_one]
  · rw [hb]
    simp

/-- C8, amended. For a limiter built by `New` from 64-bit fields over the
in-memory store, every stored State (or absent key) and every clock reading,
when the quotient `tokensNeeded / refillRate` that the call computes is a
finite value `q` below `2 ^ 63` (so that the conversion of `q` to a duration
is defined): `Allow` succeeds and returns `resetAfter ≥ 0`; `resetAfter` is
`0` when the tokens it persists equal `float64(burstSize)`; and `resetAfter`
is `0` exactly when `q < 1`, less than one nanosecond of refill short of full. -/
theorem resetAfter_sign_and_zero (arch : Arch) (cfg : Config)
    (l : limiter (String → Option State)) (hnew : New cfg mapStore = Except.ok l)
    (hr : cfg.inRange) (m : String → Option State) (now : Int) (key : String) (q : ℚ)
    (hq : resetQuotient l.config (m key) now = F64.fin q) (hq63 : q < 9223372036854775808) :
    (l.Allow arch m now key).2.err = none ∧
      0 ≤ (l.Allow arch m now key).2.resetAfter ∧
      ∃ st, (l.Allow arch m now key).1 key = some st ∧
        (st.Tokens = F64.ofInt (max cfg.BurstSize cfg.Rate) →
          (l.Allow arch m now key).2.resetAfter = 0) ∧
        ((l.Allow arch m now key).2.resetAfter = 0 ↔ q < 1) := by
  have hc := New_valid hnew hr
  obtain ⟨_, _, hs, _, _, h6⟩ := New_ok hnew
  have hq0 := resetQuotient_nonneg l.config hc (m key) now q hq
  have hconv : F64.toInt64 arch (resetQuotient l.config (m key) now) = truncToInt q := by
    rw [hq]
    exact F64.toInt64_of_nonneg arch hq0 hq63
  rw [Allow_mapStore arch l hs]
  simp only [stepResult, hconv, Function.update_same]
  refine ⟨trivial, truncToInt_nonneg hq0, _, rfl, ?_, truncToInt_eq_zero_iff hq0⟩
  intro hfull
  rw [← h6] at hfull
  have hz := resetQuotient_of_full l.config hc (m key) now hfull
  rw [hq] at hz
  injection hz with hz
  rw [hz]
  exact (truncToInt_eq_zero_iff le_rfl).mpr (by norm_num)

/-- C8 (amended) at a concrete input: scenario 1 after the burst, an empty
bucket `{tokens: 0, lastRefill: 0}` seen at reading 0; the quotient is `1e9`. -/
theorem resetAfter_sign_and_zero_witness :
    0 ≤ ((limiter.mk (Config.mk 10 1000000000 10) mapStore).Allow amd64
      (Function.update (fun _ => none) "k" (some ⟨F64.fin 0, 0⟩)) 0 "k").2.resetAfter :=
  (resetAfter_sign_and_zero amd64 (Config.mk 10 1000000000 10)
    (limiter.mk (Config.mk 10 1000000000 10) mapStore) rfl (by decide)
    (Function.update (fun _ => none) "k" (some ⟨F64.fin 0, 0⟩)) 0 "k" 1000000000
    (by rw [Function.update_same]; exact scenario1_quotient) (by norm_num)).2.1

/-- The conversion outside the range of C8 (amended): with rate 1, burst size 1
and the largest window, `2 ^ 63 - 1` ns, the first call on a fresh key is
admitted and needs one token to be full again; `float64(W)` is `2 ^ 63`, the
quotient `1 / 2 ^ (-63)` is `2 ^ 63`, one more than the largest duration, and
on amd64 its conversion comes back as `-9223372036854775808`. -/
theorem resetAfter_out_of_range :
    ∃ l, New (Config.mk 1 9223372036854775807 1) mapStore = Except.ok l ∧
      (l.Allow amd64 (fun _ => none) 0 "k").2 = ⟨true, 0, -9223372036854775808, none⟩ := by
  have hc : (Config.mk 1 9223372036854775807 1).valid := by decide
  have hb : qBurst (Config.mk 1 9223372036854775807 1) = 1 := by
    rw [qBurst_of_small _ hc (by decide)]
    norm_num
  have hrate : qRate (Config.mk 1 9223372036854775807 1) = 1 / 9223372036854775808 := by
    unfold qRate
    have r1 : roundQ ((1 : Int) : ℚ) = 1 := by
      have := roundQ_natCast 1 (by norm_num)
      simpa using this
    have r2 : roundQ ((9223372036854775807 : Int) : ℚ) = 9223372036854775808 := by
      have h := roundQ_eq_of_near (9223372036854775807 : ℚ) 10 9007199254740992 (by norm_num)
        (by norm_num) (by norm_num) (by norm_num) (by norm_num)
      simp only [Int.cast_ofNat]
      rw [h]
      norm_num
    simp only [r1, r2]
    exact two_pow_neg63_fixed
  have href : qRefilled (Config.mk 1 9223372036854775807 1) 1 0 0 = 1 := by
    unfold qRefilled
    rw [qAdd_same_time, hb, add_zero, roundQ_one, min_self]
  have htok : qTokens (Config.mk 1 9223372036854775807 1) 1 0 0 = 0 := by
    unfold qTokens
    rw [href]
    norm_num [roundQ_zero]
  have hreset : qReset (Config.mk 1 9223372036854775807 1) 1 0 0 = 9223372036854775808 := by
    unfold qReset
    rw [htok, hb, hrate, sub_zero, roundQ_one]
    have := two_pow_63_fixed
    norm_num
    exact this
  obtain ⟨_, e2⟩ := step_congr amd64 (Config.mk 1 9223372036854775807 1) none 0
  have hp : priorState (Config.mk 1 9223372036854775807 1) none 0 = ⟨F64.fin 1, 0⟩ := by
    have h1 := (qBurst_facts _ hc).1
    rw [hb] at h1
    simp only [priorState, h1]
  obtain ⟨_, s2, s3, _⟩ := step_fin (Config.mk 1 9223372036854775807 1) hc 1 0 0
    (by norm_num) le_rfl
  have hq := resetQuotient_fin (Config.mk 1 9223372036854775807 1) hc 1 0 0 (by norm_num) le_rfl
  rw [href] at s2
  rw [htok] at s3
  rw [hreset] at hq
  refine ⟨limiter.mk (Config.mk 1 9223372036854775807 1) mapStore, rfl, ?_⟩
  rw [Allow_mapStore amd64 _ rfl, e2, hp]
  simp only [stepResult, s2, s3, hq]
  have h0 : F64.toInt64 amd64 (F64.fin 0) = 0 := by
    have := F64.toInt64_natCast amd64 0 (by norm_num)
    simpa using this
  have ht : truncToInt (9223372036854775808 : ℚ) = 9223372036854775808 := by
    have := truncToInt_intCast 9223372036854775808
    simpa using this
  have h63 : F64.toInt64 amd64 (F64.fin 9223372036854775808) = -9223372036854775808 := by
    simp only [F64.toInt64, ht, amd64]
    decide
  rw [h0, h63]
  norm_num

/-! ## C9: waiting is never less permissive -/

/-- The refill grows with the clock reading. -/
theorem qRefilled_mono (c : Config) (hc : c.valid) (T : ℚ) (hT : 0 ≤ T) (last t t' : Int)
    (h0 : last ≤ t) (h : t ≤ t') : qRefilled c T last t ≤ qRefilled c T last t' := by
  have rpos := qRate_pos c hc
  obtain ⟨d0, _⟩ := timeSub_nonneg h0
  have hd : ((timeSub t last : Int) : ℚ) ≤ ((timeSub t' last : Int) : ℚ) := by
    exact_mod_cast timeSub_mono h
  have hd0 : (0 : ℚ) ≤ ((timeSub t last : Int) : ℚ) := by exact_mod_cast d0
  have h1 := roundQ_mono hd0 hd
  have h2 : qRate c * roundQ ((timeSub t last : Int) : ℚ) ≤
      qRate c * roundQ ((timeSub t' last : Int) : ℚ) :=
    mul_le_mul_of_nonneg_left h1 (le_of_lt rpos)
  have h3 : qAdd c last t ≤ qAdd c last t' :=
    roundQ_mono (mul_nonneg (le_of_lt rpos) (roundQ_nonneg hd0)) h2
  have ha0 : 0 ≤ qAdd c last t :=
    roundQ_nonneg (mul_nonneg (le_of_lt rpos) (roundQ_nonneg hd0))
  unfold qRefilled
  exact min_le_min le_rfl (roundQ_mono (by linarith) (by linarith))

/-- The remaining count, after the possible consumption of one unit, grows with
the refilled amount. -/
theorem remaining_mono {x y : ℚ} (h0 : 0 ≤ x) (h : x ≤ y) :
    truncToInt (if 1 ≤ x then roundQ (x - 1) else x) ≤
      truncToInt (if 1 ≤ y then roundQ (y - 1) else y) := by
  by_cases hx : 1 ≤ x
  · have hy : 1 ≤ y := le_trans hx h
    rw [if_pos hx, if_pos hy]
    exact truncToInt_mono (roundQ_mono (by linarith) (by linarith))
  · by_cases hy : 1 ≤ y
    · rw [if_neg hx, if_pos hy]
      have h1 : truncToInt x = 0 := (truncToInt_eq_zero_iff h0).mpr (not_le.mp hx)
      rw [h1]
      exact truncToInt_nonneg (roundQ_nonneg (by linarith))
    · rw [if_neg hx, if_neg hy]
      exact truncToInt_mono h

/-- A burst size of at most `2 ^ 63 - 513` converts to a `float64` below
`2 ^ 63`. -/
theorem qBurst_lt_two_pow_63 (c : Config) (hc : c.valid)
    (hB : c.BurstSize ≤ 9223372036854775295) : qBurst c ≤ 9223372036854774784 := by
  obtain ⟨h1, _, h3, _⟩ := hc
  have hq0 : (0 : ℚ) ≤ (c.BurstSize : ℚ) := by
    have : (0 : Int) ≤ c.BurstSize := by omega
    exact_mod_cast this
  have hq1 : (c.BurstSize : ℚ) ≤ 9223372036854775295 := by exact_mod_cast hB
  have h := roundQ_eq_of_near (9223372036854775295 : ℚ) 10 9007199254740991 (by norm_num)
    (by norm_num) (by norm_num) (by norm_num) (by norm_num)
  have h2 : roundQ (9223372036854775295 : ℚ) = 9223372036854774784 := by
    rw [h]
    norm_num
  unfold qBurst
  have := roundQ_mono hq0 hq1
  rw [h2] at this
  exact this

/-- C9, as stated, fails next to the largest burst size on amd64: with rate
`2 ^ 62`, window 1 ns, burst size `2 ^ 63 - 1` and a stored State
`{tokens: 0, lastRefill: 0}`, after an `Allow` at reading 0 the second `Allow`
at reading 0 is denied with `remaining = 0`, while the second `Allow` at reading
2 is admitted with `newTokens = 2 ^ 63`, whose conversion `int(newTokens)` is
out of range and comes back as `-9223372036854775808`. -/
theorem waiting_counterexample :
    ∃ l, New (Config.mk 4611686018427387904 1 9223372036854775807) mapStore = Except.ok l ∧
      (l.Allow amd64
        (l.Allow amd64 (Function.update (fun _ => none) "k" (some ⟨F64.fin 0, 0⟩)) 0 "k").1
        0 "k").2.remaining = 0 ∧
      (l.Allow amd64
        (l.Allow amd64 (Function.update (fun _ => none) "k" (some ⟨F64.fin 0, 0⟩)) 0 "k").1
        2 "k").2.remaining = -9223372036854775808 := by
  have hc : (Config.mk 4611686018427387904 1 9223372036854775807).valid := by decide
  have hb : qBurst (Config.mk 4611686018427387904 1 9223372036854775807) =
      9223372036854775808 := by
    unfold qBurst
    have h := roundQ_eq_of_near (9223372036854775807 : ℚ) 10 9007199254740992 (by norm_num)
      (by norm_num) (by norm_num) (by norm_num) (by norm_num)
    simp only [Int.cast_ofNat]
    rw [h]
    norm_num
  have hrate : qRate (Config.mk 4611686018427387904 1 9223372036854775807) =
      4611686018427387904 := by
    unfold qRate
    have h62 : roundQ ((4611686018427387904 : Int) : ℚ) = 4611686018427387904 := by
      have := roundQ_two_zpow 62 (by norm_num)
      norm_num at this
      norm_num
      exact this
    have h1 : roundQ ((1 : Int) : ℚ) = 1 := by
      have := roundQ_natCast 1 (by norm_num)
      simpa using this
    simp only [h62, h1, div_one]
    norm_num at h62
    exact h62
  have hT0 : qTokens (Config.mk 4611686018427387904 1 9223372036854775807) 0 0 0 = 0 := by
    unfold qTokens qRefilled
    rw [qAdd_same_time, hb]
    norm_num [roundQ_zero]
  have hadd : qAdd (Config.mk 4611686018427387904 1 9223372036854775807) 0 2 =
      9223372036854775808 := by
    unfold qAdd
    have ht : timeSub 2 0 = 2 := by decide
    have h2 : roundQ ((2 : Int) : ℚ) = 2 := by
      have := roundQ_natCast 2 (by norm_num)
      simpa using this
    rw [hrate, ht, h2]
    have := two_pow_63_fixed
    norm_num
    exact this
  have hT2 : qTokens (Config.mk 4611686018427387904 1 9223372036854775807) 0 0 2 =
      9223372036854775808 := by
    unfold qTokens qRefilled
    rw [hadd, hb, zero_add, two_pow_63_fixed, min_self]
    have h := roundQ_eq_of_near ((9223372036854775808 : ℚ) - 1) 10 9007199254740992
      (by norm_num) (by norm_num) (by norm_num) (by norm_num) (by norm_num)
    rw [if_pos (by norm_num), h]
    norm_num
  obtain ⟨_, _, s3, _⟩ := step_fin (Config.mk 4611686018427387904 1 9223372036854775807) hc 0 0 0
    le_rfl le_rfl
  obtain ⟨_, _, u3, _⟩ := step_fin (Config.mk 4611686018427387904 1 9223372036854775807) hc 0 0 2
    le_rfl (by decide)
  rw [hT0] at s3
  rw [hT2] at u3
  have hfirst : (limiter.Allow amd64
      (limiter.mk (Config.mk 4611686018427387904 1 9223372036854775807) mapStore)
      (Function.update (fun _ => none) "k" (some ⟨F64.fin 0, 0⟩)) 0 "k").1 "k" =
      some ⟨F64.fin 0, 0⟩ := by
    rw [Allow_mapStore amd64 _ rfl]
    simp only [Function.update_same, stepState, s3]
  refine ⟨limiter.mk (Config.mk 4611686018427387904 1 9223372036854775807) mapStore, rfl,
    ?_, ?_⟩
  · rw [Allow_mapStore amd64 _ rfl, hfirst]
    simp only [stepResult, s3]
    rw [F64.toInt64_of_nonneg amd64 le_rfl (by norm_num)]
    exact (truncToInt_eq_zero_iff le_rfl).mpr (by norm_num)
  · rw [Allow_mapStore amd64 _ rfl, hfirst]
    simp only [stepResult, u3]
    have ht : truncToInt (9223372036854775808 : ℚ) = 9223372036854775808 := by
      have := truncToInt_intCast 9223372036854775808
      simpa using this
    simp only [F64.toInt64, ht, amd64]
    decide

/-- C9, amended. Waiting is never less permissive. For a limiter built by `New`
from 64-bit fields over the in-memory store, with effective burst `B` of at
most `2 ^ 63 - 513` (so that `float64(B)` is below `2 ^ 63`), a stored State
for the key with finite non-negative tokens and `lastRefill ≤ t`, and clock
readings `t ≤ t'`: after an `Allow` at `t`, a second `Allow` made at the same
reading `t` is never more permissive than that second `Allow` made at `t'`
instead: admitted at `t` implies admitted at `t'`, and the remaining count at
`t` is at most the remaining count at `t'`. -/
theorem waiting_never_less_permissive (arch : Arch) (cfg : Config)
    (l : limiter (String → Option State)) (hnew : New cfg mapStore = Except.ok l)
    (hr : cfg.inRange) (hB : max cfg.BurstSize cfg.Rate ≤ 9223372036854775295)
    (m : String → Option State) (key : String) (T : ℚ) (last t t' : Int)
    (hm : m key = some ⟨F64.fin T, last⟩) (hT : 0 ≤ T) (hs : last ≤ t) (ht : t ≤ t') :
    ((l.Allow arch (l.Allow arch m t key).1 t key).2.allowed = true →
        (l.Allow arch (l.Allow arch m t key).1 t' key).2.allowed = true) ∧
      (l.Allow arch (l.Allow arch m t key).1 t key).2.remaining ≤
        (l.Allow arch (l.Allow arch m t key).1 t' key).2.remaining := by
  have hc := New_valid hnew hr
  obtain ⟨_, _, hst, _, _, h6⟩ := New_ok hnew
  have hb63 := qBurst_lt_two_pow_63 l.config hc (by rw [h6]; exact hB)
  obtain ⟨_, _, s3, _, _, s6, _⟩ := step_fin l.config hc T last t hT hs
  have e1 : (l.Allow arch m t key).1 key = some ⟨F64.fin (qTokens l.config T last t), t⟩ := by
    rw [Allow_mapStore arch l hst m t key, hm]
    simp only [Function.update_same, stepState, s3]
  have e2 : ∀ u : Int, t ≤ u → (l.Allow arch (l.Allow arch m t key).1 u key).2 =
      ⟨decide (1 ≤ qRefilled l.config (qTokens l.config T last t) t u),
        truncToInt (qTokens l.config (qTokens l.config T last t) t u),
        F64.toInt64 arch (resetQuotient l.config
          (some ⟨F64.fin (qTokens l.config T last t), t⟩) u), none⟩ := by
    intro u hu
    obtain ⟨_, u2, u3, _, _, u6, u7⟩ :=
      step_fin l.config hc (qTokens l.config T last t) t u s6 hu
    rw [Allow_mapStore arch l hst _ u key, e1]
    simp only [stepResult, u2, u3]
    rw [F64.toInt64_of_nonneg arch u6 (by linarith)]
  have hmono := qRefilled_mono l.config hc (qTokens l.config T last t) s6 t t t' le_rfl ht
  have hy0 : 0 ≤ qRefilled l.config (qTokens l.config T last t) t t :=
    (step_fin l.config hc (qTokens l.config T last t) t t s6 le_rfl).2.2.2.1
  rw [e2 t le_rfl, e2 t' ht]
  constructor
  · intro h
    simp only [decide_eq_true_eq] at h ⊢
    exact le_trans h hmono
  · simp only
    unfold qTokens
    exact remaining_mono hy0 hmono

/-- C9 (amended) at a concrete input: an exhausted bucket, and a wait of 0.3 s. -/
theorem waiting_never_less_permissive_witness :
    (((limiter.mk (Config.mk 10 1000000000 10) mapStore).Allow amd64
          ((limiter.mk (Config.mk 10 1000000000 10) mapStore).Allow amd64
            (Function.update (fun _ => none) "k" (some ⟨F64.fin 0, 0⟩)) 5 "k").1 5
              "k").2.allowed = true →
        ((limiter.mk (Config.mk 10 1000000000 10) mapStore).Allow amd64
          ((limiter.mk (Config.mk 10 1000000000 10) mapStore).Allow amd64
            (Function.update (fun _ => none) "k" (some ⟨F64.fin 0, 0⟩)) 5 "k").1
              300000005 "k").2.allowed = true) ∧
      ((limiter.mk (Config.mk 10 1000000000 10) mapStore).Allow amd64
          ((limiter.mk (Config.mk 10 1000000000 10) mapStore).Allow amd64
            (Function.update (fun _ => none) "k" (some ⟨F64.fin 0, 0⟩)) 5 "k").1 5
              "k").2.remaining ≤
        ((limiter.mk (Config.mk 10 1000000000 10) mapStore).Allow amd64
          ((limiter.mk (Config.mk 10 1000000000 10) mapStore).Allow amd64
            (Function.update (fun _ => none) "k" (some ⟨F64.fin 0, 0⟩)) 5 "k").1
              300000005 "k").2.remaining :=
  waiting_never_less_permissive amd64 (Config.mk 10 1000000000 10)
    (limiter.mk (Config.mk 10 1000000000 10) mapStore) rfl (by decide) (by decide)
    (Function.update (fun _ => none) "k" (some ⟨F64.fin 0, 0⟩)) "k" 0 0 5 300000005
    (Function.update_same _ _ _) le_rfl (by decide) (by decide)

/-! ## C11: store-level expiry -/

/-- Subtracting one from a binary64 value between `1` and `2 ^ 53` is exact. -/
theorem roundQ_sub_one (y : ℚ) (hfix : roundQ y = y) (h1 : 1 ≤ y)
    (h53 : y ≤ 9007199254740992) : roundQ (y - 1) = y - 1 := by
  have hy0 : 0 < y := by linarith
  have hlog0 : 0 ≤ Int.log 2 y := by
    have := (Int.zpow_le_iff_le_log (b := 2) (x := 0) (r := y) (by norm_num) hy0).mp
      (by simpa using h1)
    exact this
  obtain ⟨hl1, hl2⟩ := log_two_bracket hy0
  have hlog53 : Int.log 2 y ≤ 53 := by
    by_contra hcon
    have h54 : (2 : ℚ) ^ (54 : Int) ≤ (2 : ℚ) ^ Int.log 2 y := two_zpow_mono (by omega)
    have e : (2 : ℚ) ^ (54 : Int) = 18014398509481984 := by norm_num
    rw [e] at h54
    linarith
  have hu : ulpExp y = Int.log 2 y - 52 := by
    rw [ulpExp_of_pos hy0]
    exact max_eq_left (by omega)
  -- the scaled value of `y` is an integer
  have hm : y / (2 : ℚ) ^ ulpExp y = (roundHalfEven (y / (2 : ℚ) ^ ulpExp y) : ℚ) := by
    have h := hfix
    unfold roundQ at h
    rw [div_eq_iff (ne_of_gt (two_zpow_pos _))]
    exact h.symm
  have hm0 : 0 ≤ roundHalfEven (y / (2 : ℚ) ^ ulpExp y) :=
    roundHalfEven_nonneg (div_nonneg (le_of_lt hy0) (le_of_lt (two_zpow_pos _)))
  obtain ⟨n, hn⟩ := Int.eq_ofNat_of_zero_le hm0
  have hyn : y = (n : ℚ) * (2 : ℚ) ^ ulpExp y := by
    have h := (div_eq_iff (ne_of_gt (two_zpow_pos (ulpExp y)))).mp hm
    rw [hn] at h
    exact_mod_cast h
  rcases le_or_lt (Int.log 2 y) 52 with hle | hgt
  · -- unit in the last place at most one: `1` is a multiple of it
    have hd : 0 ≤ -ulpExp y := by omega
    have hone : (1 : ℚ) = (((2 : Nat) ^ (-ulpExp y).toNat : Nat) : ℚ) * (2 : ℚ) ^ ulpExp y := by
      rw [← two_zpow_eq_natCast _ hd, ← zpow_add₀ (by norm_num : (2 : ℚ) ≠ 0)]
      simp
    have hge : (2 : Nat) ^ (-ulpExp y).toNat ≤ n := by
      have : (((2 : Nat) ^ (-ulpExp y).toNat : Nat) : ℚ) * (2 : ℚ) ^ ulpExp y ≤
          (n : ℚ) * (2 : ℚ) ^ ulpExp y := by
        rw [← hone, ← hyn]
        exact h1
      have h2 := le_of_mul_le_mul_right this (two_zpow_pos _)
      exact_mod_cast h2
    have hn53 : n ≤ 2 ^ 53 := by
      have hlt := scaled_lt hy0
      rw [hm, hn] at hlt
      have e2 : (2 : ℚ) ^ (53 : Int) = ((2 ^ 53 : Nat) : ℚ) := by norm_num
      rw [e2] at hlt
      have : n < 2 ^ 53 := by exact_mod_cast hlt
      omega
    have hval : y - 1 = ((n - 2 ^ (-ulpExp y).toNat : Nat) : ℚ) * (2 : ℚ) ^ ulpExp y := by
      rw [Nat.cast_sub hge, sub_mul, ← hone, ← hyn]
    rw [hval]
    exact roundQ_of_representable _ _ (le_trans (Nat.sub_le _ _) hn53) (le_max_right _ _)
  · have hy53 : y = 9007199254740992 := by
      have h53' : (2 : ℚ) ^ (53 : Int) ≤ (2 : ℚ) ^ Int.log 2 y := two_zpow_mono (by omega)
      have e : (2 : ℚ) ^ (53 : Int) = 9007199254740992 := by norm_num
      rw [e] at h53'
      linarith
    rw [hy53]
    have := roundQ_natCast 9007199254740991 (by norm_num)
    norm_num at this ⊢
    exact this

theorem qAdd_fixed (c : Config) (hc : c.valid) (last now : Int) (h : last ≤ now) :
    roundQ (qAdd c last now) = qAdd c last now := by
  have rpos := qRate_pos c hc
  obtain ⟨d0, _⟩ := timeSub_nonneg h
  have hd0 : (0 : ℚ) ≤ ((timeSub now last : Int) : ℚ) := by exact_mod_cast d0
  unfold qAdd
  exact roundQ_idem (mul_nonneg (le_of_lt rpos) (roundQ_nonneg hd0))

/-- The refilled amount is a binary64 value. -/
theorem qRefilled_fixed (c : Config) (hc : c.valid) (T : ℚ) (hT : 0 ≤ T) (last now : Int)
    (h : last ≤ now) : roundQ (qRefilled c T last now) = qRefilled c T last now := by
  obtain ⟨_, _, _, b4⟩ := qBurst_facts c hc
  obtain ⟨_, a2, _⟩ := qAdd_facts c hc last now h
  unfold qRefilled
  rcases le_total (qBurst c) (roundQ (T + qAdd c last now)) with h1 | h1
  · rw [min_eq_left h1]
    exact b4
  · rw [min_eq_right h1]
    exact roundQ_idem (by linarith)

/-- Two windows of refill, computed in binary64, add at least one token. -/
theorem qAdd_after_ttl (c : Config) (hc : c.valid) (hW : 2 * c.Window ≤ 9223372036854775807)
    (t0 t : Int) (ht : t0 + 2 * c.Window ≤ t) : 1 ≤ qAdd c t0 t := by
  obtain ⟨hR, hW1, _, ⟨_, hr⟩, ⟨_, hw⟩, _⟩ := hc
  have hwq : (1 : ℚ) ≤ (c.Window : ℚ) := by exact_mod_cast hW1
  have hwpos : (0 : ℚ) < (c.Window : ℚ) := by linarith
  obtain ⟨hl1, hl2⟩ := log_two_bracket hwpos
  have hk0 : 0 ≤ Int.log 2 (c.Window : ℚ) := by
    have := (Int.zpow_le_iff_le_log (b := 2) (x := 0) (r := (c.Window : ℚ)) (by norm_num)
      hwpos).mp (by simpa using hwq)
    exact this
  have hk62 : Int.log 2 (c.Window : ℚ) ≤ 62 := by
    by_contra hcon
    have h63 : (2 : ℚ) ^ (63 : Int) ≤ (2 : ℚ) ^ Int.log 2 (c.Window : ℚ) :=
      two_zpow_mono (by omega)
    have e : (2 : ℚ) ^ (63 : Int) = 9223372036854775808 := by norm_num
    rw [e] at h63
    have : (c.Window : ℚ) ≤ ((9223372036854775807 : Int) : ℚ) := by exact_mod_cast hw
    have e2 : ((9223372036854775807 : Int) : ℚ) < 9223372036854775808 := by norm_num
    linarith
  -- `float64(Window) ≤ 2 ^ (k + 1)` and `float64(Rate) ≥ 1`
  have hw2 : roundQ (c.Window : ℚ) ≤ (2 : ℚ) ^ (Int.log 2 (c.Window : ℚ) + 1) :=
    roundQ_le (le_of_lt hwpos) (roundQ_two_zpow _ (by omega)) (le_of_lt hl2)
  have hwp := F64.ofInt_of_pos c.Window hW1 hw
  have hrp := F64.ofInt_of_pos c.Rate hR hr
  have hwpos2 : (0 : ℚ) < roundQ (c.Window : ℚ) := by linarith
  have hrate : (2 : ℚ) ^ (-(Int.log 2 (c.Window : ℚ) + 1)) ≤ qRate c := by
    unfold qRate
    apply le_roundQ (le_of_lt (two_zpow_pos _)) (roundQ_two_zpow _ (by omega))
    rw [zpow_neg, le_div_iff₀ hwpos2, inv_mul_le_iff₀ (two_zpow_pos _)]
    nlinarith [two_zpow_pos (Int.log 2 (c.Window : ℚ) + 1)]
  -- the elapsed time is at least `2 * Window ≥ 2 ^ (k + 1)`
  have hts : 2 * c.Window ≤ timeSub t t0 := by
    unfold timeSub
    apply le_max_of_le_right
    exact le_min hW (by omega)
  have hd : (2 : ℚ) ^ (Int.log 2 (c.Window : ℚ) + 1) ≤ ((timeSub t t0 : Int) : ℚ) := by
    have h1 : (2 : ℚ) ^ (Int.log 2 (c.Window : ℚ) + 1) ≤ 2 * (c.Window : ℚ) := by
      rw [zpow_add₀ (by norm_num : (2 : ℚ) ≠ 0)]
      simp only [zpow_one]
      linarith
    have h2 : (2 : ℚ) * (c.Window : ℚ) ≤ ((timeSub t t0 : Int) : ℚ) := by exact_mod_cast hts
    linarith
  have hdelta : (2 : ℚ) ^ (Int.log 2 (c.Window : ℚ) + 1) ≤
      roundQ ((timeSub t t0 : Int) : ℚ) :=
    le_roundQ (le_of_lt (two_zpow_pos _)) (roundQ_two_zpow _ (by omega)) hd
  have hprod : (1 : ℚ) ≤ qRate c * roundQ ((timeSub t t0 : Int) : ℚ) := by
    have h1 : (2 : ℚ) ^ (-(Int.log 2 (c.Window : ℚ) + 1)) *
        (2 : ℚ) ^ (Int.log 2 (c.Window : ℚ) + 1) = 1 := by
      rw [← zpow_add₀ (by norm_num : (2 : ℚ) ≠ 0), neg_add_cancel, zpow_zero]
    have h2 := mul_le_mul hrate hdelta (le_of_lt (two_zpow_pos _))
      (le_trans (le_of_lt (two_zpow_pos _)) hrate)
    rw [h1] at h2
    exact h2
  unfold qAdd
  exact le_roundQ (by norm_num) roundQ_one hprod

/-- C11, amended. For limiters built by `New` from 64-bit fields, with
effective burst `B` of at most `2 ^ 53` and a window below `2 ^ 62` ns (so that
the TTL is `2 * W`), and a State `{tokens: T, lastRefill: t0}` with
`0 ≤ T ≤ B` persisted with that TTL: an `Allow` on the key at any reading
`t ≥ t0 + 2 * W` is admitted both when the store still holds the State and when
the store has expired it and reports the key absent. When the refill that the
call computes in `float64` reaches `float64(B)`, the two calls return the same
remaining count and persist the same State; otherwise the call after expiry
returns a strictly larger remaining count and persists strictly more tokens
than the call on the retained State. -/
theorem expiry_agrees_iff_refilled (arch : Arch) (cfg : Config)
    (l : limiter (String → Option State))
    (le : limiter (Int × (String → Option (State × Int))))
    (hnew : New cfg mapStore = Except.ok l) (hnewE : New cfg expiringStore = Except.ok le)
    (hr : cfg.inRange) (hB : max cfg.BurstSize cfg.Rate ≤ 9007199254740992)
    (hW : 2 * cfg.Window ≤ 9223372036854775807)
    (m : String → Option State) (me : String → Option (State × Int)) (key : String)
    (T : ℚ) (t0 t : Int)
    (hm : m key = some ⟨F64.fin T, t0⟩)
    (hme : me key = some (⟨F64.fin T, t0⟩, t0 + 2 * cfg.Window))
    (hT0 : 0 ≤ T) (_hTB : T ≤ ((max cfg.BurstSize cfg.Rate : Int) : ℚ))
    (ht : t0 + 2 * cfg.Window ≤ t) :
    (l.Allow arch m t key).2.allowed = true ∧
      (le.Allow arch (t, me) t key).2.allowed = true ∧
      (refilled l.config (some ⟨F64.fin T, t0⟩) t = F64.ofInt (max cfg.BurstSize cfg.Rate) →
        (le.Allow arch (t, me) t key).2.remaining = (l.Allow arch m t key).2.remaining ∧
          ((le.Allow arch (t, me) t key).1.2 key).map Prod.fst =
            (l.Allow arch m t key).1 key) ∧
      (refilled l.config (some ⟨F64.fin T, t0⟩) t ≠ F64.ofInt (max cfg.BurstSize cfg.Rate) →
        (l.Allow arch m t key).2.remaining < (le.Allow arch (t, me) t key).2.remaining ∧
          ∃ Tr Te, (l.Allow arch m t key).1 key = some ⟨F64.fin Tr, t⟩ ∧
            ((le.Allow arch (t, me) t key).1.2 key).map Prod.fst = some ⟨F64.fin Te, t⟩ ∧
            Tr < Te) := by
  have hc := New_valid hnew hr
  obtain ⟨_, hWpos, hs, h4, h5, h6⟩ := New_ok hnew
  obtain ⟨_, _, hsE, h4E, h5E, h6E⟩ := New_ok hnewE
  have hcfg : le.config = l.config := by
    cases hx : le.config
    cases hy : l.config
    rw [hx] at h4E h5E h6E
    rw [hy] at h4 h5 h6
    simp only at h4 h5 h6 h4E h5E h6E
    rw [h4, h5, h6, h4E, h5E, h6E]
  have hB53 : l.config.BurstSize ≤ 9007199254740992 := by rw [h6]; exact hB
  have hb := qBurst_of_small l.config hc hB53
  obtain ⟨b1, b2, _, b4⟩ := qBurst_facts l.config hc
  have hlast : t0 ≤ t := by omega
  obtain ⟨s1, s2, s3, s4, s5, s6, s7⟩ := step_fin l.config hc T t0 t hT0 hlast
  have ha1 := qAdd_after_ttl l.config hc (by rw [h5]; exact hW) t0 t (by rw [h5]; exact ht)
  have hy1 : 1 ≤ qRefilled l.config T t0 t := by
    unfold qRefilled
    exact le_min b2 (le_roundQ (by norm_num) roundQ_one (by linarith))
  have hyfix := qRefilled_fixed l.config hc T hT0 t0 t hlast
  have hb53q : qBurst l.config ≤ 9007199254740992 := by
    rw [hb]
    exact_mod_cast hB53
  have htok : qTokens l.config T t0 t = qRefilled l.config T t0 t - 1 := by
    unfold qTokens
    rw [if_pos hy1]
    exact roundQ_sub_one _ hyfix hy1 (by linarith)
  have hbtok : roundQ (qBurst l.config - 1) = qBurst l.config - 1 :=
    roundQ_sub_one _ b4 b2 hb53q
  obtain ⟨_, a2, a3⟩ := step_absent l.config hc t
  rw [hbtok] at a3
  have hlive : liveAt t (me key) = none := by
    rw [hme]
    simp only [liveAt, not_lt.mpr ht, if_false]
  -- the two calls
  have eR : l.Allow arch m t key =
      (Function.update m key (some ⟨F64.fin (qRefilled l.config T t0 t - 1), t⟩),
        ⟨true, truncToInt (qRefilled l.config T t0 t - 1),
          F64.toInt64 arch (resetQuotient l.config (some ⟨F64.fin T, t0⟩) t), none⟩) := by
    rw [Allow_mapStore arch l hs, hm]
    simp only [stepState, stepResult, s2, s3, htok, hy1, decide_True]
    rw [F64.toInt64_of_nonneg arch (by linarith) (by linarith)]
  have eE : le.Allow arch (t, me) t key =
      ((t, Function.update me key
          (some (⟨F64.fin (qBurst l.config - 1), t⟩, t + wrapInt64 (l.config.Window * 2)))),
        ⟨true, truncToInt (qBurst l.config - 1),
          F64.toInt64 arch (resetQuotient l.config none t), none⟩) := by
    rw [Allow_expiringStore arch le hsE, hcfg]
    simp only [hlive, stepState, stepResult, a2, a3]
    rw [F64.toInt64_of_nonneg arch (by linarith) (by linarith)]
  have hfull : refilled l.config (some ⟨F64.fin T, t0⟩) t =
      F64.ofInt (max cfg.BurstSize cfg.Rate) ↔ qRefilled l.config T t0 t = qBurst l.config := by
    rw [s1, ← h6, b1]
    constructor
    · intro h; injection h
    · intro h; rw [h]
  rw [eR, eE]
  simp only [Function.update_same, Option.map_some', true_and]
  refine ⟨?_, ?_⟩
  · intro h
    rw [hfull.mp h]
    exact ⟨rfl, rfl⟩
  · intro h
    have hne : qRefilled l.config T t0 t ≠ qBurst l.config := fun h2 => h (hfull.mpr h2)
    have hlt : qRefilled l.config T t0 t < qBurst l.config := lt_of_le_of_ne s5 hne
    constructor
    · have hBint : truncToInt (qBurst l.config - 1) = l.config.BurstSize - 1 := by
        rw [hb]
        have := truncToInt_intCast (l.config.BurstSize - 1)
        simpa using this
      rw [hBint]
      have hfl : truncToInt (qRefilled l.config T t0 t - 1) =
          Int.floor (qRefilled l.config T t0 t - 1) := by
        unfold truncToInt
        rw [if_pos (by linarith)]
      rw [hfl, Int.floor_lt]
      rw [hb] at hlt
      push_cast
      linarith
    · exact ⟨_, _, rfl, rfl, by linarith⟩

/-- The steps of the run on `{rate: 1, window: 2^30 ns, burst: 3}`: three
admissions at reading `0` drain the bucket, and at reading `2^31 = 2 * W` the
retained State `{0, 0}` refills to `2` while an absent key starts at `3`. -/
theorem expiry_scenario_steps :
    stepTokens (Config.mk 1 1073741824 3) none 0 = F64.fin 2 ∧
      stepTokens (Config.mk 1 1073741824 3) (some ⟨F64.fin 2, 0⟩) 0 = F64.fin 1 ∧
      stepTokens (Config.mk 1 1073741824 3) (some ⟨F64.fin 1, 0⟩) 0 = F64.fin 0 ∧
      stepAllowed (Config.mk 1 1073741824 3) (some ⟨F64.fin 0, 0⟩) 2147483648 = true ∧
      stepTokens (Config.mk 1 1073741824 3) (some ⟨F64.fin 0, 0⟩) 2147483648 = F64.fin 1 ∧
      stepAllowed (Config.mk 1 1073741824 3) none 2147483648 = true ∧
      stepTokens (Config.mk 1 1073741824 3) none 2147483648 = F64.fin 2 := by
  have hc : (Config.mk 1 1073741824 3).valid := by decide
  have hb : qBurst (Config.mk 1 1073741824 3) = 3 := by
    rw [qBurst_of_small _ hc (by decide)]
    norm_num
  have h2 : roundQ (2 : ℚ) = 2 := by
    have := roundQ_natCast 2 (by norm_num)
    simpa using this
  have habs : ∀ now, stepAllowed (Config.mk 1 1073741824 3) none now = true ∧
      stepTokens (Config.mk 1 1073741824 3) none now = F64.fin 2 := by
    intro now
    obtain ⟨_, a2, a3⟩ := step_absent (Config.mk 1 1073741824 3) hc now
    rw [hb] at a3
    norm_num [h2] at a3
    exact ⟨a2, a3⟩
  have k1 := (step_same_time_nat (Config.mk 1 1073741824 3) hc (by decide) 2 (by decide) 0).2
  have k2 := (step_same_time_nat (Config.mk 1 1073741824 3) hc (by decide) 1 (by decide) 0).2
  norm_num at k1 k2
  have hrate : qRate (Config.mk 1 1073741824 3) = 1 / 1073741824 := by
    unfold qRate
    have r1 : roundQ ((1 : Int) : ℚ) = 1 := by
      have := roundQ_natCast 1 (by norm_num)
      simpa using this
    have r2 : roundQ ((1073741824 : Int) : ℚ) = 1073741824 := by
      have := roundQ_natCast 1073741824 (by norm_num)
      simpa using this
    have r3 := roundQ_two_zpow (-30) (by norm_num)
    simp only [r1, r2]
    norm_num at r3 ⊢
    exact r3
  have hadd : qAdd (Config.mk 1 1073741824 3) 0 2147483648 = 2 := by
    unfold qAdd
    have ht : timeSub 2147483648 0 = 2147483648 := by decide
    have r2 : roundQ ((2147483648 : Int) : ℚ) = 2147483648 := by
      have := roundQ_natCast 2147483648 (by norm_num)
      simpa using this
    rw [hrate, ht, r2]
    norm_num
    exact h2
  have href : qRefilled (Config.mk 1 1073741824 3) 0 0 2147483648 = 2 := by
    unfold qRefilled
    rw [hadd, hb, zero_add, h2]
    norm_num
  have htok : qTokens (Config.mk 1 1073741824 3) 0 0 2147483648 = 1 := by
    unfold qTokens
    rw [href, if_pos (by norm_num)]
    norm_num [roundQ_one]
  obtain ⟨_, s2, s3, _⟩ := step_fin (Config.mk 1 1073741824 3) hc 0 0 2147483648 le_rfl
    (by decide)
  rw [href] at s2
  rw [htok] at s3
  refine ⟨(habs 0).2, k1, k2, ?_, s3, (habs 2147483648).1, (habs 2147483648).2⟩
  rw [s2]
  norm_num

/-- C11, counterexample. With `{rate: 1, window: 2^30 ns, burst: 3}` on an
absent key, three calls at reading `0` are admitted and leave
`{tokens: 0, lastRefill: 0}`, stored with TTL `2^31 ns = 2 * W`. At reading
`t = 2^31 = t0 + 2 * W` a call on the store that still holds the State is
admitted with remaining `1` and persists `1` token; a call on the store that
has expired the key is admitted with remaining `2` and persists `2` tokens. -/
theorem expiry_observable_counterexample :
    ∃ l le, New (Config.mk 1 1073741824 3) mapStore = Except.ok l ∧
      New (Config.mk 1 1073741824 3) expiringStore = Except.ok le ∧
      l.allowSeqStore amd64 "k" [0, 0, 0] (fun _ => none) "k" = some ⟨F64.fin 0, 0⟩ ∧
      (le.allowSeqStore amd64 "k" [0, 0, 0] (0, fun _ => none)).2 "k" =
        some (⟨F64.fin 0, 0⟩, 0 + 2 * 1073741824) ∧
      (l.Allow amd64 (l.allowSeqStore amd64 "k" [0, 0, 0] (fun _ => none))
        2147483648 "k").2.allowed = true ∧
      (l.Allow amd64 (l.allowSeqStore amd64 "k" [0, 0, 0] (fun _ => none))
        2147483648 "k").2.remaining = 1 ∧
      (l.Allow amd64 (l.allowSeqStore amd64 "k" [0, 0, 0] (fun _ => none))
        2147483648 "k").1 "k" = some ⟨F64.fin 1, 2147483648⟩ ∧
      (le.Allow amd64
        (2147483648, (le.allowSeqStore amd64 "k" [0, 0, 0] (0, fun _ => none)).2)
        2147483648 "k").2.allowed = true ∧
      (le.Allow amd64
        (2147483648, (le.allowSeqStore amd64 "k" [0, 0, 0] (0, fun _ => none)).2)
        2147483648 "k").2.remaining = 2 ∧
      ((le.Allow amd64
        (2147483648, (le.allowSeqStore amd64 "k" [0, 0, 0] (0, fun _ => none)).2)
        2147483648 "k").1.2 "k").map Prod.fst = some ⟨F64.fin 2, 2147483648⟩ := by
  obtain ⟨k0, k1, k2, ra, rt, ea, et⟩ := expiry_scenario_steps
  have hw : wrapInt64 (1073741824 * 2) = 2147483648 := by decide
  have i1 : F64.toInt64 amd64 (F64.fin 1) = 1 := by
    have := F64.toInt64_natCast amd64 1 (by norm_num)
    simpa using this
  have i2 : F64.toInt64 amd64 (F64.fin 2) = 2 := by
    have := F64.toInt64_natCast amd64 2 (by norm_num)
    simpa using this
  have hA := fun m now =>
    Allow_mapStore amd64 (limiter.mk (Config.mk 1 1073741824 3) mapStore) rfl m now "k"
  have hE := fun s now =>
    Allow_expiringStore amd64 (limiter.mk (Config.mk 1 1073741824 3) expiringStore) rfl s now "k"
  have hm : limiter.allowSeqStore amd64 (limiter.mk (Config.mk 1 1073741824 3) mapStore) "k"
      [0, 0, 0] (fun _ => none) "k" = some ⟨F64.fin 0, 0⟩ := by
    simp only [limiter.allowSeqStore, hA, Function.update_same,
      stepState, k0, k1, k2]
  have hme : (limiter.allowSeqStore amd64
      (limiter.mk (Config.mk 1 1073741824 3) expiringStore) "k"
      [0, 0, 0] (0, fun _ => none)).2 "k" = some (⟨F64.fin 0, 0⟩, 0 + 2 * 1073741824) := by
    simp only [limiter.allowSeqStore, hE, Function.update_same,
      stepState, liveAt, hw, k0, k1, k2]
    norm_num [k1, k2]
  refine ⟨limiter.mk (Config.mk 1 1073741824 3) mapStore,
    limiter.mk (Config.mk 1 1073741824 3) expiringStore, rfl, rfl, hm, hme, ?_, ?_, ?_, ?_, ?_, ?_⟩
  · rw [hA, hm]
    simp only [stepResult, ra]
  · rw [hA, hm]
    simp only [stepResult, rt, i1]
  · rw [hA, hm]
    simp only [Function.update_same, stepState, rt]
  · rw [hE, hme]
    simp only [liveAt]
    norm_num [stepResult, ea]
  · rw [hE, hme]
    simp only [liveAt]
    norm_num [stepResult, et, i2]
  · rw [hE, hme]
    simp only [liveAt]
    norm_num [stepState, et]

/-- The amended C11 statement at the configuration of the server
(`rate=100, window=60s, burst=150`), for a drained State `{0, 0}` read back at
`t = 120 s`. -/
theorem expiry_agrees_iff_refilled_witness :
    ((limiter.mk (Config.mk 100 60000000000 150) mapStore).Allow amd64
        (Function.update (fun _ => none) "k" (some ⟨F64.fin 0, 0⟩))
        120000000000 "k").2.allowed = true ∧
      ((limiter.mk (Config.mk 100 60000000000 150) expiringStore).Allow amd64
        (120000000000, (Function.update (fun _ => none) "k" (some (⟨F64.fin 0, 0⟩, 0 + 2 * 60000000000))))
        120000000000 "k").2.allowed = true ∧
      (refilled (Config.mk 100 60000000000 150) (some ⟨F64.fin 0, 0⟩) 120000000000 = F64.ofInt (max 150 100) →
        ((limiter.mk (Config.mk 100 60000000000 150) expiringStore).Allow amd64
        (120000000000, (Function.update (fun _ => none) "k" (some (⟨F64.fin 0, 0⟩, 0 + 2 * 60000000000))))
        120000000000 "k").2.remaining =
          ((limiter.mk (Config.mk 100 60000000000 150) mapStore).Allow amd64
        (Function.update (fun _ => none) "k" (some ⟨F64.fin 0, 0⟩))
        120000000000 "k").2.remaining ∧
        (((limiter.mk (Config.mk 100 60000000000 150) expiringStore).Allow amd64
        (120000000000, (Function.update (fun _ => none) "k" (some (⟨F64.fin 0, 0⟩, 0 + 2 * 60000000000))))
        120000000000 "k").1.2 "k").map Prod.fst =
          ((limiter.mk (Config.mk 100 60000000000 150) mapStore).Allow amd64
        (Function.update (fun _ => none) "k" (some ⟨F64.fin 0, 0⟩))
        120000000000 "k").1 "k") ∧
      (refilled (Config.mk 100 60000000000 150) (some ⟨F64.fin 0, 0⟩) 120000000000 ≠ F64.ofInt (max 150 100) →
        ((limiter.mk (Config.mk 100 60000000000 150) mapStore).Allow amd64
        (Function.update (fun _ => none) "k" (some ⟨F64.fin 0, 0⟩))
        120000000000 "k").2.remaining <
          ((limiter.mk (Config.mk 100 60000000000 150) expiringStore).Allow amd64
        (120000000000, (Function.update (fun _ => none) "k" (some (⟨F64.fin 0, 0⟩, 0 + 2 * 60000000000))))
        120000000000 "k").2.remaining ∧
        ∃ Tr Te, ((limiter.mk (Config.mk 100 60000000000 150) mapStore).Allow amd64
        (Function.update (fun _ => none) "k" (some ⟨F64.fin 0, 0⟩))
        120000000000 "k").1 "k" = some ⟨F64.fin Tr, 120000000000⟩ ∧
          (((limiter.mk (Config.mk 100 60000000000 150) expiringStore).Allow amd64
        (120000000000, (Function.update (fun _ => none) "k" (some (⟨F64.fin 0, 0⟩, 0 + 2 * 60000000000))))
        120000000000 "k").1.2 "k").map Prod.fst = some ⟨F64.fin Te, 120000000000⟩ ∧
          Tr < Te) :=
  expiry_agrees_iff_refilled amd64 (Config.mk 100 60000000000 150)
    (limiter.mk (Config.mk 100 60000000000 150) mapStore) (limiter.mk (Config.mk 100 60000000000 150) expiringStore) rfl rfl (by decide) (by decide) (by decide)
    (Function.update (fun _ => none) "k" (some ⟨F64.fin 0, 0⟩))
    (Function.update (fun _ => none) "k" (some (⟨F64.fin 0, 0⟩, 0 + 2 * 60000000000)))
    "k" 0 0 120000000000 (Function.update_same _ _ _) (Function.update_same _ _ _)
    le_rfl (by norm_num) (by decide)

/-! ## C10: the admission bound -/

/-- Rounding to binary64 moves a positive number by at most half a unit in the
last place. -/
theorem roundQ_half_ulp {q : ℚ} :
    roundQ q - (2 : ℚ) ^ ulpExp q / 2 ≤ q ∧ q ≤ roundQ q + (2 : ℚ) ^ ulpExp q / 2 := by
  have hpos := two_zpow_pos (ulpExp q)
  obtain ⟨h1, h2⟩ := roundHalfEven_near (q / (2 : ℚ) ^ ulpExp q)
  rw [le_div_iff₀ hpos] at h1
  rw [div_le_iff₀ hpos] at h2
  unfold roundQ
  constructor <;> nlinarith

/-- In the normal range the relative error of the rounding is at most the unit
roundoff `2 ^ (-53)`. -/
theorem roundQ_rel_error {q : ℚ} (hq : (2 : ℚ) ^ (-1022 : Int) ≤ q) :
    q - q / 9007199254740992 ≤ roundQ q ∧ roundQ q ≤ q + q / 9007199254740992 := by
  have hq0 : 0 < q := lt_of_lt_of_le (two_zpow_pos _) hq
  have hlog : -1022 ≤ Int.log 2 q :=
    (Int.zpow_le_iff_le_log (b := 2) (x := -1022) (r := q) (by norm_num) hq0).mp
      (by simpa using hq)
  obtain ⟨_, hs, _⟩ := scaled_bracket hq0 hlog
  have hpos := two_zpow_pos (ulpExp q)
  rw [le_div_iff₀ hpos] at hs
  have h52 : (2 : ℚ) ^ (52 : Int) = 4503599627370496 := by norm_num
  rw [h52] at hs
  obtain ⟨h1, h2⟩ := roundQ_half_ulp (q := q)
  constructor <;> linarith

/-- The rounding of a non-negative number exceeds it by at most the larger of
its unit-roundoff share and half the smallest subnormal. -/
theorem roundQ_abs_error {q : ℚ} (hq : 0 ≤ q) :
    roundQ q ≤ q + max (q / 9007199254740992) ((2 : ℚ) ^ (-1075 : Int)) := by
  rcases eq_or_lt_of_le hq with h0 | hq0
  · rw [← h0, roundQ_zero]
    have := two_zpow_pos (-1075)
    have h2 := le_max_right ((0 : ℚ) / 9007199254740992) ((2 : ℚ) ^ (-1075 : Int))
    linarith
  by_cases hlog : -1022 ≤ Int.log 2 q
  · have h1022 : (2 : ℚ) ^ (-1022 : Int) ≤ q :=
      le_trans (two_zpow_mono hlog) (log_two_bracket hq0).1
    have := (roundQ_rel_error h1022).2
    have h2 := le_max_left (q / 9007199254740992) ((2 : ℚ) ^ (-1075 : Int))
    linarith
  · have hu : ulpExp q = -1074 := by
      rw [ulpExp_of_pos hq0]
      exact max_eq_right (by omega)
    obtain ⟨h1, _⟩ := roundQ_half_ulp (q := q)
    rw [hu] at h1
    have e : (2 : ℚ) ^ (-1074 : Int) / 2 = (2 : ℚ) ^ (-1075 : Int) := by
      rw [show (-1074 : Int) = -1075 + 1 by norm_num, zpow_add₀ (by norm_num : (2 : ℚ) ≠ 0)]
      norm_num
    rw [e] at h1
    have h2 := le_max_right (q / 9007199254740992) ((2 : ℚ) ^ (-1075 : Int))
    generalize (2 : ℚ) ^ (-1075 : Int) = eta at h1 h2 ⊢
    generalize max (q / 9007199254740992) eta = mx at h2 ⊢
    linarith

theorem normal_of_ge_two_pow_neg63 {q : ℚ} (h : (1 : ℚ) / 9223372036854775808 ≤ q) :
    (2 : ℚ) ^ (-1022 : Int) ≤ q := by
  have e : (1 : ℚ) / 9223372036854775808 = (2 : ℚ) ^ (-63 : Int) := by norm_num
  rw [e] at h
  exact le_trans (two_zpow_mono (by norm_num)) h

/-- The computed refill rate exceeds `R / W` by at most three roundings. -/
theorem qRate_le (c : Config) (hc : c.valid) :
    qRate c ≤ (1 + 1 / 9007199254740992) ^ 2 / (1 - 1 / 9007199254740992) *
      ((c.Rate : ℚ) / (c.Window : ℚ)) := by
  obtain ⟨h1, h2, _, ⟨_, hr⟩, ⟨_, hw⟩, _⟩ := hc
  have rp := F64.ofInt_of_pos c.Rate h1 hr
  have wp := F64.ofInt_of_pos c.Window h2 hw
  obtain ⟨_, _, w3, _⟩ := F64.ofInt_of_nonneg c.Window (by omega) hw
  have hRq : (1 : ℚ) ≤ (c.Rate : ℚ) := by exact_mod_cast h1
  have hWq : (1 : ℚ) ≤ (c.Window : ℚ) := by exact_mod_cast h2
  have hRn : (2 : ℚ) ^ (-1022 : Int) ≤ (c.Rate : ℚ) :=
    normal_of_ge_two_pow_neg63 (le_trans (by norm_num) hRq)
  have hWn : (2 : ℚ) ^ (-1022 : Int) ≤ (c.Window : ℚ) :=
    normal_of_ge_two_pow_neg63 (le_trans (by norm_num) hWq)
  have eR := (roundQ_rel_error hRn).2
  have eW := (roundQ_rel_error hWn).1
  have wpos : (0 : ℚ) < roundQ (c.Window : ℚ) := by linarith
  have hlo : (1 : ℚ) / 9223372036854775808 ≤ roundQ (c.Rate : ℚ) / roundQ (c.Window : ℚ) := by
    rw [div_le_div_iff₀ (by norm_num) wpos]
    nlinarith
  have eQ := (roundQ_rel_error (normal_of_ge_two_pow_neg63 hlo)).2
  have hW' : (0 : ℚ) < (c.Window : ℚ) * (1 - 1 / 9007199254740992) :=
    mul_pos (by linarith) (by norm_num)
  have hdiv : roundQ (c.Rate : ℚ) / roundQ (c.Window : ℚ) ≤
      ((c.Rate : ℚ) * (1 + 1 / 9007199254740992)) /
        ((c.Window : ℚ) * (1 - 1 / 9007199254740992)) := by
    apply div_le_div₀
    · exact mul_nonneg (by linarith) (by norm_num)
    · linarith
    · exact hW'
    · linarith
  have hq0 : (0 : ℚ) ≤ roundQ (c.Rate : ℚ) / roundQ (c.Window : ℚ) :=
    div_nonneg (by linarith) (le_of_lt wpos)
  unfold qRate
  have hstep : roundQ (roundQ (c.Rate : ℚ) / roundQ (c.Window : ℚ)) ≤
      (roundQ (c.Rate : ℚ) / roundQ (c.Window : ℚ)) * (1 + 1 / 9007199254740992) := by
    linarith
  refine le_trans hstep ?_
  refine le_trans (mul_le_mul_of_nonneg_right hdiv (by norm_num)) ?_
  apply le_of_eq
  have hWne : (c.Window : ℚ) ≠ 0 := by linarith
  field_simp
  ring

/-- The computed refill of one call exceeds `(R / W) * (now - last)` by at most
six roundings. -/
theorem qAdd_le (c : Config) (hc : c.valid) (last now : Int) (h : last ≤ now) :
    qAdd c last now ≤
      (1 + 1 / 9007199254740992) ^ 4 / (1 - 1 / 9007199254740992) *
        ((c.Rate : ℚ) / (c.Window : ℚ) * (((now - last : Int) : ℚ))) := by
  obtain ⟨t0, t1⟩ := timeSub_nonneg h
  have hd : timeSub now last ≤ now - last := by
    unfold timeSub
    exact max_le (by omega) (min_le_right _ _)
  have hdq : ((timeSub now last : Int) : ℚ) ≤ ((now - last : Int) : ℚ) := by exact_mod_cast hd
  have hR := qRate_le c hc
  have hrpos := qRate_pos c hc
  obtain ⟨_, q2, _, _⟩ := qRate_facts c hc
  have hrho : (0 : ℚ) ≤ (c.Rate : ℚ) / (c.Window : ℚ) := by
    obtain ⟨h1, h2, _⟩ := hc
    have hRq : (1 : ℚ) ≤ (c.Rate : ℚ) := by exact_mod_cast h1
    have hWq : (1 : ℚ) ≤ (c.Window : ℚ) := by exact_mod_cast h2
    exact div_nonneg (by linarith) (by linarith)
  have hK2 : (0 : ℚ) ≤ (1 + 1 / 9007199254740992) ^ 2 / (1 - 1 / 9007199254740992) := by
    norm_num
  unfold qAdd
  rcases eq_or_lt_of_le t0 with hz | hpos
  · rw [← hz]
    simp only [Int.cast_zero, roundQ_zero, mul_zero]
    apply mul_nonneg (by norm_num)
    exact mul_nonneg hrho (by exact_mod_cast (by omega : (0 : Int) ≤ now - last))
  · have hD1 : (1 : ℚ) ≤ ((timeSub now last : Int) : ℚ) := by
      exact_mod_cast (by omega : (1 : Int) ≤ timeSub now last)
    have hDn := normal_of_ge_two_pow_neg63 (le_trans (by norm_num) hD1)
    have eD := (roundQ_rel_error hDn).2
    have hDr1 : (1 : ℚ) ≤ roundQ ((timeSub now last : Int) : ℚ) :=
      le_roundQ (by norm_num) roundQ_one hD1
    have hp : (1 : ℚ) / 9223372036854775808 ≤
        qRate c * roundQ ((timeSub now last : Int) : ℚ) := by
      nlinarith
    have eP := (roundQ_rel_error (normal_of_ge_two_pow_neg63 hp)).2
    -- chain the factors
    have s1 : qRate c * roundQ ((timeSub now last : Int) : ℚ) ≤
        qRate c * (((now - last : Int) : ℚ) * (1 + 1 / 9007199254740992)) := by
      apply mul_le_mul_of_nonneg_left _ (le_of_lt hrpos)
      nlinarith
    have hnl0 : (0 : ℚ) ≤ ((now - last : Int) : ℚ) := by linarith
    have s2 : qRate c * (((now - last : Int) : ℚ) * (1 + 1 / 9007199254740992)) ≤
        ((1 + 1 / 9007199254740992) ^ 2 / (1 - 1 / 9007199254740992) *
          ((c.Rate : ℚ) / (c.Window : ℚ))) *
            (((now - last : Int) : ℚ) * (1 + 1 / 9007199254740992)) :=
      mul_le_mul_of_nonneg_right hR (mul_nonneg hnl0 (by norm_num))
    have s3 : roundQ (qRate c * roundQ ((timeSub now last : Int) : ℚ)) ≤
        (qRate c * roundQ ((timeSub now last : Int) : ℚ)) * (1 + 1 / 9007199254740992) := by
      linarith
    refine le_trans s3 ?_
    refine le_trans (mul_le_mul_of_nonneg_right (le_trans s1 s2) (by norm_num)) ?_
    apply le_of_eq
    ring

/-- One call: the tokens left plus the admission granted exceed the tokens
before the call by the computed refill and at most two roundings of the burst. -/
theorem step_potential (c : Config) (hc : c.valid) (T : ℚ) (last now : Int) (hT0 : 0 ≤ T)
    (hTb : T ≤ qBurst c) (h : last ≤ now) :
    qTokens c T last now + (if 1 ≤ qRefilled c T last now then 1 else 0) ≤
      T + (1 + 1 / 9007199254740992) * qAdd c last now +
        2 * (qBurst c / 9007199254740992) := by
  obtain ⟨_, b2, _, _⟩ := qBurst_facts c hc
  obtain ⟨_, a2, _⟩ := qAdd_facts c hc last now h
  have hη : (2 : ℚ) ^ (-1075 : Int) ≤ qBurst c / 9007199254740992 := by
    have e : (1 : ℚ) / 9007199254740992 = (2 : ℚ) ^ (-53 : Int) := by norm_num
    have h1 : (2 : ℚ) ^ (-1075 : Int) ≤ (2 : ℚ) ^ (-53 : Int) := two_zpow_mono (by norm_num)
    rw [← e] at h1
    have h2 : (1 : ℚ) / 9007199254740992 ≤ qBurst c / 9007199254740992 :=
      div_le_div_of_nonneg_right b2 (by norm_num)
    exact le_trans h1 h2
  have hx := roundQ_abs_error (q := T + qAdd c last now) (by linarith)
  have hmx : max ((T + qAdd c last now) / 9007199254740992) ((2 : ℚ) ^ (-1075 : Int)) ≤
      qBurst c / 9007199254740992 + qAdd c last now / 9007199254740992 := by
    apply max_le
    · rw [add_div]
      have : T / 9007199254740992 ≤ qBurst c / 9007199254740992 :=
        div_le_div_of_nonneg_right hTb (by norm_num)
      linarith
    · have : (0 : ℚ) ≤ qAdd c last now / 9007199254740992 := div_nonneg a2 (by norm_num)
      linarith
  have hyx : qRefilled c T last now ≤ roundQ (T + qAdd c last now) := min_le_right _ _
  have hyb : qRefilled c T last now ≤ qBurst c := min_le_left _ _
  have hux : roundQ (T + qAdd c last now) ≤
      T + (1 + 1 / 9007199254740992) * qAdd c last now + qBurst c / 9007199254740992 := by
    have e : (1 + 1 / 9007199254740992) * qAdd c last now =
        qAdd c last now + qAdd c last now / 9007199254740992 := by ring
    rw [e]
    linarith
  have hb0 : (0 : ℚ) ≤ qBurst c / 9007199254740992 := div_nonneg (by linarith) (by norm_num)
  unfold qTokens
  by_cases hy : 1 ≤ qRefilled c T last now
  · rw [if_pos hy, if_pos hy]
    have hs := roundQ_abs_error (q := qRefilled c T last now - 1) (by linarith)
    have hms : max ((qRefilled c T last now - 1) / 9007199254740992)
        ((2 : ℚ) ^ (-1075 : Int)) ≤ qBurst c / 9007199254740992 := by
      apply max_le _ hη
      exact div_le_div_of_nonneg_right (by linarith) (by norm_num)
    linarith
  · rw [if_neg hy, if_neg hy]
    linarith

theorem admitted_cons (r : Result) (rs : List Result) :
    admitted (r :: rs) = (if r.allowed then 1 else 0) + admitted rs := by
  unfold admitted
  cases h : r.allowed
  · simp [List.filter, h]
  · simp [List.filter, h]
    omega

/-- The potential argument behind C10: from a stored State `{T, last}` with
`0 ≤ T ≤ float64(B)`, the admissions of a run at non-decreasing readings are
bounded by the tokens at the start, the refill of the elapsed time inflated by
the roundings of the rate computation, and two roundings of the burst per
call. -/
theorem admitted_from_state (arch : Arch) (l : limiter (String → Option State))
    (hs : l.store = mapStore) (hc : l.config.valid) (key : String) (ts : List Int) :
    ∀ (m : String → Option State) (T : ℚ) (last : Int),
      m key = some ⟨F64.fin T, last⟩ → 0 ≤ T → T ≤ qBurst l.config →
      (last :: ts).Pairwise (fun a b => a ≤ b) →
      (admitted (l.allowSeq arch key ts m) : ℚ) ≤
        T + (1 + 1 / 9007199254740992) ^ 5 / (1 - 1 / 9007199254740992) *
            ((l.config.Rate : ℚ) / (l.config.Window : ℚ) *
              (((ts.getLastD last - last : Int)) : ℚ)) +
          (ts.length : ℚ) * (2 * (qBurst l.config / 9007199254740992)) := by
  induction ts with
  | nil =>
    intro m T last _ hT0 _ _
    simp only [limiter.allowSeq, admitted, List.filter_nil, List.length_nil, Nat.cast_zero,
      List.getLastD_nil, sub_self, Int.cast_zero, mul_zero, zero_mul, add_zero]
    exact hT0
  | cons t rest ih =>
    intro m T last hm hT0 hTb hmono
    have hlt : last ≤ t := (List.pairwise_cons.mp hmono).1 t (List.mem_cons_self _ _)
    have hmono2 : (t :: rest).Pairwise (fun a b => a ≤ b) := (List.pairwise_cons.mp hmono).2
    obtain ⟨_, s2, s3, _, _, s6, s7⟩ := step_fin l.config hc T last t hT0 hlt
    have hpot := step_potential l.config hc T last t hT0 hTb hlt
    have hadd := qAdd_le l.config hc last t hlt
    have hm2 : (Function.update m key (some (stepState l.config (m key) t))) key =
        some ⟨F64.fin (qTokens l.config T last t), t⟩ := by
      rw [Function.update_same, hm]
      simp only [stepState, s3]
    have hrest := ih (Function.update m key (some (stepState l.config (m key) t)))
      (qTokens l.config T last t) t hm2 s6 s7 hmono2
    have hgl : t ≤ rest.getLastD t := by
      rcases List.eq_nil_or_concat rest with hnil | ⟨L, b, hb⟩
      · rw [hnil]
        simp
      · rw [hb]
        have hmem : b ∈ rest := by rw [hb]; simp
        have := (List.pairwise_cons.mp hmono2).1 b hmem
        simpa using this
    rw [limiter.allowSeq, Allow_mapStore arch l hs m t key, admitted_cons, List.getLastD_cons,
      List.length_cons]
    simp only [stepResult]
    rw [hm]
    simp only [s2]
    have hrho : (0 : ℚ) ≤ (l.config.Rate : ℚ) / (l.config.Window : ℚ) := by
      obtain ⟨h1, h2, _⟩ := hc
      have hRq : (1 : ℚ) ≤ (l.config.Rate : ℚ) := by exact_mod_cast h1
      have hWq : (1 : ℚ) ≤ (l.config.Window : ℚ) := by exact_mod_cast h2
      exact div_nonneg (by linarith) (by linarith)
    rw [hm] at hrest
    push_cast at hrest hadd ⊢
    have hK : (1 + 1 / 9007199254740992 : ℚ) *
        ((1 + 1 / 9007199254740992) ^ 4 / (1 - 1 / 9007199254740992) *
          ((l.config.Rate : ℚ) / (l.config.Window : ℚ) * ((t : ℚ) - (last : ℚ)))) =
        (1 + 1 / 9007199254740992) ^ 5 / (1 - 1 / 9007199254740992) *
          ((l.config.Rate : ℚ) / (l.config.Window : ℚ) * ((t : ℚ) - (last : ℚ))) := by
      ring
    have hadd2 := mul_le_mul_of_nonneg_left hadd
      (by norm_num : (0 : ℚ) ≤ 1 + 1 / 9007199254740992)
    rw [hK] at hadd2
    have hsplit : (1 + 1 / 9007199254740992 : ℚ) ^ 5 / (1 - 1 / 9007199254740992) *
        ((l.config.Rate : ℚ) / (l.config.Window : ℚ) *
          (((rest.getLastD t : Int) : ℚ) - (last : ℚ))) =
        (1 + 1 / 9007199254740992) ^ 5 / (1 - 1 / 9007199254740992) *
          ((l.config.Rate : ℚ) / (l.config.Window : ℚ) * ((t : ℚ) - (last : ℚ))) +
        (1 + 1 / 9007199254740992) ^ 5 / (1 - 1 / 9007199254740992) *
          ((l.config.Rate : ℚ) / (l.config.Window : ℚ) *
            (((rest.getLastD t : Int) : ℚ) - (t : ℚ))) := by
      ring
    rw [hsplit]
    by_cases hy : 1 ≤ qRefilled l.config T last t
    · simp only [hy, decide_True, if_true] at hpot ⊢
      linarith
    · simp only [hy, decide_False, if_false] at hpot ⊢
      push_cast
      linarith

/-- C10, counterexample. With `{rate: 1, window: 365 days, burst: 1}` on an
absent key, calls at readings `0` and `W - 1` ns are both admitted: `float64`
rounds the elapsed `W - 1` ns up to `W` and the refill to `1.0`, while
`B + R * (tn - t1) / W = 2 - 1 / W` is below `2`. -/
theorem admission_bound_counterexample :
    ∃ l, New (Config.mk 1 31536000000000000 1) mapStore = Except.ok l ∧
      admitted (l.allowSeq amd64 "k" [0, 31535999999999999] (fun _ => none)) = 2 ∧
      ¬ ((2 : ℚ) ≤ ((max 1 1 : Int) : ℚ) +
        ((1 : Int) : ℚ) * (((31535999999999999 : Int) : ℚ) - ((0 : Int) : ℚ)) /
          ((31536000000000000 : Int) : ℚ)) := by
  obtain ⟨a2, a3, s2, _⟩ := year_window_steps
  have hA := fun m now =>
    Allow_mapStore amd64 (limiter.mk (Config.mk 1 31536000000000000 1) mapStore) rfl m now "k"
  refine ⟨limiter.mk (Config.mk 1 31536000000000000 1) mapStore, rfl, ?_, by norm_num⟩
  simp only [limiter.allowSeq, hA, Function.update_same, stepState, stepResult, a2, a3, s2,
    admitted_cons]
  rfl

/-- C10, amended. For a limiter built by `New` from 64-bit fields over the
in-memory store (no expiry), with rate `R`, window `W` and effective burst `B`,
and `n` serialized `Allow` calls on one key that is absent at the start, made at
non-decreasing clock readings `t1 ≤ ... ≤ tn` with no `Reset` in between: with
`u = 2 ^ (-53)`, the unit roundoff of `float64`, the number of admitted calls is
at most `(1 + u) * (1 + 2 * n * u) * B + (1 + u) ^ 5 / (1 - u) * R * (tn - t1) / W`. -/
theorem admission_bound (arch : Arch) (cfg : Config) (l : limiter (String → Option State))
    (hnew : New cfg mapStore = Except.ok l) (hr : cfg.inRange)
    (m : String → Option State) (key : String)
    (hm : m key = none) (t1 : Int) (rest : List Int)
    (hmono : (t1 :: rest).Pairwise (fun a b => a ≤ b)) :
    (admitted (l.allowSeq arch key (t1 :: rest) m) : ℚ) ≤
      (1 + 1 / 9007199254740992) *
          (1 + 2 * ((t1 :: rest).length : ℚ) / 9007199254740992) *
          ((max cfg.BurstSize cfg.Rate : Int) : ℚ) +
        (1 + 1 / 9007199254740992) ^ 5 / (1 - 1 / 9007199254740992) *
          ((cfg.Rate : ℚ) *
            ((((t1 :: rest).getLast (List.cons_ne_nil t1 rest) : Int) : ℚ) - (t1 : ℚ)) /
            (cfg.Window : ℚ)) := by
  have hc := New_valid hnew hr
  obtain ⟨_, _, hs, h4, h5, hB⟩ := New_ok hnew
  obtain ⟨_, b2, _, b4⟩ := qBurst_facts l.config hc
  obtain ⟨_, a2, a3⟩ := step_absent l.config hc t1
  have hT0 : 0 ≤ roundQ (qBurst l.config - 1) := roundQ_nonneg (by linarith)
  have hTb : roundQ (qBurst l.config - 1) ≤ qBurst l.config :=
    roundQ_le (by linarith) b4 (by linarith)
  have hub : (2 : ℚ) ^ (-1075 : Int) ≤ qBurst l.config / 9007199254740992 := by
    have e : (1 : ℚ) / 9007199254740992 = (2 : ℚ) ^ (-53 : Int) := by norm_num
    have h1 : (2 : ℚ) ^ (-1075 : Int) ≤ (2 : ℚ) ^ (-53 : Int) := two_zpow_mono (by norm_num)
    rw [← e] at h1
    exact le_trans h1 (div_le_div_of_nonneg_right b2 (by norm_num))
  have hT1 : roundQ (qBurst l.config - 1) ≤
      qBurst l.config - 1 + qBurst l.config / 9007199254740992 := by
    have h := roundQ_abs_error (q := qBurst l.config - 1) (by linarith)
    have hmx : max ((qBurst l.config - 1) / 9007199254740992) ((2 : ℚ) ^ (-1075 : Int)) ≤
        qBurst l.config / 9007199254740992 :=
      max_le (div_le_div_of_nonneg_right (by linarith) (by norm_num)) hub
    linarith
  have hm2 : (Function.update m key (some (stepState l.config (m key) t1))) key =
      some ⟨F64.fin (roundQ (qBurst l.config - 1)), t1⟩ := by
    rw [Function.update_same, hm]
    simp only [stepState, a3]
  have hrest := admitted_from_state arch l hs hc key rest
    (Function.update m key (some (stepState l.config (m key) t1)))
    (roundQ (qBurst l.config - 1)) t1 hm2 hT0 hTb hmono
  have hBq : (1 : ℚ) ≤ (l.config.BurstSize : ℚ) := by
    obtain ⟨h1, _, h3, _⟩ := hc
    exact_mod_cast (by omega : (1 : Int) ≤ l.config.BurstSize)
  have hbB : qBurst l.config ≤
      (l.config.BurstSize : ℚ) + (l.config.BurstSize : ℚ) / 9007199254740992 :=
    (roundQ_rel_error (normal_of_ge_two_pow_neg63 (le_trans (by norm_num) hBq))).2
  rw [limiter.allowSeq, Allow_mapStore arch l hs m t1 key, admitted_cons,
    List.getLast_eq_getLastD, ← hB, ← h4, ← h5]
  simp only [stepResult]
  rw [hm]
  simp only [a2, if_true, List.length_cons]
  rw [hm] at hrest
  push_cast at hrest ⊢
  have hn0 : (0 : ℚ) ≤ (rest.length : ℚ) := Nat.cast_nonneg _
  have hring : (1 + 1 / 9007199254740992 : ℚ) ^ 5 / (1 - 1 / 9007199254740992) *
      ((l.config.Rate : ℚ) * (((rest.getLastD t1 : Int) : ℚ) - (t1 : ℚ)) /
        (l.config.Window : ℚ)) =
      (1 + 1 / 9007199254740992) ^ 5 / (1 - 1 / 9007199254740992) *
        ((l.config.Rate : ℚ) / (l.config.Window : ℚ) *
          (((rest.getLastD t1 : Int) : ℚ) - (t1 : ℚ))) := by
    ring
  rw [hring]
  have hfin : qBurst l.config +
      ((rest.length : ℚ) + 1) * (2 * (qBurst l.config / 9007199254740992)) ≤
      (1 + 1 / 9007199254740992) * (1 + 2 * ((rest.length : ℚ) + 1) / 9007199254740992) *
        (l.config.BurstSize : ℚ) := by
    have e : qBurst l.config +
        ((rest.length : ℚ) + 1) * (2 * (qBurst l.config / 9007199254740992)) =
        (1 + 2 * ((rest.length : ℚ) + 1) / 9007199254740992) * qBurst l.config := by ring
    have e2 : (1 + 1 / 9007199254740992) *
        (1 + 2 * ((rest.length : ℚ) + 1) / 9007199254740992) * (l.config.BurstSize : ℚ) =
        (1 + 2 * ((rest.length : ℚ) + 1) / 9007199254740992) *
          ((l.config.BurstSize : ℚ) + (l.config.BurstSize : ℚ) / 9007199254740992) := by ring
    rw [e, e2]
    exact mul_le_mul_of_nonneg_left hbB (by positivity)
  have hub0 : (0 : ℚ) ≤ qBurst l.config / 9007199254740992 :=
    div_nonneg (by linarith) (by norm_num)
  nlinarith

/-- The amended C10 bound at scenario 1 (`rate=10, window=1s, burst=10`): three
calls, the last one 0.1 s after the first. -/
theorem admission_bound_witness :
    (admitted ((limiter.mk (Config.mk 10 1000000000 10) mapStore).allowSeq amd64 "k"
        (0 :: [0, 100000000]) (fun _ => none)) : ℚ) ≤
      (1 + 1 / 9007199254740992) *
          (1 + 2 * ((0 :: [0, 100000000] : List Int).length : ℚ) / 9007199254740992) *
          ((max 10 10 : Int) : ℚ) +
        (1 + 1 / 9007199254740992) ^ 5 / (1 - 1 / 9007199254740992) *
          (((10 : Int) : ℚ) *
            ((((0 :: [0, 100000000]).getLast (List.cons_ne_nil 0 [0, 100000000]) : Int) : ℚ) -
              ((0 : Int) : ℚ)) /
            ((1000000000 : Int) : ℚ)) :=
  admission_bound amd64 (Config.mk 10 1000000000 10)
    (limiter.mk (Config.mk 10 1000000000 10) mapStore) rfl (by decide) (fun _ => none) "k" rfl 0
    [0, 100000000] (by decide)

end Drl
